import Mathlib

/-!
Verification of the splay tree implementation in `src/tree/splay_tree.py`.

The Python code is an imperative binary search tree with parent pointers.
We embed it as a purely functional tree together with an explicit context
(zipper): the context records the chain of parent links from a node up to
the root, so the bottom-up `_splay` loop, which walks `node.parent`,
becomes structural recursion on the context.  Values in the Python code
are arbitrary objects or `None` (the default of `insert`), so the value
type is `Option γ` throughout, and `find` returns the stored value on a
hit and `none` on a miss, exactly like the Python `find`.
-/

set_option autoImplicit false

namespace SplayTree

variable {γ : Type}

/-- A binary tree node: key, value (a Python object or `None`), and the two
child subtrees.  The parent pointer of the Python `Node` is represented by
the `Ctx` zipper below. -/
inductive Tree (γ : Type) where
  | leaf : Tree γ
  | node (l : Tree γ) (key : Int) (value : Option γ) (r : Tree γ) : Tree γ
  deriving DecidableEq, Repr

/-- The chain of parent links from a node up to the root.
`Ctx.left pk pv pr rest` means: the current node is the LEFT child of a
parent with key `pk`, value `pv` and right subtree `pr`, and `rest` is the
parent's own context.  `Ctx.right pk pv pl rest` is the mirror image. -/
inductive Ctx (γ : Type) where
  | nil : Ctx γ
  | left (pk : Int) (pv : Option γ) (pr : Tree γ) (rest : Ctx γ) : Ctx γ
  | right (pk : Int) (pv : Option γ) (pl : Tree γ) (rest : Ctx γ) : Ctx γ
  deriving DecidableEq, Repr

namespace Tree

/-- Inorder traversal (`SplayTree.inorder`): left subtree, node, right
subtree; returns the list of (key, value) pairs. -/
def inorder : Tree γ → List (Int × Option γ)
  | .leaf => []
  | .node l k v r => inorder l ++ (k, v) :: inorder r

/-- The keys of a tree, in inorder. -/
def keys (t : Tree γ) : List Int :=
  (inorder t).map Prod.fst

/-- The key at the root, if any (`self.root.key`). -/
def rootKey : Tree γ → Option Int
  | .leaf => none
  | .node _ k _ _ => some k

end Tree

/-- Rebuild the whole tree from a subtree and its context, performing no
rotation: this is what the tree looks like if we simply stop and walk back
up the parent chain. -/
def plug : Tree γ → Ctx γ → Tree γ
  | t, .nil => t
  | t, .left pk pv pr rest => plug (.node t pk pv pr) rest
  | t, .right pk pv pl rest => plug (.node pl pk pv t) rest

/-- The part of the surrounding tree that sits to the left of the current
subtree in inorder. -/
def ctxL : Ctx γ → List (Int × Option γ)
  | .nil => []
  | .left _ _ _ rest => ctxL rest
  | .right pk pv pl rest => ctxL rest ++ pl.inorder ++ [(pk, pv)]

/-- The part of the surrounding tree that sits to the right of the current
subtree in inorder. -/
def ctxR : Ctx γ → List (Int × Option γ)
  | .nil => []
  | .left pk pv pr rest => ((pk, pv) :: pr.inorder) ++ ctxR rest
  | .right _ _ _ rest => ctxR rest

/-- `SplayTree._splay`, in zipper form.  The Python loop walks
`node.parent`; here the parent chain is the context argument, and each
loop iteration consumes one (zig) or two (zig-zig / zig-zag) context
entries.  Each right-hand side is the subtree produced by the
corresponding `_rotate_right` / `_rotate_left` calls of the Python code.
A null node (`if not node: return None`) leaves the tree alone. -/
def splay : Tree γ → Ctx γ → Tree γ
  | .leaf, ctx => plug .leaf ctx
  | .node l k v r, .nil => .node l k v r
  | .node l k v r, .left pk pv pr .nil =>
      -- zig: node is the left child of the root; rotate_right(parent)
      .node l k v (.node r pk pv pr)
  | .node l k v r, .right pk pv pl .nil =>
      -- zig: node is the right child of the root; rotate_left(parent)
      .node (.node pl pk pv l) k v r
  | .node l k v r, .left pk pv pr (.left gk gv gr rest) =>
      -- zig-zig (left-left): rotate_right(grandparent); rotate_right(parent)
      splay (.node l k v (.node r pk pv (.node pr gk gv gr))) rest
  | .node l k v r, .right pk pv pl (.right gk gv gl rest) =>
      -- zig-zig (right-right): rotate_left(grandparent); rotate_left(parent)
      splay (.node (.node (.node gl gk gv pl) pk pv l) k v r) rest
  | .node l k v r, .left pk pv pr (.right gk gv gl rest) =>
      -- zig-zag: node left child, parent right child;
      -- rotate_right(parent); rotate_left(grandparent)
      splay (.node (.node gl gk gv l) k v (.node r pk pv pr)) rest
  | .node l k v r, .right pk pv pl (.left gk gv gr rest) =>
      -- zig-zag: node right child, parent left child;
      -- rotate_left(parent); rotate_right(grandparent)
      splay (.node (.node pl pk pv l) k v (.node r gk gv gr)) rest

/-- `SplayTree._find_node`: descend comparing keys; stop on an exact match
or on the last node visited before falling off the tree.  Returns the
stopping node's subtree together with its context (its chain of parent
links).  Called only on non-empty trees; on `leaf` it reports the empty
tree like the Python `if not self.root: return None` guard. -/
def findNode (k : Int) : Tree γ → Ctx γ → Tree γ × Ctx γ
  | .leaf, ctx => (.leaf, ctx)
  | .node l nk nv r, ctx =>
      if k = nk then (.node l nk nv r, ctx)
      else if k < nk then
        match l with
        | .leaf => (.node l nk nv r, ctx)
        | .node a b c d => findNode k (.node a b c d) (.left nk nv r ctx)
      else
        match r with
        | .leaf => (.node l nk nv r, ctx)
        | .node a b c d => findNode k (.node a b c d) (.right nk nv l ctx)

/-- `SplayTree.find`: on an empty tree return `None`; otherwise descend
(same descent as `_find_node`), splay the matching node — or, on a miss,
the last node visited — to the root, and return the stored value on a
match and `None` otherwise.  The result is the returned value paired with
the restructured tree. -/
def find (t : Tree γ) (k : Int) : Option γ × Tree γ :=
  match t with
  | .leaf => (none, .leaf)
  | .node l nk nv r =>
      match findNode k (.node l nk nv r) .nil with
      | (.node a b c d, ctx) =>
          if b = k then (c, splay (.node a b c d) ctx)
          else (none, splay (.node a b c d) ctx)
      | (.leaf, _) => (none, .leaf)

/-- The descent loop of `SplayTree.insert` on a non-empty tree: on an
exact match overwrite the node's value in place and splay it; otherwise
attach a new leaf as the appropriate child of the last node visited and
splay the new leaf. -/
def insertLoop (k : Int) (v : Option γ) : Tree γ → Ctx γ → Tree γ
  | .leaf, _ => .leaf
  | .node l nk nv r, ctx =>
      if k = nk then splay (.node l nk v r) ctx
      else if k < nk then
        match l with
        | .leaf => splay (.node .leaf k v .leaf) (.left nk nv r ctx)
        | .node a b c d => insertLoop k v (.node a b c d) (.left nk nv r ctx)
      else
        match r with
        | .leaf => splay (.node .leaf k v .leaf) (.right nk nv l ctx)
        | .node a b c d => insertLoop k v (.node a b c d) (.right nk nv l ctx)

/-- `SplayTree.insert`: an empty tree gets a new root node with no splay;
otherwise run the descent loop. -/
def insert (t : Tree γ) (k : Int) (v : Option γ) : Tree γ :=
  match t with
  | .leaf => .node .leaf k v .leaf
  | .node l nk nv r => insertLoop k v (.node l nk nv r) .nil

/-- `insert` with the Python default argument `value=None`. -/
def insertDefault (t : Tree γ) (k : Int) : Tree γ :=
  insert t k none

/-- The `while left_max.right: left_max = left_max.right` walk of
`SplayTree.delete` (and the all-right descent of `maximum`), keeping the
context. -/
def maxNodeCtx : Tree γ → Ctx γ → Tree γ × Ctx γ
  | .leaf, ctx => (.leaf, ctx)
  | .node l k v r, ctx =>
      match r with
      | .leaf => (.node l k v .leaf, ctx)
      | .node a b c d => maxNodeCtx (.node a b c d) (.right k v l ctx)

/-- The all-left descent of `SplayTree.minimum`, keeping the context. -/
def minNodeCtx : Tree γ → Ctx γ → Tree γ × Ctx γ
  | .leaf, ctx => (.leaf, ctx)
  | .node l k v r, ctx =>
      match l with
      | .leaf => (.node .leaf k v r, ctx)
      | .node a b c d => minNodeCtx (.node a b c d) (.left k v r ctx)

/-- `SplayTree.delete`: locate the node with `_find_node`; if it does not
hold exactly `key`, return `False` with the tree untouched.  Otherwise
splay it to the root and remove it: if a child is missing the other child
becomes the root (parent link cleared); if both children are present,
splay the maximum node of the left subtree — in the Python code this
splays it all the way to the overall root, leaving the old root as its
right child — and then overwrite its right child with the old root's right
subtree (`left_max.right = node.right`). -/
def delete (t : Tree γ) (k : Int) : Bool × Tree γ :=
  match t with
  | .leaf => (false, .leaf)
  | .node l0 k0 v0 r0 =>
      match findNode k (.node l0 k0 v0 r0) .nil with
      | (.leaf, _) => (false, .node l0 k0 v0 r0)
      | (.node nl nk nv nr, ctx) =>
          if nk ≠ k then (false, .node l0 k0 v0 r0)
          else
            match splay (.node nl nk nv nr) ctx with
            | .leaf => (true, .leaf)
            | .node sl sk sv sr =>
                match sl with
                | .leaf => (true, sr)
                | .node a b c d =>
                    match sr with
                    | .leaf => (true, .node a b c d)
                    | .node e f g h =>
                        match maxNodeCtx (.node a b c d)
                            (.left sk sv (.node e f g h) .nil) with
                        | (m, mctx) =>
                            match splay m mctx with
                            | .leaf => (true, .leaf)
                            | .node ml mk mv _ =>
                                (true, .node ml mk mv (.node e f g h))

/-- `SplayTree.minimum`: descend all-left, splay the extremal node, return
its (key, value) pair; `None` on an empty tree. -/
def minimum (t : Tree γ) : Option (Int × Option γ) × Tree γ :=
  match t with
  | .leaf => (none, .leaf)
  | .node l0 k0 v0 r0 =>
      match minNodeCtx (.node l0 k0 v0 r0) .nil with
      | (.node a b c d, ctx) => (some (b, c), splay (.node a b c d) ctx)
      | (.leaf, _) => (none, .leaf)

/-- `SplayTree.maximum`: descend all-right, splay the extremal node,
return its (key, value) pair; `None` on an empty tree. -/
def maximum (t : Tree γ) : Option (Int × Option γ) × Tree γ :=
  match t with
  | .leaf => (none, .leaf)
  | .node l0 k0 v0 r0 =>
      match maxNodeCtx (.node l0 k0 v0 r0) .nil with
      | (.node a b c d, ctx) => (some (b, c), splay (.node a b c d) ctx)
      | (.leaf, _) => (none, .leaf)

/-- `SplayTree.is_empty`. -/
def isEmpty (t : Tree γ) : Bool :=
  match t with
  | .leaf => true
  | .node _ _ _ _ => false

/-- The number of stored keys. -/
def count (t : Tree γ) : Nat :=
  (Tree.inorder t).length

/-! ### Association-list specifications

The behaviour of the tree operations is specified against the flat
inorder association list. -/

/-- Look up the first entry with key `k`; `none` if there is none.  Note
that the result is also `none` when the key is present with stored value
`none`, matching the Python `find`. -/
def lookupKey (k : Int) : List (Int × Option γ) → Option γ
  | [] => none
  | (a, b) :: rest => if a = k then b else lookupKey k rest

/-- Insert `(k, v)` into an ascending association list, overwriting an
existing entry for `k`. -/
def listInsert (k : Int) (v : Option γ) :
    List (Int × Option γ) → List (Int × Option γ)
  | [] => [(k, v)]
  | (a, b) :: rest =>
      if k < a then (k, v) :: (a, b) :: rest
      else if k = a then (k, v) :: rest
      else (a, b) :: listInsert k v rest

/-- Remove the first entry with key `k`, if any. -/
def listEraseKey (k : Int) :
    List (Int × Option γ) → List (Int × Option γ)
  | [] => []
  | (a, b) :: rest => if a = k then rest else (a, b) :: listEraseKey k rest

/-- The strict BST ordering invariant from the spec: for any node, every
key in the left subtree is smaller and every key in the right subtree is
larger than the node's key. -/
def BSTInv : Tree γ → Prop
  | .leaf => True
  | .node l k _ r =>
      (∀ a ∈ Tree.keys l, a < k) ∧ (∀ a ∈ Tree.keys r, k < a) ∧
        BSTInv l ∧ BSTInv r

/-- Plain (non-splaying) BST insert-with-overwrite; the shape that
`insert`'s descent builds before the final splay. -/
def insTree (k : Int) (v : Option γ) : Tree γ → Tree γ
  | .leaf => .node .leaf k v .leaf
  | .node l nk nv r =>
      if k = nk then .node l nk v r
      else if k < nk then .node (insTree k v l) nk nv r
      else .node l nk nv (insTree k v r)

/-- One call of the public interface. -/
inductive Op (γ : Type) where
  | ins (k : Int) (v : Option γ) : Op γ
  | del (k : Int) : Op γ
  | fnd (k : Int) : Op γ
  | min : Op γ
  | max : Op γ
  deriving DecidableEq, Repr

/-- The tree after one public operation (each operation mutates the tree
in place in the Python code; here we keep the resulting tree). -/
def applyOp (t : Tree γ) : Op γ → Tree γ
  | .ins k v => insert t k v
  | .del k => (delete t k).2
  | .fnd k => (find t k).2
  | .min => (minimum t).2
  | .max => (maximum t).2

/-- The tree after a sequence of public operations. -/
def applyOps (t : Tree γ) : List (Op γ) → Tree γ
  | [] => t
  | o :: rest => applyOps (applyOp t o) rest

/-- Operations of the sequence that write the key `k`. -/
def OpTouches (k : Int) : Op γ → Prop
  | .ins k2 _ => k2 = k
  | .del k2 => k2 = k
  | _ => False

/-- A mutating operation (an insert or a delete). -/
def IsInsDel : Op γ → Prop
  | .ins _ _ => True
  | .del _ => True
  | _ => False

/-- An example tree used to instantiate hypotheses at concrete inputs:
keys 5, 10, 15 built through the public insert. -/
def exTree : Tree Int :=
  insert (insert (insert .leaf 10 (some 1)) 5 (some 2)) 15 (some 3)

/-! ### The claims -/

/-- One Python `Node` object. -/
structure NodeRec (γ : Type) where
  key : Int
  value : Option γ
  left : Option Nat
  right : Option Nat
  parent : Option Nat
  deriving DecidableEq, Repr

/-- The object heap and the `SplayTree` instance: `mem a` is the object
at address `a`, `root` is `self.root`, `next` the next fresh address. -/
structure Heap (γ : Type) where
  root : Option Nat
  next : Nat
  mem : Nat → Option (NodeRec γ)

/-- Overwrite one address. -/
def setMem (m : Nat → Option (NodeRec γ)) (a : Nat)
    (r : Option (NodeRec γ)) : Nat → Option (NodeRec γ) :=
  fun b => if b = a then r else m b

/-- Update the fields of the object at `a` (no-op on a dangling
address, which never happens in well-formed executions). -/
def updField (m : Nat → Option (NodeRec γ)) (a : Nat)
    (f : NodeRec γ → NodeRec γ) : Nat → Option (NodeRec γ) :=
  match m a with
  | none => m
  | some r => setMem m a (some (f r))

/-- Read `a.left`. -/
def readLeft (m : Nat → Option (NodeRec γ)) (a : Nat) : Option Nat :=
  match m a with
  | none => none
  | some r => r.left

/-- Read `a.right`. -/
def readRight (m : Nat → Option (NodeRec γ)) (a : Nat) : Option Nat :=
  match m a with
  | none => none
  | some r => r.right

/-- Read `a.parent`. -/
def readParent (m : Nat → Option (NodeRec γ)) (a : Nat) : Option Nat :=
  match m a with
  | none => none
  | some r => r.parent

/-- `SplayTree._rotate_right(x)`, statement by statement.  Reads happen
from the current heap in program order. -/
def rotateRight (s : Heap γ) (x : Nat) : Heap γ :=
  match readLeft s.mem x with
  | none => s
  | some y =>
      let yr0 := readRight s.mem y
      -- x.left = y.right
      let m1 := updField s.mem x (fun r => { r with left := yr0 })
      -- if y.right: y.right.parent = x
      let m2 := match readRight m1 y with
        | none => m1
        | some z => updField m1 z (fun r => { r with parent := some x })
      -- y.parent = x.parent
      let xp := readParent m2 x
      let m3 := updField m2 y (fun r => { r with parent := xp })
      match xp with
      | none =>
          -- if not x.parent: self.root = y
          let m4 := updField m3 y (fun r => { r with right := some x })
          let m5 := updField m4 x (fun r => { r with parent := some y })
          ⟨some y, s.next, m5⟩
      | some p =>
          -- elif x == x.parent.right: ... else: ...
          let m3b :=
            if readRight m3 p = some x then
              updField m3 p (fun r => { r with right := some y })
            else
              updField m3 p (fun r => { r with left := some y })
          -- y.right = x ; x.parent = y
          let m4 := updField m3b y (fun r => { r with right := some x })
          let m5 := updField m4 x (fun r => { r with parent := some y })
          ⟨s.root, s.next, m5⟩

/-- `SplayTree._rotate_left(x)`, the mirror image. -/
def rotateLeft (s : Heap γ) (x : Nat) : Heap γ :=
  match readRight s.mem x with
  | none => s
  | some y =>
      let yl0 := readLeft s.mem y
      -- x.right = y.left
      let m1 := updField s.mem x (fun r => { r with right := yl0 })
      -- if y.left: y.left.parent = x
      let m2 := match readLeft m1 y with
        | none => m1
        | some z => updField m1 z (fun r => { r with parent := some x })
      -- y.parent = x.parent
      let xp := readParent m2 x
      let m3 := updField m2 y (fun r => { r with parent := xp })
      match xp with
      | none =>
          let m4 := updField m3 y (fun r => { r with left := some x })
          let m5 := updField m4 x (fun r => { r with parent := some y })
          ⟨some y, s.next, m5⟩
      | some p =>
          let m3b :=
            if readLeft m3 p = some x then
              updField m3 p (fun r => { r with left := some y })
            else
              updField m3 p (fun r => { r with right := some y })
          let m4 := updField m3b y (fun r => { r with left := some x })
          let m5 := updField m4 x (fun r => { r with parent := some y })
          ⟨s.root, s.next, m5⟩

/-- The `while node.parent:` loop of `SplayTree._splay`, with the four
zig / zig-zig / zig-zag cases dispatched exactly as in the Python
conditional chain. -/
def splayGo (s : Heap γ) (x : Nat) : Nat → Heap γ
  | 0 => s
  | Nat.succ fuel =>
      match readParent s.mem x with
      | none => s
      | some p =>
          let s2 :=
            match readParent s.mem p with
            | none =>
                -- zig
                if readLeft s.mem p = some x then rotateRight s p
                else rotateLeft s p
            | some g =>
                if readLeft s.mem p = some x ∧ readLeft s.mem g = some p then
                  -- zig-zig: rotate_right(grandparent); rotate_right(parent)
                  rotateRight (rotateRight s g) p
                else if readRight s.mem p = some x ∧
                    readRight s.mem g = some p then
                  rotateLeft (rotateLeft s g) p
                else if readLeft s.mem p = some x ∧
                    readRight s.mem g = some p then
                  -- zig-zag: rotate_right(parent); rotate_left(grandparent)
                  rotateLeft (rotateRight s p) g
                else
                  rotateRight (rotateLeft s p) g
          splayGo s2 x fuel

/-- `SplayTree._splay(node)`: splaying `None` is a no-op. -/
def splayNode (s : Heap γ) (xo : Option Nat) (fuel : Nat) : Heap γ :=
  match xo with
  | none => s
  | some x => splayGo s x fuel

/-- The empty `SplayTree()`. -/
def emptyHeap : Heap γ := ⟨none, 0, fun _ => none⟩

/-- The descent loop of `SplayTree.insert` on the heap. -/
def insertGo (s : Heap γ) (cur : Nat) (k : Int) (v : Option γ) :
    Nat → Heap γ
  | 0 => s
  | Nat.succ fuel =>
      match s.mem cur with
      | none => s
      | some r =>
          if k = r.key then
            -- current.value = value ; splay(current)
            let s2 : Heap γ :=
              ⟨s.root, s.next,
                updField s.mem cur (fun rr => { rr with value := v })⟩
            splayGo s2 cur s2.next
          else if k < r.key then
            match r.left with
            | none =>
                -- current.left = Node(key, value); current.left.parent = current
                let a := s.next
                let m1 := setMem s.mem a (some ⟨k, v, none, none, some cur⟩)
                let m2 := updField m1 cur (fun rr => { rr with left := some a })
                let s2 : Heap γ := ⟨s.root, a + 1, m2⟩
                splayGo s2 a s2.next
            | some l => insertGo s l k v fuel
          else
            match r.right with
            | none =>
                let a := s.next
                let m1 := setMem s.mem a (some ⟨k, v, none, none, some cur⟩)
                let m2 := updField m1 cur (fun rr => { rr with right := some a })
                let s2 : Heap γ := ⟨s.root, a + 1, m2⟩
                splayGo s2 a s2.next
            | some rr => insertGo s rr k v fuel

/-- `SplayTree.insert` on the heap. -/
def heapInsert (s : Heap γ) (k : Int) (v : Option γ) : Heap γ :=
  match s.root with
  | none =>
      ⟨some s.next, s.next + 1,
        setMem s.mem s.next (some ⟨k, v, none, none, none⟩)⟩
  | some r => insertGo s r k v s.next

/-- The descent loop of `SplayTree.find` on the heap. -/
def findGo (s : Heap γ) (cur : Nat) (k : Int) : Nat → Option γ × Heap γ
  | 0 => (none, s)
  | Nat.succ fuel =>
      match s.mem cur with
      | none => (none, s)
      | some r =>
          if k = r.key then (r.value, splayGo s cur s.next)
          else if k < r.key then
            match r.left with
            | none => (none, splayGo s cur s.next)
            | some l => findGo s l k fuel
          else
            match r.right with
            | none => (none, splayGo s cur s.next)
            | some rr => findGo s rr k fuel

/-- `SplayTree.find` on the heap. -/
def heapFind (s : Heap γ) (k : Int) : Option γ × Heap γ :=
  match s.root with
  | none => (none, s)
  | some r => findGo s r k s.next

/-- The descent of `SplayTree._find_node` on the heap (returns the
stopping address, no mutation). -/
def findNodeGo (s : Heap γ) (cur : Nat) (k : Int) : Nat → Option Nat
  | 0 => none
  | Nat.succ fuel =>
      match s.mem cur with
      | none => none
      | some r =>
          if k = r.key then some cur
          else if k < r.key then
            match r.left with
            | none => some cur
            | some l => findNodeGo s l k fuel
          else
            match r.right with
            | none => some cur
            | some rr => findNodeGo s rr k fuel

/-- `SplayTree._find_node` on the heap. -/
def heapFindNode (s : Heap γ) (k : Int) : Option Nat :=
  match s.root with
  | none => none
  | some r => findNodeGo s r k s.next

/-- The `while left_max.right:` walk of `SplayTree.delete` (and the
all-right descent of `maximum`). -/
def maxGoAddr (s : Heap γ) (cur : Nat) : Nat → Nat
  | 0 => cur
  | Nat.succ fuel =>
      match readRight s.mem cur with
      | none => cur
      | some rr => maxGoAddr s rr fuel

/-- The all-left descent of `minimum`. -/
def minGoAddr (s : Heap γ) (cur : Nat) : Nat → Nat
  | 0 => cur
  | Nat.succ fuel =>
      match readLeft s.mem cur with
      | none => cur
      | some l => minGoAddr s l fuel

/-- `SplayTree.delete` on the heap. -/
def heapDelete (s : Heap γ) (k : Int) : Bool × Heap γ :=
  match heapFindNode s k with
  | none => (false, s)
  | some x =>
      match s.mem x with
      | none => (false, s)
      | some xr =>
          if xr.key ≠ k then (false, s)
          else
            let s1 := splayGo s x s.next
            match readLeft s1.mem x with
            | none =>
                -- self.root = node.right; if self.root: self.root.parent = None
                let ro := readRight s1.mem x
                let m2 := match ro with
                  | none => s1.mem
                  | some z => updField s1.mem z
                      (fun r => { r with parent := none })
                (true, ⟨ro, s1.next, m2⟩)
            | some l0 =>
                match readRight s1.mem x with
                | none =>
                    let m2 := updField s1.mem l0
                      (fun r => { r with parent := none })
                    (true, ⟨some l0, s1.next, m2⟩)
                | some _ =>
                    -- left_max = node.left; while left_max.right: ...
                    let lm := maxGoAddr s1 l0 s1.next
                    -- self._splay(left_max)
                    let s2 := splayGo s1 lm s1.next
                    -- left_max.right = node.right
                    let z1 := readRight s2.mem x
                    let m2 := updField s2.mem lm
                      (fun r => { r with right := z1 })
                    -- node.right.parent = left_max
                    let m3 := match z1 with
                      | none => m2
                      | some z => updField m2 z
                          (fun r => { r with parent := some lm })
                    (true, ⟨some lm, s2.next, m3⟩)

/-- `SplayTree.minimum` on the heap. -/
def heapMinimum (s : Heap γ) : Option (Int × Option γ) × Heap γ :=
  match s.root with
  | none => (none, s)
  | some r =>
      let c := minGoAddr s r s.next
      let s2 := splayGo s c s.next
      match s2.mem c with
      | none => (none, s2)
      | some rc => (some (rc.key, rc.value), s2)

/-- `SplayTree.maximum` on the heap. -/
def heapMaximum (s : Heap γ) : Option (Int × Option γ) × Heap γ :=
  match s.root with
  | none => (none, s)
  | some r =>
      let c := maxGoAddr s r s.next
      let s2 := splayGo s c s.next
      match s2.mem c with
      | none => (none, s2)
      | some rc => (some (rc.key, rc.value), s2)

/-- One public operation on the heap. -/
def applyHeapOp (s : Heap γ) : Op γ → Heap γ
  | .ins k v => heapInsert s k v
  | .del k => (heapDelete s k).2
  | .fnd k => (heapFind s k).2
  | .min => (heapMinimum s).2
  | .max => (heapMaximum s).2

/-- A sequence of public operations on the heap. -/
def applyHeapOps (s : Heap γ) : List (Op γ) → Heap γ
  | [] => s
  | o :: rest => applyHeapOps (applyHeapOp s o) rest

/-! ### Representation of a heap as a tree of addresses

`HTree` is the shape of a well-formed pointer tree: every node carries
its address together with its key and value.  `RepT` says that the heap
objects realize this shape, with every child's `parent` field pointing
back at its parent — exactly the invariant claimed in the spec. -/

/-- A tree of allocated nodes: each node records its heap address. -/
inductive HTree (γ : Type) where
  | leaf : HTree γ
  | node (l : HTree γ) (a : Nat) (key : Int) (value : Option γ)
      (r : HTree γ) : HTree γ
  deriving DecidableEq, Repr

/-- The ancestor chain of a node, with the parents' addresses. -/
inductive HCtx (γ : Type) where
  | nil : HCtx γ
  | left (p : Nat) (pk : Int) (pv : Option γ) (pr : HTree γ)
      (rest : HCtx γ) : HCtx γ
  | right (p : Nat) (pk : Int) (pv : Option γ) (pl : HTree γ)
      (rest : HCtx γ) : HCtx γ
  deriving DecidableEq, Repr

namespace HTree

/-- The address of the root node, if any. -/
def rootA : HTree γ → Option Nat
  | .leaf => none
  | .node _ a _ _ _ => some a

/-- All addresses of the tree. -/
def addrs : HTree γ → List Nat
  | .leaf => []
  | .node l a _ _ r => a :: addrs l ++ addrs r

end HTree

/-- The parent address dictated by the context (the address of the
innermost enclosing node, or none at the root). -/
def ctxParent : HCtx γ → Option Nat
  | .nil => none
  | .left p _ _ _ _ => some p
  | .right p _ _ _ _ => some p

/-- The addresses stored in the context: each ancestor and its
off-path subtree. -/
def ctxAddrs : HCtx γ → List Nat
  | .nil => []
  | .left p _ _ pr rest => p :: pr.addrs ++ ctxAddrs rest
  | .right p _ _ pl rest => p :: pl.addrs ++ ctxAddrs rest

/-- Rebuild the whole address tree from a subtree and its context. -/
def hplug : HTree γ → HCtx γ → HTree γ
  | t, .nil => t
  | t, .left p pk pv pr rest => hplug (.node t p pk pv pr) rest
  | t, .right p pk pv pl rest => hplug (.node pl p pk pv t) rest

/-- The heap realizes the address tree `ht`, whose root's `parent` field
is `par`: every node's record stores its key, value, the addresses of its
children, and its parent — the children's `parent` fields point back at
it. -/
inductive RepT (m : Nat → Option (NodeRec γ)) :
    Option Nat → HTree γ → Prop
  | leaf {par : Option Nat} : RepT m par .leaf
  | node {par : Option Nat} {a : Nat} {k : Int} {v : Option γ}
      {l r : HTree γ} :
      m a = some ⟨k, v, l.rootA, r.rootA, par⟩ →
      RepT m (some a) l →
      RepT m (some a) r →
      RepT m par (.node l a k v r)

/-- The heap realizes the context `ctx` above a child pointer `co`: each
ancestor's record holds the child on the correct side, its off-path
subtree on the other, and its own parent; the outermost ancestor is the
tree root. -/
inductive RepCx (m : Nat → Option (NodeRec γ)) (root : Option Nat) :
    Option Nat → HCtx γ → Prop
  | nil {co : Option Nat} : root = co → RepCx m root co .nil
  | left {co : Option Nat} {p : Nat} {pk : Int} {pv : Option γ}
      {pr : HTree γ} {rest : HCtx γ} :
      m p = some ⟨pk, pv, co, pr.rootA, ctxParent rest⟩ →
      RepT m (some p) pr →
      RepCx m root (some p) rest →
      RepCx m root co (.left p pk pv pr rest)
  | right {co : Option Nat} {p : Nat} {pk : Int} {pv : Option γ}
      {pl : HTree γ} {rest : HCtx γ} :
      m p = some ⟨pk, pv, pl.rootA, co, ctxParent rest⟩ →
      RepT m (some p) pl →
      RepCx m root (some p) rest →
      RepCx m root co (.right p pk pv pl rest)

/-- A focused well-formed heap state: the subtree `ht` sits at focus with
ancestor chain `hctx`; all involved addresses are distinct and below the
allocation bound. -/
structure Zip (s : Heap γ) (ht : HTree γ) (hctx : HCtx γ) : Prop where
  rept : RepT s.mem (ctxParent hctx) ht
  repc : RepCx s.mem s.root ht.rootA hctx
  nodup : (ht.addrs ++ ctxAddrs hctx).Nodup
  bound : ∀ b ∈ ht.addrs ++ ctxAddrs hctx, b < s.next

/-- The whole heap represents the address tree `ht`. -/
def RootRep (s : Heap γ) (ht : HTree γ) : Prop :=
  Zip s ht .nil

/-- Number of ancestor layers. -/
def ctxDepth : HCtx γ → Nat
  | .nil => 0
  | .left _ _ _ _ rest => ctxDepth rest + 1
  | .right _ _ _ _ rest => ctxDepth rest + 1

/-- The effect of the splay loop on the focused tree, one zig / zig-zig /
zig-zag step at a time, mirroring the rotation pairs of `_splay`. -/
def hsplay : HTree γ → HCtx γ → HTree γ
  | t, .nil => t
  | .leaf, _ => .leaf
  | .node A x k v B, .left p pk pv PR .nil =>
      .node A x k v (.node B p pk pv PR)
  | .node A x k v B, .right p pk pv PL .nil =>
      .node (.node PL p pk pv A) x k v B
  | .node A x k v B, .left p pk pv PR (.left g gk gv Gr rest) =>
      hsplay (.node A x k v (.node B p pk pv (.node PR g gk gv Gr))) rest
  | .node A x k v B, .right p pk pv PL (.right g gk gv Gl rest) =>
      hsplay (.node (.node (.node Gl g gk gv PL) p pk pv A) x k v B) rest
  | .node A x k v B, .left p pk pv PR (.right g gk gv Gl rest) =>
      hsplay (.node (.node Gl g gk gv A) x k v (.node B p pk pv PR)) rest
  | .node A x k v B, .right p pk pv PL (.left g gk gv Gr rest) =>
      hsplay (.node (.node PL p pk pv A) x k v (.node B g gk gv Gr)) rest

/-- Concatenation of ancestor chains. -/
def ctxAppend : HCtx γ → HCtx γ → HCtx γ
  | .nil, c2 => c2
  | .left p pk pv pr rest, c2 => .left p pk pv pr (ctxAppend rest c2)
  | .right p pk pv pl rest, c2 => .right p pk pv pl (ctxAppend rest c2)

/-- A chain made only of `right` layers: the shape of the context built
by the all-right descent `while left_max.right:`. -/
inductive RightsOnly : HCtx γ → Prop
  | nil : RightsOnly .nil
  | right {p : Nat} {pk : Int} {pv : Option γ} {pl : HTree γ}
      {rest : HCtx γ} : RightsOnly rest →
      RightsOnly (.right p pk pv pl rest)

namespace Tree

@[simp] theorem inorder_leaf : (Tree.leaf : Tree γ).inorder = [] := rfl

@[simp] theorem inorder_node (l : Tree γ) (k : Int) (v : Option γ) (r : Tree γ) :
    (Tree.node l k v r).inorder = l.inorder ++ (k, v) :: r.inorder := rfl

@[simp] theorem keys_leaf : (Tree.leaf : Tree γ).keys = [] := rfl

@[simp] theorem keys_node (l : Tree γ) (k : Int) (v : Option γ) (r : Tree γ) :
    (Tree.node l k v r).keys = l.keys ++ k :: r.keys := by
  simp [keys, inorder]

end Tree

theorem inorder_plug (ctx : Ctx γ) : ∀ t : Tree γ,
    (plug t ctx).inorder = ctxL ctx ++ t.inorder ++ ctxR ctx := by
  induction ctx with
  | nil => intro t; simp [plug, ctxL, ctxR]
  | left pk pv pr rest ih =>
      intro t
      simp [plug, ctxL, ctxR, ih (Tree.node t pk pv pr)]
  | right pk pv pl rest ih =>
      intro t
      simp [plug, ctxL, ctxR, ih (Tree.node pl pk pv t)]

/-- Splaying rearranges the tree but never changes its inorder sequence:
each rotation is a local restructuring preserving inorder. -/
theorem splay_inorder : ∀ (t : Tree γ) (ctx : Ctx γ),
    (splay t ctx).inorder = (plug t ctx).inorder := by
  intro t ctx
  induction t, ctx using splay.induct with
  | case1 ctx => simp [splay]
  | case2 l k v r => simp [splay, plug]
  | case3 l k v r pk pv pr => simp [splay, plug]
  | case4 l k v r pk pv pl => simp [splay, plug]
  | case5 l k v r pk pv pr gk gv gr rest ih =>
      simp only [splay, ih, plug]
      simp [inorder_plug]
  | case6 l k v r pk pv pl gk gv gl rest ih =>
      simp only [splay, ih, plug]
      simp [inorder_plug]
  | case7 l k v r pk pv pr gk gv gl rest ih =>
      simp only [splay, ih, plug]
      simp [inorder_plug]
  | case8 l k v r pk pv pl gk gv gr rest ih =>
      simp only [splay, ih, plug]
      simp [inorder_plug]

/-- Splaying a real node brings exactly that node, with its key and value,
to the root. -/
theorem splay_root : ∀ (t : Tree γ) (ctx : Ctx γ) (l : Tree γ) (k : Int)
    (v : Option γ) (r : Tree γ), t = .node l k v r →
    ∃ a b, splay t ctx = .node a k v b := by
  intro t ctx
  induction t, ctx using splay.induct with
  | case1 ctx => intro l k v r h; exact absurd h (by simp)
  | case2 l k v r =>
      intro l' k' v' r' h
      obtain ⟨rfl, rfl, rfl, rfl⟩ := Tree.node.inj h
      exact ⟨l, r, rfl⟩
  | case3 l k v r pk pv pr =>
      intro l' k' v' r' h
      obtain ⟨rfl, rfl, rfl, rfl⟩ := Tree.node.inj h
      exact ⟨l, Tree.node r pk pv pr, rfl⟩
  | case4 l k v r pk pv pl =>
      intro l' k' v' r' h
      obtain ⟨rfl, rfl, rfl, rfl⟩ := Tree.node.inj h
      exact ⟨Tree.node pl pk pv l, r, rfl⟩
  | case5 l k v r pk pv pr gk gv gr rest ih =>
      intro l' k' v' r' h
      obtain ⟨rfl, rfl, rfl, rfl⟩ := Tree.node.inj h
      exact ih _ _ _ _ rfl
  | case6 l k v r pk pv pl gk gv gl rest ih =>
      intro l' k' v' r' h
      obtain ⟨rfl, rfl, rfl, rfl⟩ := Tree.node.inj h
      exact ih _ _ _ _ rfl
  | case7 l k v r pk pv pr gk gv gl rest ih =>
      intro l' k' v' r' h
      obtain ⟨rfl, rfl, rfl, rfl⟩ := Tree.node.inj h
      exact ih _ _ _ _ rfl
  | case8 l k v r pk pv pl gk gv gr rest ih =>
      intro l' k' v' r' h
      obtain ⟨rfl, rfl, rfl, rfl⟩ := Tree.node.inj h
      exact ih _ _ _ _ rfl

theorem lookupKey_eq_none {k : Int} : ∀ {xs : List (Int × Option γ)},
    k ∉ xs.map Prod.fst → lookupKey k xs = none
  | [], _ => rfl
  | (a, b) :: rest, h => by
      simp only [List.map_cons, List.mem_cons] at h
      push_neg at h
      have ha : a ≠ k := fun he => h.1 he.symm
      simp only [lookupKey, if_neg ha, lookupKey_eq_none h.2]

theorem lookupKey_append {k : Int} {v : Option γ} :
    ∀ {xs ys : List (Int × Option γ)},
    (∀ a ∈ xs.map Prod.fst, a ≠ k) →
    lookupKey k (xs ++ (k, v) :: ys) = v
  | [], ys, _ => by simp [lookupKey]
  | (a, b) :: rest, ys, h => by
      have ha : a ≠ k := h a (by simp)
      simp only [List.cons_append, lookupKey, if_neg ha]
      exact lookupKey_append fun x hx => h x (by simp [hx])

theorem listInsert_lookup_self (k : Int) (v : Option γ) :
    ∀ xs : List (Int × Option γ), lookupKey k (listInsert k v xs) = v
  | [] => by simp [listInsert, lookupKey]
  | (a, b) :: rest => by
      by_cases h1 : k < a
      · simp [listInsert, if_pos h1, lookupKey]
      · by_cases h2 : k = a
        · simp [listInsert, if_neg h1, if_pos h2, lookupKey, h2]
        · have ha : a ≠ k := fun h => h2 h.symm
          simp [listInsert, if_neg h1, if_neg h2, lookupKey, if_neg ha,
            listInsert_lookup_self k v rest]

theorem listInsert_lookup_other {k q : Int} (v : Option γ) (hqk : q ≠ k) :
    ∀ xs : List (Int × Option γ),
    lookupKey q (listInsert k v xs) = lookupKey q xs
  | [] => by
      have : k ≠ q := fun h => hqk h.symm
      simp [listInsert, lookupKey, if_neg this]
  | (a, b) :: rest => by
      have hkq : k ≠ q := fun h => hqk h.symm
      by_cases h1 : k < a
      · simp [listInsert, if_pos h1, lookupKey, if_neg hkq]
      · by_cases h2 : k = a
        · subst h2
          simp [listInsert, if_neg h1, lookupKey, if_neg hkq]
        · simp [listInsert, if_neg h1, if_neg h2, lookupKey,
            listInsert_lookup_other v hqk rest]

theorem listInsert_append_lt {k nk : Int} {v nv : Option γ} (h : k < nk) :
    ∀ (xs ys : List (Int × Option γ)),
    listInsert k v (xs ++ (nk, nv) :: ys) = listInsert k v xs ++ (nk, nv) :: ys
  | [], ys => by
      have : ¬ k = nk := fun he => absurd he (by omega)
      simp [listInsert, if_pos h]
  | (a, b) :: rest, ys => by
      by_cases h1 : k < a
      · simp [listInsert, if_pos h1]
      · by_cases h2 : k = a
        · simp [listInsert, if_neg h1, if_pos h2]
        · simp [listInsert, if_neg h1, if_neg h2,
            listInsert_append_lt h rest ys]

theorem listInsert_append_gt {k : Int} {v : Option γ} :
    ∀ {xs : List (Int × Option γ)} (ys : List (Int × Option γ)),
    (∀ a ∈ xs.map Prod.fst, a < k) →
    listInsert k v (xs ++ ys) = xs ++ listInsert k v ys
  | [], ys, _ => by simp
  | (a, b) :: rest, ys, h => by
      have ha : a < k := h a (by simp)
      have h1 : ¬ k < a := by omega
      have h2 : ¬ k = a := by omega
      simp only [List.cons_append, listInsert, if_neg h1, if_neg h2,
        List.cons.injEq, true_and]
      exact listInsert_append_gt ys fun x hx => h x (by simp [hx])

theorem listEraseKey_of_not_mem {k : Int} : ∀ {xs : List (Int × Option γ)},
    k ∉ xs.map Prod.fst → listEraseKey k xs = xs
  | [], _ => rfl
  | (a, b) :: rest, h => by
      simp only [List.map_cons, List.mem_cons] at h
      push_neg at h
      have : a ≠ k := fun he => h.1 he.symm
      simp [listEraseKey, if_neg this, listEraseKey_of_not_mem h.2]

theorem listEraseKey_append {k : Int} {v : Option γ} :
    ∀ {xs : List (Int × Option γ)} (ys : List (Int × Option γ)),
    (∀ a ∈ xs.map Prod.fst, a ≠ k) →
    listEraseKey k (xs ++ (k, v) :: ys) = xs ++ ys
  | [], ys, _ => by simp [listEraseKey]
  | (a, b) :: rest, ys, h => by
      have ha : a ≠ k := h a (by simp)
      simp only [List.cons_append, listEraseKey, if_neg ha, List.cons.injEq,
        true_and]
      exact listEraseKey_append ys fun x hx => h x (by simp [hx])

theorem listEraseKey_length {k : Int} : ∀ {xs : List (Int × Option γ)},
    k ∈ xs.map Prod.fst →
    (listEraseKey k xs).length + 1 = xs.length
  | (a, b) :: rest, h => by
      by_cases ha : a = k
      · simp [listEraseKey, if_pos ha]
      · simp only [List.map_cons, List.mem_cons] at h
        have hk : k ∈ rest.map Prod.fst := by
          rcases h with h | h
          · exact absurd h.symm ha
          · exact h
        simp [listEraseKey, if_neg ha, listEraseKey_length hk]

theorem listEraseKey_keys_sublist (k : Int) :
    ∀ xs : List (Int × Option γ),
    List.Sublist ((listEraseKey k xs).map Prod.fst) (xs.map Prod.fst)
  | [] => List.Sublist.refl _
  | (a, b) :: rest => by
      by_cases ha : a = k
      · simp only [listEraseKey, if_pos ha, List.map_cons]
        exact (List.sublist_cons_self _ _)
      · simp only [listEraseKey, if_neg ha, List.map_cons]
        exact List.Sublist.cons₂ _ (listEraseKey_keys_sublist k rest)

theorem listEraseKey_sublist (k : Int) :
    ∀ xs : List (Int × Option γ), List.Sublist (listEraseKey k xs) xs
  | [] => List.Sublist.refl _
  | (a, b) :: rest => by
      by_cases ha : a = k
      · simp only [listEraseKey, if_pos ha]
        exact (List.sublist_cons_self _ _)
      · simp only [listEraseKey, if_neg ha]
        exact List.Sublist.cons₂ _ (listEraseKey_sublist k rest)

theorem listEraseKey_not_mem {k : Int} : ∀ {xs : List (Int × Option γ)},
    (xs.map Prod.fst).Nodup → k ∉ (listEraseKey k xs).map Prod.fst
  | [], _ => by simp [listEraseKey]
  | (a, b) :: rest, h => by
      simp only [List.map_cons, List.nodup_cons] at h
      by_cases ha : a = k
      · subst ha
        simp only [listEraseKey, if_pos rfl]
        exact h.1
      · simp only [listEraseKey, if_neg ha, List.map_cons, List.mem_cons]
        push_neg
        exact ⟨fun he => ha he.symm, listEraseKey_not_mem h.2⟩

theorem listEraseKey_lookup_other {k q : Int} (hqk : q ≠ k) :
    ∀ xs : List (Int × Option γ),
    lookupKey q (listEraseKey k xs) = lookupKey q xs
  | [] => rfl
  | (a, b) :: rest => by
      by_cases ha : a = k
      · subst ha
        have : a ≠ q := fun h => hqk h.symm
        simp [listEraseKey, lookupKey, if_neg this]
      · simp [listEraseKey, if_neg ha, lookupKey,
          listEraseKey_lookup_other hqk rest]

/-- In a list whose keys contain no duplicates, a decomposition around an
entry with a given key is unique. -/
theorem split_unique {m : Int} :
    ∀ {as cs bs ds : List (Int × Option γ)} {p q : Int × Option γ},
    p.1 = m → q.1 = m →
    as ++ p :: bs = cs ++ q :: ds →
    ((as ++ p :: bs).map Prod.fst).Nodup →
    as = cs ∧ p = q ∧ bs = ds
  | [], [], bs, ds, p, q, hp, hq, heq, hnd => by
      injection heq with h1 h2
      exact ⟨rfl, h1, h2⟩
  | [], c :: cs', bs, ds, p, q, hp, hq, heq, hnd => by
      exfalso
      injection heq with h1 h2
      simp only [List.nil_append, List.map_cons, List.nodup_cons] at hnd
      apply hnd.1
      have hmem : q ∈ bs := by
        rw [h2]
        exact List.mem_append_right _ (List.mem_cons_self _ _)
      rw [hp, ← hq]
      exact List.mem_map_of_mem Prod.fst hmem
  | a :: as', [], bs, ds, p, q, hp, hq, heq, hnd => by
      exfalso
      injection heq with h1 h2
      simp only [List.cons_append, List.map_cons, List.nodup_cons] at hnd
      apply hnd.1
      have hmem : p ∈ as' ++ p :: bs := by simp
      have ham : a.1 = m := by rw [h1, hq]
      rw [ham, ← hp]
      exact List.mem_map_of_mem Prod.fst hmem
  | a :: as', c :: cs', bs, ds, p, q, hp, hq, heq, hnd => by
      injection heq with h1 h2
      simp only [List.cons_append, List.map_cons, List.nodup_cons] at hnd
      obtain ⟨g1, g2, g3⟩ := split_unique hp hq h2 hnd.2
      exact ⟨by rw [h1, g1], g2, g3⟩

/-! ### Sorted lists of keys -/

/-- An ascending key sequence, decomposed around the middle element. -/
theorem sorted_append_iff {l1 l2 : List Int} :
    List.Sorted (· < ·) (l1 ++ l2) ↔
      List.Sorted (· < ·) l1 ∧ List.Sorted (· < ·) l2 ∧
        ∀ a ∈ l1, ∀ b ∈ l2, a < b :=
  List.pairwise_append

theorem sorted_mid_left {l1 l2 : List Int} {k : Int}
    (h : List.Sorted (· < ·) (l1 ++ k :: l2)) : ∀ a ∈ l1, a < k := by
  rw [sorted_append_iff] at h
  exact fun a ha => h.2.2 a ha k (by simp)

theorem sorted_mid_right {l1 l2 : List Int} {k : Int}
    (h : List.Sorted (· < ·) (l1 ++ k :: l2)) : ∀ b ∈ l2, k < b := by
  rw [sorted_append_iff] at h
  exact (List.sorted_cons.1 h.2.1).1

theorem sorted_mid_sub_left {l1 l2 : List Int} {k : Int}
    (h : List.Sorted (· < ·) (l1 ++ k :: l2)) : List.Sorted (· < ·) l1 := by
  rw [sorted_append_iff] at h
  exact h.1

theorem sorted_mid_sub_right {l1 l2 : List Int} {k : Int}
    (h : List.Sorted (· < ·) (l1 ++ k :: l2)) : List.Sorted (· < ·) l2 := by
  rw [sorted_append_iff] at h
  exact (List.sorted_cons.1 h.2.1).2

theorem listInsert_length {k : Int} {v : Option γ} :
    ∀ {xs : List (Int × Option γ)}, List.Sorted (· < ·) (xs.map Prod.fst) →
    (listInsert k v xs).length =
      if k ∈ xs.map Prod.fst then xs.length else xs.length + 1
  | [], _ => by simp [listInsert]
  | (a, b) :: rest, h => by
      simp only [List.map_cons] at h
      have hrest := (List.sorted_cons.1 h).2
      have hgt := (List.sorted_cons.1 h).1
      by_cases h1 : k < a
      · have hk : k ∉ (a, b).fst :: rest.map Prod.fst := by
          simp only [List.mem_cons]
          push_neg
          refine ⟨by simpa using (by omega : k ≠ a), fun hm => ?_⟩
          exact absurd (hgt k hm) (by omega)
        simp only [listInsert, if_pos h1, List.map_cons] at hk ⊢
        simp [if_neg hk]
      · by_cases h2 : k = a
        · subst h2
          simp [listInsert, if_neg h1, List.length_cons]
        · have hka : k ≠ a := h2
          simp only [listInsert, if_neg h1, if_neg h2, List.length_cons,
            listInsert_length hrest, List.map_cons, List.mem_cons]
          by_cases hm : k ∈ rest.map Prod.fst
          · simp [hm, hka]
          · simp [hm, hka]

theorem listInsert_keys_subset {k q : Int} {v : Option γ} :
    ∀ {xs : List (Int × Option γ)},
    q ∈ (listInsert k v xs).map Prod.fst → q = k ∨ q ∈ xs.map Prod.fst
  | [], h => by simpa [listInsert] using h
  | (a, b) :: rest, h => by
      by_cases h1 : k < a
      · simp only [listInsert, if_pos h1, List.map_cons, List.mem_cons] at h
        rcases h with h | h | h
        · exact Or.inl h
        · exact Or.inr (by simp [h])
        · exact Or.inr (by simp [h])
      · by_cases h2 : k = a
        · simp only [listInsert, if_neg h1, if_pos h2, List.map_cons,
            List.mem_cons] at h
          rcases h with h | h
          · exact Or.inl h
          · exact Or.inr (by simp [h])
        · simp only [listInsert, if_neg h1, if_neg h2, List.map_cons,
            List.mem_cons] at h
          rcases h with h | h
          · exact Or.inr (by simp [h])
          · rcases listInsert_keys_subset h with h | h
            · exact Or.inl h
            · exact Or.inr (by simp [h])

theorem listInsert_sorted {k : Int} {v : Option γ} :
    ∀ {xs : List (Int × Option γ)}, List.Sorted (· < ·) (xs.map Prod.fst) →
    List.Sorted (· < ·) ((listInsert k v xs).map Prod.fst)
  | [], _ => by simp [listInsert, List.sorted_singleton]
  | (a, b) :: rest, h => by
      simp only [List.map_cons] at h
      have hrest := (List.sorted_cons.1 h).2
      have hgt := (List.sorted_cons.1 h).1
      by_cases h1 : k < a
      · simp only [listInsert, if_pos h1, List.map_cons]
        rw [List.sorted_cons]
        constructor
        · intro x hx
          simp only [List.mem_cons] at hx
          rcases hx with hx | hx
          · omega
          · have := hgt x hx
            omega
        · exact h
      · by_cases h2 : k = a
        · subst h2
          simpa [listInsert, if_neg h1] using h
        · simp only [listInsert, if_neg h1, if_neg h2, List.map_cons]
          rw [List.sorted_cons]
          refine ⟨fun x hx => ?_, listInsert_sorted hrest⟩
          rcases listInsert_keys_subset hx with hx | hx
          · subst hx
            omega
          · exact hgt x hx

/-! ### The structural BST invariant -/

theorem bstInv_iff_sorted : ∀ t : Tree γ,
    BSTInv t ↔ List.Sorted (· < ·) (Tree.keys t)
  | .leaf => by simp [BSTInv]
  | .node l k v r => by
      rw [Tree.keys_node, sorted_append_iff, List.sorted_cons]
      constructor
      · rintro ⟨hl, hr, bl, br⟩
        refine ⟨(bstInv_iff_sorted l).1 bl, ⟨hr, (bstInv_iff_sorted r).1 br⟩,
          fun a ha b hb => ?_⟩
        simp only [List.mem_cons] at hb
        rcases hb with rfl | hb
        · exact hl a ha
        · exact lt_trans (hl a ha) (hr b hb)
      · rintro ⟨sl, ⟨hr, sr⟩, hcross⟩
        exact ⟨fun a ha => hcross a ha k (by simp),
          hr, (bstInv_iff_sorted l).2 sl, (bstInv_iff_sorted r).2 sr⟩

/-! ### Properties of the descent -/

theorem findNode_eq_hit (l : Tree γ) (k : Int) (nv : Option γ) (r : Tree γ)
    (ctx : Ctx γ) :
    findNode k (.node l k nv r) ctx = (.node l k nv r, ctx) := by
  rw [findNode.eq_def]
  simp

theorem findNode_eq_left_leaf {k nk : Int} (h : k < nk) (nv : Option γ)
    (r : Tree γ) (ctx : Ctx γ) :
    findNode k (.node .leaf nk nv r) ctx = (.node .leaf nk nv r, ctx) := by
  rw [findNode.eq_def]
  simp [if_neg (by omega : ¬ k = nk), if_pos h]

theorem findNode_eq_left {k nk : Int} (h : k < nk) (a : Tree γ) (b : Int)
    (c : Option γ) (d : Tree γ) (nv : Option γ) (r : Tree γ) (ctx : Ctx γ) :
    findNode k (.node (.node a b c d) nk nv r) ctx =
      findNode k (.node a b c d) (.left nk nv r ctx) := by
  rw [findNode.eq_def]
  simp [if_neg (by omega : ¬ k = nk), if_pos h]

theorem findNode_eq_right_leaf {k nk : Int} (h : nk < k) (l : Tree γ)
    (nv : Option γ) (ctx : Ctx γ) :
    findNode k (.node l nk nv .leaf) ctx = (.node l nk nv .leaf, ctx) := by
  rw [findNode.eq_def]
  simp [if_neg (by omega : ¬ k = nk), if_neg (by omega : ¬ k < nk)]

theorem findNode_eq_right {k nk : Int} (h : nk < k) (l : Tree γ)
    (nv : Option γ) (a : Tree γ) (b : Int) (c : Option γ) (d : Tree γ)
    (ctx : Ctx γ) :
    findNode k (.node l nk nv (.node a b c d)) ctx =
      findNode k (.node a b c d) (.right nk nv l ctx) := by
  rw [findNode.eq_def]
  simp [if_neg (by omega : ¬ k = nk), if_neg (by omega : ¬ k < nk)]

theorem findNode_plug (k : Int) : ∀ (t : Tree γ) (ctx : Ctx γ),
    plug (findNode k t ctx).1 (findNode k t ctx).2 = plug t ctx := by
  intro t ctx
  induction t, ctx using findNode.induct k with
  | case1 ctx => simp [findNode]
  | case2 l nv r ctx => simp [findNode_eq_hit]
  | case3 nk nv r ctx h1 h2 => simp [findNode_eq_left_leaf h2]
  | case4 nk nv r ctx h1 h2 a b c d ih =>
      rw [findNode_eq_left h2]
      simpa [plug] using ih
  | case5 l nk nv ctx h1 h2 =>
      simp [findNode_eq_right_leaf (by omega : nk < k)]
  | case6 l nk nv ctx h1 h2 a b c d ih =>
      rw [findNode_eq_right (by omega : nk < k)]
      simpa [plug] using ih

theorem findNode_isNode (k : Int) : ∀ (t : Tree γ) (ctx : Ctx γ),
    t ≠ .leaf →
    ∃ a b c d ctx2, findNode k t ctx = (.node a b c d, ctx2) := by
  intro t ctx
  induction t, ctx using findNode.induct k with
  | case1 ctx => intro h; exact absurd rfl h
  | case2 l nv r ctx =>
      intro _
      exact ⟨l, k, nv, r, ctx, findNode_eq_hit l k nv r ctx⟩
  | case3 nk nv r ctx h1 h2 =>
      intro _
      exact ⟨.leaf, nk, nv, r, ctx, findNode_eq_left_leaf h2 nv r ctx⟩
  | case4 nk nv r ctx h1 h2 a b c d ih =>
      intro _
      obtain ⟨x1, x2, x3, x4, x5, hx⟩ := ih (by simp)
      exact ⟨x1, x2, x3, x4, x5, by rw [findNode_eq_left h2]; exact hx⟩
  | case5 l nk nv ctx h1 h2 =>
      intro _
      exact ⟨l, nk, nv, .leaf, ctx,
        findNode_eq_right_leaf (by omega : nk < k) l nv ctx⟩
  | case6 l nk nv ctx h1 h2 a b c d ih =>
      intro _
      obtain ⟨x1, x2, x3, x4, x5, hx⟩ := ih (by simp)
      exact ⟨x1, x2, x3, x4, x5,
        by rw [findNode_eq_right (by omega : nk < k)]; exact hx⟩

/-- The key of the node the descent stops at is a key of the tree. -/
theorem findNode_key_mem (k : Int) : ∀ (t : Tree γ) (ctx : Ctx γ)
    (a : Tree γ) (b : Int) (c : Option γ) (d : Tree γ) (ctx2 : Ctx γ),
    findNode k t ctx = (.node a b c d, ctx2) → b ∈ Tree.keys t := by
  intro t ctx
  induction t, ctx using findNode.induct k with
  | case1 ctx =>
      intro a b c d ctx2 h
      simp [findNode] at h
  | case2 l nv r ctx =>
      intro a b c d ctx2 hf
      rw [findNode_eq_hit, Prod.mk.injEq] at hf
      obtain ⟨-, rfl, -, -⟩ := Tree.node.inj hf.1.symm
      simp
  | case3 nk nv r ctx h1 h2 =>
      intro a b c d ctx2 hf
      rw [findNode_eq_left_leaf h2, Prod.mk.injEq] at hf
      obtain ⟨-, rfl, -, -⟩ := Tree.node.inj hf.1.symm
      simp
  | case4 nk nv r ctx h1 h2 a0 b0 c0 d0 ih =>
      intro a b c d ctx2 hf
      rw [findNode_eq_left h2] at hf
      have := ih a b c d ctx2 hf
      rw [Tree.keys_node]
      exact List.mem_append.2 (Or.inl this)
  | case5 l nk nv ctx h1 h2 =>
      intro a b c d ctx2 hf
      rw [findNode_eq_right_leaf (by omega : nk < k), Prod.mk.injEq] at hf
      obtain ⟨-, rfl, -, -⟩ := Tree.node.inj hf.1.symm
      simp
  | case6 l nk nv ctx h1 h2 a0 b0 c0 d0 ih =>
      intro a b c d ctx2 hf
      rw [findNode_eq_right (by omega : nk < k)] at hf
      have := ih a b c d ctx2 hf
      rw [Tree.keys_node]
      exact List.mem_append.2 (Or.inr (List.mem_cons.2 (Or.inr this)))

/-- On a tree satisfying the ordering invariant, the descent for a present
key always stops at the node holding exactly that key. -/
theorem findNode_hit (k : Int) : ∀ (t : Tree γ),
    List.Sorted (· < ·) (Tree.keys t) → k ∈ Tree.keys t → ∀ ctx : Ctx γ,
    ∃ a c d ctx2, findNode k t ctx = (.node a k c d, ctx2) := by
  intro t
  induction t with
  | leaf => intro _ hk; simp at hk
  | node l nk nv r ihl ihr =>
      intro hs hk ctx
      by_cases h1 : k = nk
      · subst h1
        exact ⟨l, nv, r, ctx, findNode_eq_hit l k nv r ctx⟩
      · simp only [Tree.keys_node] at hs hk
        by_cases h2 : k < nk
        · have hkl : k ∈ Tree.keys l := by
            rcases List.mem_append.1 hk with h | h
            · exact h
            · rcases List.mem_cons.1 h with h | h
              · exact absurd h h1
              · exact absurd (sorted_mid_right hs k h) (by omega)
          cases l with
          | leaf => simp at hkl
          | node a0 b0 c0 d0 =>
              obtain ⟨a, c, d, ctx2, hx⟩ :=
                ihl (sorted_mid_sub_left hs) hkl (Ctx.left nk nv r ctx)
              exact ⟨a, c, d, ctx2, by rw [findNode_eq_left h2]; exact hx⟩
        · have hkr : k ∈ Tree.keys r := by
            rcases List.mem_append.1 hk with h | h
            · exact absurd (sorted_mid_left hs k h) (by omega)
            · rcases List.mem_cons.1 h with h | h
              · exact absurd h h1
              · exact h
          cases r with
          | leaf => simp at hkr
          | node a0 b0 c0 d0 =>
              obtain ⟨a, c, d, ctx2, hx⟩ :=
                ihr (sorted_mid_sub_right hs) hkr (Ctx.right nk nv l ctx)
              exact ⟨a, c, d, ctx2,
                by rw [findNode_eq_right (by omega : nk < k)]; exact hx⟩

/-! ### Insert -/

theorem insertLoop_eq_hit (l : Tree γ) (k : Int) (v nv : Option γ)
    (r : Tree γ) (ctx : Ctx γ) :
    insertLoop k v (.node l k nv r) ctx = splay (.node l k v r) ctx := by
  rw [insertLoop.eq_def]
  simp

theorem insertLoop_eq_left_leaf {k nk : Int} (h : k < nk) (v nv : Option γ)
    (r : Tree γ) (ctx : Ctx γ) :
    insertLoop k v (.node .leaf nk nv r) ctx =
      splay (.node .leaf k v .leaf) (.left nk nv r ctx) := by
  rw [insertLoop.eq_def]
  simp [if_neg (by omega : ¬ k = nk), if_pos h]

theorem insertLoop_eq_left {k nk : Int} (h : k < nk) (v nv : Option γ)
    (a : Tree γ) (b : Int) (c : Option γ) (d : Tree γ) (r : Tree γ)
    (ctx : Ctx γ) :
    insertLoop k v (.node (.node a b c d) nk nv r) ctx =
      insertLoop k v (.node a b c d) (.left nk nv r ctx) := by
  rw [insertLoop.eq_def]
  simp [if_neg (by omega : ¬ k = nk), if_pos h]

theorem insertLoop_eq_right_leaf {k nk : Int} (h : nk < k) (v nv : Option γ)
    (l : Tree γ) (ctx : Ctx γ) :
    insertLoop k v (.node l nk nv .leaf) ctx =
      splay (.node .leaf k v .leaf) (.right nk nv l ctx) := by
  rw [insertLoop.eq_def]
  simp [if_neg (by omega : ¬ k = nk), if_neg (by omega : ¬ k < nk)]

theorem insertLoop_eq_right {k nk : Int} (h : nk < k) (v nv : Option γ)
    (l : Tree γ) (a : Tree γ) (b : Int) (c : Option γ) (d : Tree γ)
    (ctx : Ctx γ) :
    insertLoop k v (.node l nk nv (.node a b c d)) ctx =
      insertLoop k v (.node a b c d) (.right nk nv l ctx) := by
  rw [insertLoop.eq_def]
  simp [if_neg (by omega : ¬ k = nk), if_neg (by omega : ¬ k < nk)]

theorem insertLoop_inorder (k : Int) (v : Option γ) :
    ∀ (t : Tree γ) (ctx : Ctx γ), t ≠ .leaf →
    (insertLoop k v t ctx).inorder = (plug (insTree k v t) ctx).inorder := by
  intro t ctx
  induction t, ctx using insertLoop.induct k v with
  | case1 ctx => intro h; exact absurd rfl h
  | case2 l nv r ctx =>
      intro _
      rw [insertLoop_eq_hit, splay_inorder]
      simp [insTree]
  | case3 nk nv r ctx h1 h2 =>
      intro _
      rw [insertLoop_eq_left_leaf h2, splay_inorder]
      simp [insTree, if_neg h1, if_pos h2, plug]
  | case4 nk nv r ctx h1 h2 a b c d ih =>
      intro _
      rw [insertLoop_eq_left h2, ih (by simp)]
      simp [insTree, if_neg h1, if_pos h2, plug]
  | case5 l nk nv ctx h1 h2 =>
      intro _
      rw [insertLoop_eq_right_leaf (by omega : nk < k), splay_inorder]
      simp [insTree, if_neg h1, if_neg h2, plug]
  | case6 l nk nv ctx h1 h2 a b c d ih =>
      intro _
      rw [insertLoop_eq_right (by omega : nk < k), ih (by simp)]
      simp [insTree, if_neg h1, if_neg h2, plug]

theorem insert_inorder_raw (t : Tree γ) (k : Int) (v : Option γ) :
    (insert t k v).inorder = (insTree k v t).inorder := by
  cases t with
  | leaf => simp [insert, insTree]
  | node l nk nv r =>
      have := insertLoop_inorder k v (.node l nk nv r) .nil (by simp)
      simpa [insert, plug] using this

theorem insTree_inorder {k : Int} {v : Option γ} :
    ∀ {t : Tree γ}, List.Sorted (· < ·) (Tree.keys t) →
    (insTree k v t).inorder = listInsert k v t.inorder := by
  intro t
  induction t with
  | leaf => intro _; simp [insTree, listInsert]
  | node l nk nv r ihl ihr =>
      intro hs
      simp only [Tree.keys_node] at hs
      by_cases h1 : k = nk
      · subst h1
        have hlt := sorted_mid_left hs
        simp only [insTree, if_pos rfl, Tree.inorder_node]
        rw [listInsert_append_gt ((k, nv) :: Tree.inorder r)
          (by simpa [Tree.keys] using hlt)]
        simp [listInsert]
      · by_cases h2 : k < nk
        · simp only [insTree, if_neg h1, if_pos h2, Tree.inorder_node]
          rw [ihl (sorted_mid_sub_left hs), listInsert_append_lt h2]
        · have hgt : nk < k := by omega
          simp only [insTree, if_neg h1, if_neg h2, Tree.inorder_node]
          rw [ihr (sorted_mid_sub_right hs)]
          have hall : ∀ a ∈ (Tree.inorder l ++ [(nk, nv)]).map Prod.fst,
              a < k := by
            intro a ha
            simp only [List.map_append, List.mem_append] at ha
            rcases ha with ha | ha
            · exact lt_trans (sorted_mid_left hs a (by simpa [Tree.keys] using ha)) hgt
            · simp at ha
              omega
          have := @listInsert_append_gt γ k v (Tree.inorder l ++ [(nk, nv)])
            (Tree.inorder r) hall
          simpa [List.append_assoc] using this.symm

/-- After `insert`, the inorder association list is exactly the sorted
insertion of `(k, v)` into the old list. -/
theorem insert_inorder {t : Tree γ} {k : Int} {v : Option γ}
    (hs : List.Sorted (· < ·) (Tree.keys t)) :
    (insert t k v).inorder = listInsert k v t.inorder := by
  rw [insert_inorder_raw, insTree_inorder hs]

theorem insert_keys_sorted {t : Tree γ} {k : Int} {v : Option γ}
    (hs : List.Sorted (· < ·) (Tree.keys t)) :
    List.Sorted (· < ·) (Tree.keys (insert t k v)) := by
  rw [Tree.keys, insert_inorder hs]
  exact listInsert_sorted hs

/-- The node carrying the inserted key and value ends up at the root. -/
theorem insertLoop_root (k : Int) (v : Option γ) :
    ∀ (t : Tree γ) (ctx : Ctx γ), t ≠ .leaf →
    ∃ a b, insertLoop k v t ctx = .node a k v b := by
  intro t ctx
  induction t, ctx using insertLoop.induct k v with
  | case1 ctx => intro h; exact absurd rfl h
  | case2 l nv r ctx =>
      intro _
      rw [insertLoop_eq_hit]
      exact splay_root _ _ _ _ _ _ rfl
  | case3 nk nv r ctx h1 h2 =>
      intro _
      rw [insertLoop_eq_left_leaf h2]
      exact splay_root _ _ _ _ _ _ rfl
  | case4 nk nv r ctx h1 h2 a b c d ih =>
      intro _
      rw [insertLoop_eq_left h2]
      exact ih (by simp)
  | case5 l nk nv ctx h1 h2 =>
      intro _
      rw [insertLoop_eq_right_leaf (by omega : nk < k)]
      exact splay_root _ _ _ _ _ _ rfl
  | case6 l nk nv ctx h1 h2 a b c d ih =>
      intro _
      rw [insertLoop_eq_right (by omega : nk < k)]
      exact ih (by simp)

theorem insert_root (t : Tree γ) (k : Int) (v : Option γ) :
    ∃ a b, insert t k v = .node a k v b := by
  cases t with
  | leaf => exact ⟨.leaf, .leaf, rfl⟩
  | node l nk nv r => exact insertLoop_root k v (.node l nk nv r) .nil (by simp)

/-! ### Find -/

theorem nodup_before_ne {k : Int} {v : Option γ}
    {xs ys : List (Int × Option γ)}
    (h : ((xs ++ (k, v) :: ys).map Prod.fst).Nodup) :
    ∀ a ∈ xs.map Prod.fst, a ≠ k := by
  intro a ha hak
  rw [List.map_append, List.nodup_append] at h
  exact h.2.2 ha (by simp [hak])

theorem find_eq_of_findNode {k : Int} {l : Tree γ} {nk : Int}
    {nv : Option γ} {r a d : Tree γ} {b : Int} {c : Option γ} {ctx2 : Ctx γ}
    (hf : findNode k (.node l nk nv r) .nil = (.node a b c d, ctx2)) :
    find (.node l nk nv r) k =
      if b = k then (c, splay (.node a b c d) ctx2)
      else (none, splay (.node a b c d) ctx2) := by
  simp [find, hf]

/-- The tree equals the stopping node plugged back into its context. -/
theorem findNode_plug_eq {k : Int} {t a d : Tree γ} {b : Int} {c : Option γ}
    {ctx2 : Ctx γ} (hf : findNode k t .nil = (.node a b c d, ctx2)) :
    plug (.node a b c d) ctx2 = t := by
  have := findNode_plug k t .nil
  rw [hf] at this
  simpa [plug] using this

/-- `find` returns exactly the association-list lookup of the key in the
inorder list, and restructures the tree without changing that list. -/
theorem find_spec {t : Tree γ} {k : Int}
    (hs : List.Sorted (· < ·) (Tree.keys t)) :
    (find t k).1 = lookupKey k t.inorder ∧
      (find t k).2.inorder = t.inorder := by
  cases t with
  | leaf => simp [find, lookupKey]
  | node l nk nv r =>
      obtain ⟨a, b, c, d, ctx2, hf⟩ :=
        findNode_isNode k (.node l nk nv r) .nil (by simp)
      have hplug := findNode_plug_eq hf
      have hio : (Tree.node l nk nv r).inorder =
          (ctxL ctx2 ++ a.inorder) ++ (b, c) :: (d.inorder ++ ctxR ctx2) := by
        rw [← hplug, inorder_plug]
        simp [List.append_assoc]
      have hnd : (((Tree.node l nk nv r).inorder).map Prod.fst).Nodup :=
        List.Sorted.nodup hs
      have hinor : (splay (.node a b c d) ctx2).inorder =
          (Tree.node l nk nv r).inorder := by
        rw [splay_inorder, hplug]
      rw [find_eq_of_findNode hf]
      by_cases hbk : b = k
      · subst hbk
        rw [if_pos rfl]
        refine ⟨?_, hinor⟩
        rw [hio]
        exact (lookupKey_append (nodup_before_ne (hio ▸ hnd))).symm
      · rw [if_neg hbk]
        refine ⟨?_, hinor⟩
        have hk : k ∉ Tree.keys (.node l nk nv r) := by
          intro hk
          obtain ⟨a2, c2, d2, ctx3, hx⟩ :=
            findNode_hit k (.node l nk nv r) hs hk .nil
          rw [hf, Prod.mk.injEq] at hx
          obtain ⟨-, hb, -, -⟩ := Tree.node.inj hx.1
          exact hbk hb
        exact (lookupKey_eq_none hk).symm

/-- A successful `find` leaves the sought key at the root. -/
theorem find_root_hit {t : Tree γ} {k : Int}
    (hs : List.Sorted (· < ·) (Tree.keys t)) (hk : k ∈ Tree.keys t) :
    Tree.rootKey (find t k).2 = some k := by
  cases t with
  | leaf => simp at hk
  | node l nk nv r =>
      obtain ⟨a, c, d, ctx2, hf⟩ := findNode_hit k (.node l nk nv r) hs hk .nil
      rw [find_eq_of_findNode hf, if_pos rfl]
      obtain ⟨x, y, hxy⟩ := splay_root (.node a k c d) ctx2 a k c d rfl
      simp [hxy, Tree.rootKey]

/-- An unsuccessful `find` on a non-empty tree reports `None` and splays
the last node visited during the descent — the node where the search fell
off the tree — to the root, preserving the inorder sequence. -/
theorem find_miss_spec {t : Tree γ} {k : Int} (hne : t ≠ .leaf)
    (hk : k ∉ Tree.keys t) :
    ∃ a b c d ctx2,
      findNode k t .nil = (.node a b c d, ctx2) ∧
      find t k = (none, splay (.node a b c d) ctx2) ∧
      Tree.rootKey (find t k).2 = some b ∧
      (find t k).2.inorder = t.inorder := by
  cases t with
  | leaf => exact absurd rfl hne
  | node l nk nv r =>
      obtain ⟨a, b, c, d, ctx2, hf⟩ :=
        findNode_isNode k (.node l nk nv r) .nil (by simp)
      have hbk : b ≠ k := by
        intro hb
        subst hb
        exact hk (findNode_key_mem b (.node l nk nv r) .nil a b c d ctx2 hf)
      have hfind : find (.node l nk nv r) k =
          (none, splay (.node a b c d) ctx2) := by
        rw [find_eq_of_findNode hf, if_neg hbk]
      obtain ⟨x, y, hxy⟩ := splay_root (.node a b c d) ctx2 a b c d rfl
      refine ⟨a, b, c, d, ctx2, hf, hfind, ?_, ?_⟩
      · simp [hfind, hxy, Tree.rootKey]
      · rw [hfind]
        simp only
        rw [splay_inorder, findNode_plug_eq hf]

/-! ### Minimum and maximum -/

theorem minNodeCtx_plug : ∀ (t : Tree γ) (ctx : Ctx γ),
    plug (minNodeCtx t ctx).1 (minNodeCtx t ctx).2 = plug t ctx := by
  intro t ctx
  induction t, ctx using minNodeCtx.induct with
  | case1 ctx => simp [minNodeCtx]
  | case2 nk nv r ctx => simp [minNodeCtx]
  | case3 nk nv r ctx a b c d ih =>
      simpa [minNodeCtx, plug] using ih

theorem minNodeCtx_shape : ∀ (t : Tree γ) (ctx : Ctx γ), t ≠ .leaf →
    ∃ mk mv mr ctx2,
      minNodeCtx t ctx = (.node .leaf mk mv mr, ctx2) ∧
      ctxL ctx2 = ctxL ctx := by
  intro t ctx
  induction t, ctx using minNodeCtx.induct with
  | case1 ctx => intro h; exact absurd rfl h
  | case2 nk nv r ctx =>
      intro _
      exact ⟨nk, nv, r, ctx, by simp [minNodeCtx], rfl⟩
  | case3 nk nv r ctx a b c d ih =>
      intro _
      obtain ⟨mk, mv, mr, ctx2, h1, h2⟩ := ih (by simp)
      exact ⟨mk, mv, mr, ctx2, by simpa [minNodeCtx] using h1,
        by simpa [ctxL] using h2⟩

theorem maxNodeCtx_plug : ∀ (t : Tree γ) (ctx : Ctx γ),
    plug (maxNodeCtx t ctx).1 (maxNodeCtx t ctx).2 = plug t ctx := by
  intro t ctx
  induction t, ctx using maxNodeCtx.induct with
  | case1 ctx => simp [maxNodeCtx]
  | case2 l nk nv ctx => simp [maxNodeCtx]
  | case3 l nk nv ctx a b c d ih =>
      simpa [maxNodeCtx, plug] using ih

theorem maxNodeCtx_shape : ∀ (t : Tree γ) (ctx : Ctx γ), t ≠ .leaf →
    ∃ ml mk mv ctx2,
      maxNodeCtx t ctx = (.node ml mk mv .leaf, ctx2) ∧
      ctxR ctx2 = ctxR ctx := by
  intro t ctx
  induction t, ctx using maxNodeCtx.induct with
  | case1 ctx => intro h; exact absurd rfl h
  | case2 l nk nv ctx =>
      intro _
      exact ⟨l, nk, nv, ctx, by simp [maxNodeCtx], rfl⟩
  | case3 l nk nv ctx a b c d ih =>
      intro _
      obtain ⟨ml, mk, mv, ctx2, h1, h2⟩ := ih (by simp)
      exact ⟨ml, mk, mv, ctx2, by simpa [maxNodeCtx] using h1,
        by simpa [ctxR] using h2⟩

/-- `minimum` returns the first inorder pair (the smallest key) — `none`
exactly on the empty tree — and only restructures the tree. -/
theorem minimum_spec (t : Tree γ) :
    (minimum t).1 = t.inorder.head? ∧ (minimum t).2.inorder = t.inorder := by
  cases t with
  | leaf => simp [minimum]
  | node l nk nv r =>
      obtain ⟨mk, mv, mr, ctx2, h1, h2⟩ :=
        minNodeCtx_shape (.node l nk nv r) .nil (by simp)
      have hplug : plug (.node .leaf mk mv mr) ctx2 = .node l nk nv r := by
        have := minNodeCtx_plug (.node l nk nv r) .nil
        rw [h1] at this
        simpa [plug] using this
      have hio : (Tree.node l nk nv r).inorder =
          (mk, mv) :: (mr.inorder ++ ctxR ctx2) := by
        rw [← hplug, inorder_plug]
        simp [h2, ctxL]
      simp only [minimum, h1]
      constructor
      · rw [hio]
        rfl
      · rw [splay_inorder, hplug]

/-- `maximum` returns the last inorder pair (the largest key) — `none`
exactly on the empty tree — and only restructures the tree. -/
theorem maximum_spec (t : Tree γ) :
    (maximum t).1 = t.inorder.getLast? ∧
      (maximum t).2.inorder = t.inorder := by
  cases t with
  | leaf => simp [maximum]
  | node l nk nv r =>
      obtain ⟨ml, mk, mv, ctx2, h1, h2⟩ :=
        maxNodeCtx_shape (.node l nk nv r) .nil (by simp)
      have hplug : plug (.node ml mk mv .leaf) ctx2 = .node l nk nv r := by
        have := maxNodeCtx_plug (.node l nk nv r) .nil
        rw [h1] at this
        simpa [plug] using this
      have hio : (Tree.node l nk nv r).inorder =
          (ctxL ctx2 ++ ml.inorder) ++ [(mk, mv)] := by
        rw [← hplug, inorder_plug]
        simp [h2, ctxR, List.append_assoc]
      simp only [maximum, h1]
      constructor
      · rw [hio, List.getLast?_concat]
      · rw [splay_inorder, hplug]

/-- The extremal node found by `minimum` is splayed to the root. -/
theorem minimum_root (t : Tree γ) (hne : t ≠ .leaf) :
    ∃ mk mv, (minimum t).1 = some (mk, mv) ∧
      Tree.rootKey (minimum t).2 = some mk := by
  cases t with
  | leaf => exact absurd rfl hne
  | node l nk nv r =>
      obtain ⟨mk, mv, mr, ctx2, h1, -⟩ :=
        minNodeCtx_shape (.node l nk nv r) .nil (by simp)
      obtain ⟨x, y, hxy⟩ := splay_root (.node .leaf mk mv mr) ctx2 _ _ _ _ rfl
      exact ⟨mk, mv, by simp [minimum, h1], by simp [minimum, h1, hxy, Tree.rootKey]⟩

/-- The extremal node found by `maximum` is splayed to the root. -/
theorem maximum_root (t : Tree γ) (hne : t ≠ .leaf) :
    ∃ mk mv, (maximum t).1 = some (mk, mv) ∧
      Tree.rootKey (maximum t).2 = some mk := by
  cases t with
  | leaf => exact absurd rfl hne
  | node l nk nv r =>
      obtain ⟨ml, mk, mv, ctx2, h1, -⟩ :=
        maxNodeCtx_shape (.node l nk nv r) .nil (by simp)
      obtain ⟨x, y, hxy⟩ := splay_root (.node ml mk mv .leaf) ctx2 _ _ _ _ rfl
      exact ⟨mk, mv, by simp [maximum, h1], by simp [maximum, h1, hxy, Tree.rootKey]⟩

/-! ### Delete -/

/-- Deleting an absent key returns `False` and leaves the tree itself
unchanged: the descent of `_find_node` performs no splay, and `delete`
bails out before any mutation. -/
theorem delete_not_mem {t : Tree γ} {k : Int} (hk : k ∉ Tree.keys t) :
    delete t k = (false, t) := by
  cases t with
  | leaf => simp [delete]
  | node l nk nv r =>
      obtain ⟨a, b, c, d, ctx2, hf⟩ :=
        findNode_isNode k (.node l nk nv r) .nil (by simp)
      have hbk : b ≠ k := by
        intro hb
        subst hb
        exact hk (findNode_key_mem b (.node l nk nv r) .nil a b c d ctx2 hf)
      simp [delete, hf, hbk]

/-- The two-children case of `delete`, after the doomed node has been
splayed to the root `node sl k c sr`: splaying the maximum node of `sl`
yields a tree whose right spine ends at the old root, and overwriting its
right child with `sr` erases exactly the key `k` from the inorder list. -/
theorem delete_both_core {sl sr : Tree γ} {k : Int} {c : Option γ}
    (hsl : sl ≠ .leaf)
    (hs2 : List.Sorted (· < ·) (Tree.keys (.node sl k c sr))) :
    ∃ ml mk mv mctx A B,
      maxNodeCtx sl (.left k c sr .nil) = (.node ml mk mv .leaf, mctx) ∧
      splay (.node ml mk mv .leaf) mctx = .node A mk mv B ∧
      sl.inorder = (ctxL mctx ++ ml.inorder) ++ [(mk, mv)] ∧
      (Tree.node A mk mv sr).inorder =
        listEraseKey k ((Tree.node sl k c sr).inorder) := by
  obtain ⟨ml, mk, mv, mctx, hmax, hctxR⟩ :=
    maxNodeCtx_shape sl (.left k c sr .nil) hsl
  have hplug2 : plug (.node ml mk mv .leaf) mctx = .node sl k c sr := by
    have := maxNodeCtx_plug sl (.left k c sr .nil)
    rw [hmax] at this
    simpa [plug] using this
  obtain ⟨A, B, hsp2⟩ := splay_root (.node ml mk mv .leaf) mctx _ _ _ _ rfl
  have hioP : (Tree.node sl k c sr).inorder =
      (ctxL mctx ++ ml.inorder) ++ (mk, mv) :: ((k, c) :: sr.inorder) := by
    rw [← hplug2, inorder_plug]
    rw [hctxR]
    simp [ctxR, List.append_assoc]
  have hio2 : A.inorder ++ (mk, mv) :: B.inorder =
      (Tree.node sl k c sr).inorder := by
    have := splay_inorder (.node ml mk mv .leaf) mctx
    rw [hsp2, hplug2] at this
    simpa using this
  have hsortInorder : List.Sorted (· < ·)
      (((Tree.node sl k c sr).inorder).map Prod.fst) := by
    have : Tree.keys (.node sl k c sr) =
        ((Tree.node sl k c sr).inorder).map Prod.fst := rfl
    rw [← this]
    exact hs2
  have hnd : (((Tree.node sl k c sr).inorder).map Prod.fst).Nodup :=
    List.Sorted.nodup hsortInorder
  have hEq : A.inorder ++ (mk, mv) :: B.inorder =
      (ctxL mctx ++ ml.inorder) ++ (mk, mv) :: ((k, c) :: sr.inorder) :=
    hio2.trans hioP
  have hnd2 : ((A.inorder ++ (mk, mv) :: B.inorder).map Prod.fst).Nodup := by
    rw [hio2]
    exact hnd
  obtain ⟨hA, -, hB⟩ := split_unique rfl rfl hEq hnd2
  have hslio : sl.inorder = (ctxL mctx ++ ml.inorder) ++ [(mk, mv)] := by
    have h1 : sl.inorder ++ ((k, c) :: sr.inorder) =
        ((ctxL mctx ++ ml.inorder) ++ [(mk, mv)]) ++ ((k, c) :: sr.inorder) := by
      have := hioP
      simp only [Tree.inorder_node] at this
      rw [this]
      simp [List.append_assoc]
    exact List.append_cancel_right h1
  refine ⟨ml, mk, mv, mctx, A, B, hmax, hsp2, hslio, ?_⟩
  have hclt : ∀ x ∈ ((ctxL mctx ++ ml.inorder) ++ [(mk, mv)]).map Prod.fst,
      x ≠ k := by
    intro x hx
    have hsort2 : List.Sorted (· < ·)
        ((((ctxL mctx ++ ml.inorder) ++ [(mk, mv)]).map Prod.fst) ++
          k :: (sr.inorder.map Prod.fst)) := by
      have := hsortInorder
      rw [hioP] at this
      simpa [List.append_assoc] using this
    have := sorted_mid_left hsort2 x hx
    omega
  have herase : listEraseKey k ((Tree.node sl k c sr).inorder) =
      ((ctxL mctx ++ ml.inorder) ++ [(mk, mv)]) ++ sr.inorder := by
    rw [hioP]
    have h2 : (ctxL mctx ++ ml.inorder) ++ (mk, mv) :: ((k, c) :: sr.inorder) =
        ((ctxL mctx ++ ml.inorder) ++ [(mk, mv)]) ++ ((k, c) :: sr.inorder) := by
      simp [List.append_assoc]
    rw [h2]
    exact listEraseKey_append sr.inorder hclt
  rw [herase]
  simp [hA, List.append_assoc]

/-- Deleting a present key returns `True` and erases exactly that key
from the inorder association list. -/
theorem delete_hit_spec {t : Tree γ} {k : Int}
    (hs : List.Sorted (· < ·) (Tree.keys t)) (hk : k ∈ Tree.keys t) :
    (delete t k).1 = true ∧
      (delete t k).2.inorder = listEraseKey k t.inorder := by
  cases t with
  | leaf => simp at hk
  | node l nk nv r =>
      obtain ⟨a, c, d, ctx2, hf⟩ := findNode_hit k (.node l nk nv r) hs hk .nil
      have hplug := findNode_plug_eq hf
      obtain ⟨sl, sr, hsp⟩ := splay_root (.node a k c d) ctx2 a k c d rfl
      have hio : (Tree.node sl k c sr).inorder =
          (Tree.node l nk nv r).inorder := by
        rw [← hsp, splay_inorder, hplug]
      cases sl with
      | leaf =>
          have hred : delete (.node l nk nv r) k = (true, sr) := by
            simp [delete, hf, hsp]
          rw [hred]
          refine ⟨rfl, ?_⟩
          rw [← hio]
          simp [listEraseKey]
      | node e1 e2 e3 e4 =>
          cases sr with
          | leaf =>
              have hred : delete (.node l nk nv r) k =
                  (true, .node e1 e2 e3 e4) := by
                simp [delete, hf, hsp]
              rw [hred]
              refine ⟨rfl, ?_⟩
              rw [← hio]
              have hprefix : ∀ x ∈ ((Tree.node e1 e2 e3 e4).inorder).map
                  Prod.fst, x ≠ k := by
                intro x hx
                have hsort : List.Sorted (· < ·)
                    ((((Tree.node e1 e2 e3 e4).inorder).map Prod.fst) ++
                      k :: ([] : List (Int × Option γ)).map Prod.fst) := by
                  have := hs
                  rw [Tree.keys, ← hio] at this
                  simpa using this
                have := sorted_mid_left hsort x hx
                omega
              have := @listEraseKey_append γ k c
                ((Tree.node e1 e2 e3 e4).inorder) [] hprefix
              simpa using this.symm
          | node f1 f2 f3 f4 =>
              have hs2 : List.Sorted (· < ·)
                  (Tree.keys (.node (.node e1 e2 e3 e4) k c
                    (.node f1 f2 f3 f4))) := by
                rw [Tree.keys, hio]
                exact hs
              obtain ⟨ml, mk, mv, mctx, A, B, hmax, hsp2, hslio, herase⟩ :=
                delete_both_core (by simp) hs2
              have hred : delete (.node l nk nv r) k =
                  (true, .node A mk mv (.node f1 f2 f3 f4)) := by
                simp [delete, hf, hsp, hmax, hsp2]
              rw [hred]
              refine ⟨rfl, ?_⟩
              rw [← hio]
              exact herase

/-- The two-children case of `delete`: the new root is the maximum-key
node of the splayed root's left subtree, and the former right subtree is
attached unchanged as its right child. -/
theorem delete_both_spec {t : Tree γ} {k : Int}
    (hs : List.Sorted (· < ·) (Tree.keys t))
    {a d : Tree γ} {c : Option γ} {ctx2 : Ctx γ}
    (hf : findNode k t .nil = (.node a k c d, ctx2))
    {sl sr : Tree γ} {sv : Option γ}
    (hsp : splay (.node a k c d) ctx2 = .node sl k sv sr)
    (hsl : sl ≠ .leaf) (hsr : sr ≠ .leaf) :
    ∃ A mk mv,
      delete t k = (true, .node A mk mv sr) ∧
      (mk, mv) ∈ sl.inorder ∧
      (∀ x ∈ Tree.keys sl, x ≤ mk) := by
  cases t with
  | leaf => simp [findNode] at hf
  | node l nk nv r =>
      obtain ⟨sl', sr', hsp'⟩ := splay_root (.node a k c d) ctx2 a k c d rfl
      have hspc := hsp.symm.trans hsp'
      obtain ⟨h1, -, h3, h4⟩ := Tree.node.inj hspc
      subst h1
      subst h3
      subst h4
      have hplug := findNode_plug_eq hf
      have hio : (Tree.node sl k sv sr).inorder =
          (Tree.node l nk nv r).inorder := by
        rw [← hsp', splay_inorder, hplug]
      have hs2 : List.Sorted (· < ·) (Tree.keys (.node sl k sv sr)) := by
        rw [Tree.keys, hio]
        exact hs
      obtain ⟨ml, mk, mv, mctx, A, B, hmax, hsp2, hslio, herase⟩ :=
        delete_both_core hsl hs2
      have hsort_sl : List.Sorted (· < ·) (Tree.keys sl) := by
        have := hs2
        rw [Tree.keys_node] at this
        exact sorted_mid_sub_left this
      refine ⟨A, mk, mv, ?_, ?_, ?_⟩
      · cases sl with
        | leaf => exact absurd rfl hsl
        | node e1 e2 e3 e4 =>
            cases sr with
            | leaf => exact absurd rfl hsr
            | node f1 f2 f3 f4 =>
                simp [delete, hf, hsp', hmax, hsp2]
      · rw [hslio]
        simp
      · intro x hx
        have hkeys : Tree.keys sl =
            (((ctxL mctx ++ ml.inorder)).map Prod.fst) ++ mk :: [] := by
          rw [Tree.keys, hslio]
          simp
        rw [hkeys] at hx hsort_sl
        rcases List.mem_append.1 hx with hx | hx
        · have := sorted_mid_left hsort_sl x hx
          omega
        · rcases List.mem_cons.1 hx with hx | hx
          · omega
          · simp at hx

/-- The inorder association list after any `delete`. -/
theorem delete_inorder {t : Tree γ} {k : Int}
    (hs : List.Sorted (· < ·) (Tree.keys t)) :
    (delete t k).2.inorder = listEraseKey k t.inorder := by
  by_cases hk : k ∈ Tree.keys t
  · exact (delete_hit_spec hs hk).2
  · rw [delete_not_mem hk]
    exact (listEraseKey_of_not_mem hk).symm

theorem delete_keys_sorted {t : Tree γ} {k : Int}
    (hs : List.Sorted (· < ·) (Tree.keys t)) :
    List.Sorted (· < ·) (Tree.keys (delete t k).2) := by
  rw [Tree.keys, delete_inorder hs]
  exact List.Pairwise.sublist (listEraseKey_keys_sublist k t.inorder) hs

/-! ### Sequences of operations -/

theorem applyOp_sorted {t : Tree γ} (o : Op γ)
    (hs : List.Sorted (· < ·) (Tree.keys t)) :
    List.Sorted (· < ·) (Tree.keys (applyOp t o)) := by
  cases o with
  | ins k v => exact insert_keys_sorted hs
  | del k => exact delete_keys_sorted hs
  | fnd k =>
      show List.Sorted (· < ·) (Tree.keys (find t k).2)
      rw [Tree.keys, (find_spec hs).2]
      exact hs
  | min =>
      show List.Sorted (· < ·) (Tree.keys (minimum t).2)
      rw [Tree.keys, (minimum_spec t).2]
      exact hs
  | max =>
      show List.Sorted (· < ·) (Tree.keys (maximum t).2)
      rw [Tree.keys, (maximum_spec t).2]
      exact hs

theorem applyOps_sorted {t : Tree γ} (ops : List (Op γ))
    (hs : List.Sorted (· < ·) (Tree.keys t)) :
    List.Sorted (· < ·) (Tree.keys (applyOps t ops)) := by
  induction ops generalizing t with
  | nil => exact hs
  | cons o rest ih => exact ih (applyOp_sorted o hs)

theorem applyOp_lookup {t : Tree γ} {k : Int} {o : Op γ}
    (hs : List.Sorted (· < ·) (Tree.keys t)) (hno : ¬ OpTouches k o) :
    lookupKey k (applyOp t o).inorder = lookupKey k t.inorder := by
  cases o with
  | ins k2 v =>
      have hk2 : k ≠ k2 := by
        intro h
        exact hno (by simp [OpTouches, h])
      rw [applyOp, insert_inorder hs, listInsert_lookup_other v hk2]
  | del k2 =>
      have hk2 : k ≠ k2 := by
        intro h
        exact hno (by simp [OpTouches, h])
      rw [applyOp, delete_inorder hs, listEraseKey_lookup_other hk2]
  | fnd k2 => rw [applyOp, (find_spec hs).2]
  | min => rw [applyOp, (minimum_spec t).2]
  | max => rw [applyOp, (maximum_spec t).2]

theorem applyOps_lookup {k : Int} : ∀ (ops : List (Op γ)) {t : Tree γ},
    List.Sorted (· < ·) (Tree.keys t) → (∀ o ∈ ops, ¬ OpTouches k o) →
    lookupKey k (applyOps t ops).inorder = lookupKey k t.inorder
  | [], t, _, _ => rfl
  | o :: rest, t, hs, hno => by
      rw [applyOps, applyOps_lookup rest (applyOp_sorted o hs)
        fun o2 h2 => hno o2 (by simp [h2]),
        applyOp_lookup hs (hno o (by simp))]

/-- `listInsert` of a present key (on an ascending list) keeps the key
sequence unchanged: the value is overwritten in place. -/
theorem listInsert_keys_of_mem {k : Int} {v : Option γ} :
    ∀ {xs : List (Int × Option γ)},
    List.Sorted (· < ·) (xs.map Prod.fst) → k ∈ xs.map Prod.fst →
    (listInsert k v xs).map Prod.fst = xs.map Prod.fst
  | [], _, hm => by simp at hm
  | (a, b) :: rest, hso, hm => by
      simp only [List.map_cons] at hso
      have hrest := (List.sorted_cons.1 hso).2
      have hgt := (List.sorted_cons.1 hso).1
      by_cases h1 : k < a
      · exfalso
        simp only [List.map_cons, List.mem_cons] at hm
        rcases hm with hm | hm
        · omega
        · exact absurd (hgt k hm) (by omega)
      · by_cases h2 : k = a
        · subst h2
          simp [listInsert, if_neg h1]
        · have hm2 : k ∈ rest.map Prod.fst := by
            simp only [List.map_cons, List.mem_cons] at hm
            rcases hm with hm | hm
            · exact absurd hm h2
            · exact hm
          simp [listInsert, if_neg h1, if_neg h2,
            listInsert_keys_of_mem hrest hm2]

theorem keys_def (t : Tree γ) : Tree.keys t = t.inorder.map Prod.fst := rfl

theorem inorder_ne_nil {t : Tree γ} (h : t ≠ .leaf) : t.inorder ≠ [] := by
  cases t with
  | leaf => exact absurd rfl h
  | node l k v r => simp

theorem insert_count {t : Tree γ} {k : Int} {v : Option γ}
    (hs : List.Sorted (· < ·) (Tree.keys t)) :
    count (insert t k v) =
      if k ∈ Tree.keys t then count t else count t + 1 := by
  show (insert t k v).inorder.length = _
  rw [insert_inorder hs, listInsert_length hs]
  rfl

theorem mem_of_getLast?_eq {α : Type} {l : List α} {a : α}
    (h : l.getLast? = some a) : a ∈ l := by
  obtain ⟨hne, heq⟩ :=
    List.mem_getLast?_eq_getLast (show a ∈ l.getLast? by simp [h])
  rw [heq]
  exact List.getLast_mem hne

theorem sorted_le_getLast : ∀ {l : List Int},
    List.Sorted (· < ·) l → ∀ {x : Int}, x ∈ l → ∀ {y : Int},
    l.getLast? = some y → x ≤ y
  | [], _, x, hx, _, _ => by simp at hx
  | [a], _, x, hx, y, hy => by
      simp at hx hy
      omega
  | a :: b :: rest, hs, x, hx, y, hy => by
      rw [List.getLast?_cons_cons] at hy
      have hs2 := (List.sorted_cons.1 hs).2
      have hgt := (List.sorted_cons.1 hs).1
      rcases List.mem_cons.1 hx with rfl | hx2
      · have hym : y ∈ b :: rest := mem_of_getLast?_eq hy
        have := hgt y hym
        omega
      · exact sorted_le_getLast hs2 hx2 hy

/-- C4: for every tree and every key `k` not present in it, `delete(k)`
returns failure (`False`) and the tree is left completely unchanged — the
very same tree, so `inorder()` is identical to before the call. -/
theorem claim_C4 (γ : Type) (t : Tree γ) (k : Int)
    (hk : k ∉ Tree.keys t) :
    delete t k = (false, t) ∧ (delete t k).2.inorder = t.inorder := by
  have h := delete_not_mem hk
  exact ⟨h, by rw [h]⟩

theorem claim_C4_witness :
    delete exTree 100 = (false, exTree) ∧
      (delete exTree 100).2.inorder = exTree.inorder :=
  claim_C4 Int exTree 100 (by decide)

/-- C5: after any successful `find(k)` and after any `insert(k, v)` —
including into the empty tree and including an overwrite — the root's key
equals `k`; and splay applied to a null node is a no-op returning null
(the empty tree stays the empty tree, nothing is rebuilt). -/
theorem claim_C5 (γ : Type) :
    (∀ (t : Tree γ) (k : Int), List.Sorted (· < ·) (Tree.keys t) →
      k ∈ Tree.keys t → Tree.rootKey (find t k).2 = some k) ∧
    (∀ (t : Tree γ) (k : Int) (v : Option γ),
      Tree.rootKey (insert t k v) = some k) ∧
    splay (Tree.leaf : Tree γ) .nil = .leaf := by
  refine ⟨fun t k hs hk => find_root_hit hs hk, fun t k v => ?_, rfl⟩
  obtain ⟨a, b, h⟩ := insert_root t k v
  simp [h, Tree.rootKey]

theorem claim_C5_witness :
    Tree.rootKey (find exTree 5).2 = some 5 ∧
    Tree.rootKey (insert exTree 9 none) = some 9 ∧
    Tree.rootKey (insert exTree 10 (some 99)) = some 10 ∧
    Tree.rootKey (insert (Tree.leaf : Tree Int) 3 none) = some 3 ∧
    splay (Tree.leaf : Tree Int) .nil = .leaf :=
  ⟨(claim_C5 Int).1 exTree 5 (by decide) (by decide),
   (claim_C5 Int).2.1 exTree 9 none,
   (claim_C5 Int).2.1 exTree 10 (some 99),
   (claim_C5 Int).2.1 .leaf 3 none,
   (claim_C5 Int).2.2⟩

/-- C6: on a non-empty tree, a `find` for an absent key returns the
not-found result `None` and splays the last non-null node visited by the
descent (where the search fell off the tree) to the root; the
restructuring does not change the inorder sequence of pairs. -/
theorem claim_C6 (γ : Type) (t : Tree γ) (k : Int) (hne : t ≠ .leaf)
    (hk : k ∉ Tree.keys t) :
    ∃ a b c d ctx2,
      findNode k t .nil = (.node a b c d, ctx2) ∧
      find t k = (none, splay (.node a b c d) ctx2) ∧
      Tree.rootKey (find t k).2 = some b ∧
      (find t k).2.inorder = t.inorder :=
  find_miss_spec hne hk

theorem claim_C6_witness :
    ∃ a b c d ctx2,
      findNode 7 exTree .nil = (.node a b c d, ctx2) ∧
      find exTree 7 = (none, splay (.node a b c d) ctx2) ∧
      Tree.rootKey (find exTree 7).2 = some b ∧
      (find exTree 7).2.inorder = exTree.inorder :=
  claim_C6 Int exTree 7 (by decide) (by decide)

/-- C9: on the empty tree, `minimum()`, `maximum()` and `find(k)` all
report a no-result outcome (`None`) without mutating the tree; on a
non-empty tree, `minimum()` and `maximum()` return the (key, value) pair
of the smallest-key and largest-key node respectively. -/
theorem claim_C9 (γ : Type) :
    minimum (Tree.leaf : Tree γ) = (none, .leaf) ∧
    maximum (Tree.leaf : Tree γ) = (none, .leaf) ∧
    (∀ k : Int, find (Tree.leaf : Tree γ) k = (none, .leaf)) ∧
    (∀ t : Tree γ, List.Sorted (· < ·) (Tree.keys t) → t ≠ .leaf →
      (∃ p, (minimum t).1 = some p ∧ p ∈ t.inorder ∧
        ∀ x ∈ Tree.keys t, p.1 ≤ x) ∧
      (∃ p, (maximum t).1 = some p ∧ p ∈ t.inorder ∧
        ∀ x ∈ Tree.keys t, x ≤ p.1)) := by
  refine ⟨rfl, rfl, fun k => rfl, fun t hs hne => ⟨?_, ?_⟩⟩
  · have hmin := (minimum_spec t).1
    obtain ⟨p, tail, hpt⟩ : ∃ p tail, t.inorder = p :: tail := by
      cases hh : t.inorder with
      | nil => exact absurd hh (inorder_ne_nil hne)
      | cons p tail => exact ⟨p, tail, rfl⟩
    refine ⟨p, by rw [hmin, hpt]; rfl, by rw [hpt]; simp, ?_⟩
    intro x hx
    rw [keys_def, hpt] at hx
    rcases List.mem_cons.1 hx with hx | hx
    · omega
    · have hsk := hs
      rw [keys_def, hpt] at hsk
      have := (List.sorted_cons.1 hsk).1 x hx
      omega
  · have hmax := (maximum_spec t).1
    obtain ⟨p, hp⟩ : ∃ p, t.inorder.getLast? = some p := by
      cases hh : t.inorder.getLast? with
      | none =>
          exact absurd (List.getLast?_eq_none_iff.1 hh) (inorder_ne_nil hne)
      | some p => exact ⟨p, rfl⟩
    refine ⟨p, by rw [hmax, hp], mem_of_getLast?_eq hp, ?_⟩
    intro x hx
    have hget : (Tree.keys t).getLast? = some p.1 := by
      rw [keys_def, List.getLast?_map, hp]
      rfl
    exact sorted_le_getLast hs hx hget

theorem claim_C9_witness :
    minimum (Tree.leaf : Tree Int) = (none, .leaf) ∧
    (∃ p, (minimum exTree).1 = some p ∧ p ∈ exTree.inorder ∧
      ∀ x ∈ Tree.keys exTree, p.1 ≤ x) ∧
    (∃ p, (maximum exTree).1 = some p ∧ p ∈ exTree.inorder ∧
      ∀ x ∈ Tree.keys exTree, x ≤ p.1) :=
  ⟨(claim_C9 Int).1,
   ((claim_C9 Int).2.2.2 exTree (by decide) (by decide)).1,
   ((claim_C9 Int).2.2.2 exTree (by decide) (by decide)).2⟩

/-- C10: `insert`'s value parameter defaults to `None`
(`insertDefault k = insert k None`), and `find` returns `None` both for
an absent key and for a present key stored with value `None`: after
`insert(5)` with no value, a successful lookup of 5 and a failed lookup
of 7 are observationally identical. -/
theorem claim_C10 :
    (∀ (t : Tree Int) (k : Int), insertDefault t k = insert t k none) ∧
    5 ∈ Tree.keys (insertDefault (Tree.leaf : Tree Int) 5) ∧
    (find (insertDefault (Tree.leaf : Tree Int) 5) 5).1 = none ∧
    7 ∉ Tree.keys (insertDefault (Tree.leaf : Tree Int) 5) ∧
    (find (insertDefault (Tree.leaf : Tree Int) 5) 7).1 = none ∧
    (find (insertDefault (Tree.leaf : Tree Int) 5) 5).1 =
      (find (insertDefault (Tree.leaf : Tree Int) 5) 7).1 := by
  exact ⟨fun t k => rfl, by decide, by decide, by decide, by decide, by decide⟩

/-- C7 as stated is false for `delete` on an absent key: the code returns
`False` before any splay, so the last node visited during the failed
descent is NOT splayed to the root.  Concretely, on the tree with root 5
and right child 10, deleting the absent key 20 stops its descent at the
node with key 10, yet the tree is returned unchanged with root 5. -/
theorem claim_C7_counterexample :
    Tree.rootKey
      (findNode 20 (insert (insert (Tree.leaf : Tree Int) 10 (some 1))
        5 (some 2)) .nil).1 = some 10 ∧
    delete (insert (insert (Tree.leaf : Tree Int) 10 (some 1)) 5 (some 2))
        20 =
      (false,
        insert (insert (Tree.leaf : Tree Int) 10 (some 1)) 5 (some 2)) ∧
    Tree.rootKey
      (delete (insert (insert (Tree.leaf : Tree Int) 10 (some 1))
        5 (some 2)) 20).2 = some 5 := by
  decide

/-- C7 (amended): `find`, `insert`, `minimum` and `maximum` locate a
target node — or, for a failed `find`, the last node visited — and splay
it to the root; `delete` splays only when the key is found (before
detaching it, reporting success); `delete(k)` with `k` absent performs no
splay at all and returns failure with the tree unchanged. -/
theorem claim_C7 (γ : Type) :
    (∀ (t : Tree γ) (k : Int), List.Sorted (· < ·) (Tree.keys t) →
      k ∈ Tree.keys t → Tree.rootKey (find t k).2 = some k) ∧
    (∀ (t : Tree γ) (k : Int), t ≠ .leaf → k ∉ Tree.keys t →
      ∃ a b c d ctx2, findNode k t .nil = (.node a b c d, ctx2) ∧
        Tree.rootKey (find t k).2 = some b) ∧
    (∀ (t : Tree γ) (k : Int) (v : Option γ),
      Tree.rootKey (insert t k v) = some k) ∧
    (∀ t : Tree γ, t ≠ .leaf → ∃ mk mv, (minimum t).1 = some (mk, mv) ∧
      Tree.rootKey (minimum t).2 = some mk) ∧
    (∀ t : Tree γ, t ≠ .leaf → ∃ mk mv, (maximum t).1 = some (mk, mv) ∧
      Tree.rootKey (maximum t).2 = some mk) ∧
    (∀ (t : Tree γ) (k : Int), List.Sorted (· < ·) (Tree.keys t) →
      k ∈ Tree.keys t → (delete t k).1 = true) ∧
    (∀ (t : Tree γ) (k : Int), k ∉ Tree.keys t → delete t k = (false, t)) := by
  refine ⟨fun t k hs hk => find_root_hit hs hk,
    fun t k hne hk => ?_,
    fun t k v => ?_,
    fun t hne => minimum_root t hne,
    fun t hne => maximum_root t hne,
    fun t k hs hk => (delete_hit_spec hs hk).1,
    fun t k hk => delete_not_mem hk⟩
  · obtain ⟨a, b, c, d, ctx2, h1, -, h3, -⟩ := find_miss_spec hne hk
    exact ⟨a, b, c, d, ctx2, h1, h3⟩
  · obtain ⟨a, b, h⟩ := insert_root t k v
    simp [h, Tree.rootKey]

theorem claim_C7_witness :
    Tree.rootKey (find exTree 10).2 = some 10 ∧
    (∃ a b c d ctx2, findNode 20 exTree .nil = (.node a b c d, ctx2) ∧
      Tree.rootKey (find exTree 20).2 = some b) ∧
    Tree.rootKey (insert exTree 4 none) = some 4 ∧
    (∃ mk mv, (minimum exTree).1 = some (mk, mv) ∧
      Tree.rootKey (minimum exTree).2 = some mk) ∧
    (delete exTree 15).1 = true ∧
    delete exTree 20 = (false, exTree) :=
  ⟨(claim_C7 Int).1 exTree 10 (by decide) (by decide),
   (claim_C7 Int).2.1 exTree 20 (by decide) (by decide),
   (claim_C7 Int).2.2.1 exTree 4 none,
   (claim_C7 Int).2.2.2.1 exTree (by decide),
   (claim_C7 Int).2.2.2.2.2.1 exTree 15 (by decide) (by decide),
   (claim_C7 Int).2.2.2.2.2.2 exTree 20 (by decide)⟩

/-- C1: for every sequence of insert and delete operations applied to an
initially empty SplayTree, `inorder()` returns the stored (key, value)
pairs with keys in strictly ascending order, and the strict structural
BST ordering invariant holds for the reachable tree. -/
theorem claim_C1 (γ : Type) (ops : List (Op γ))
    (hmut : ∀ o ∈ ops, IsInsDel o) :
    List.Sorted (· < ·) (Tree.keys (applyOps (Tree.leaf : Tree γ) ops)) ∧
    BSTInv (applyOps (Tree.leaf : Tree γ) ops) := by
  have hs := applyOps_sorted ops
    (show List.Sorted (· < ·) (Tree.keys (Tree.leaf : Tree γ)) by
      simp [Tree.keys])
  exact ⟨hs, (bstInv_iff_sorted _).2 hs⟩

theorem claim_C1_witness :
    List.Sorted (· < ·) (Tree.keys (applyOps (Tree.leaf : Tree Int)
      [Op.ins 10 (some 1), Op.ins 5 (some 2), Op.ins 15 (some 3),
        Op.del 10, Op.ins 5 (some 9)])) ∧
    BSTInv (applyOps (Tree.leaf : Tree Int)
      [Op.ins 10 (some 1), Op.ins 5 (some 2), Op.ins 15 (some 3),
        Op.del 10, Op.ins 5 (some 9)]) :=
  claim_C1 Int _ (by
    intro o ho
    simp only [List.mem_cons] at ho
    rcases ho with rfl | rfl | rfl | rfl | rfl | h
    · trivial
    · trivial
    · trivial
    · trivial
    · trivial
    · simp at h)

/-- C2: immediately after `insert(k, v)`, `find(k)` returns `v`; the key
count increases by exactly 1 if `k` was absent; if `k` was present the
count and the key sequence are unchanged and the stored value is replaced
in place; and as long as `k` is not later overwritten or deleted,
`find(k)` keeps returning `v` after any sequence of further operations. -/
theorem claim_C2 (γ : Type) (t : Tree γ) (k : Int) (v : Option γ)
    (hs : List.Sorted (· < ·) (Tree.keys t)) :
    (find (insert t k v) k).1 = v ∧
    (k ∉ Tree.keys t → count (insert t k v) = count t + 1) ∧
    (k ∈ Tree.keys t → count (insert t k v) = count t ∧
      Tree.keys (insert t k v) = Tree.keys t ∧
      lookupKey k (insert t k v).inorder = v) ∧
    (∀ ops : List (Op γ), (∀ o ∈ ops, ¬ OpTouches k o) →
      (find (applyOps (insert t k v) ops) k).1 = v) := by
  have hs2 : List.Sorted (· < ·) (Tree.keys (insert t k v)) :=
    insert_keys_sorted hs
  have hlook : lookupKey k (insert t k v).inorder = v := by
    rw [insert_inorder hs]
    exact listInsert_lookup_self k v t.inorder
  refine ⟨?_, ?_, ?_, ?_⟩
  · rw [(find_spec hs2).1, hlook]
  · intro hk
    rw [insert_count hs, if_neg hk]
  · intro hk
    refine ⟨by rw [insert_count hs, if_pos hk], ?_, hlook⟩
    rw [keys_def, insert_inorder hs, keys_def] at *
    exact listInsert_keys_of_mem hs hk
  · intro ops hno
    have hsorted := applyOps_sorted ops hs2
    rw [(find_spec hsorted).1, applyOps_lookup ops hs2 hno, hlook]

theorem claim_C2_witness :
    (find (insert exTree 7 (some 70)) 7).1 = some 70 ∧
    count (insert exTree 7 (some 70)) = count exTree + 1 ∧
    (count (insert exTree 10 (some 99)) = count exTree ∧
      Tree.keys (insert exTree 10 (some 99)) = Tree.keys exTree ∧
      lookupKey 10 (insert exTree 10 (some 99)).inorder = some 99) ∧
    (find (applyOps (insert exTree 7 (some 70))
      [Op.ins 8 (some 80), Op.fnd 5, Op.del 15, Op.min, Op.max]) 7).1 =
      some 70 :=
  ⟨(claim_C2 Int exTree 7 (some 70) (by decide)).1,
   (claim_C2 Int exTree 7 (some 70) (by decide)).2.1 (by decide),
   (claim_C2 Int exTree 10 (some 99) (by decide)).2.2.1 (by decide),
   (claim_C2 Int exTree 7 (some 70) (by decide)).2.2.2
     [Op.ins 8 (some 80), Op.fnd 5, Op.del 15, Op.min, Op.max] (by
      intro o ho
      simp only [List.mem_cons] at ho
      rcases ho with rfl | rfl | rfl | rfl | rfl | h
      · simp [OpTouches]
      · simp [OpTouches]
      · simp [OpTouches]
      · simp [OpTouches]
      · simp [OpTouches]
      · simp at h)⟩

/-- C3: deleting a present key `k` returns success; afterwards `find(k)`
reports not-found, the key is gone, and the key count decreases by
exactly 1; and when the splayed root has both children, the new overall
root is the maximum-key node of the former left subtree, with the former
right subtree attached as that node's right child (the parent link being
implicit in this functional rendering of the pointer structure). -/
theorem claim_C3 (γ : Type) (t : Tree γ) (k : Int)
    (hs : List.Sorted (· < ·) (Tree.keys t)) (hk : k ∈ Tree.keys t) :
    (delete t k).1 = true ∧
    (find (delete t k).2 k).1 = none ∧
    k ∉ Tree.keys (delete t k).2 ∧
    count (delete t k).2 + 1 = count t ∧
    (∀ (a d : Tree γ) (c sv : Option γ) (ctx2 : Ctx γ) (sl sr : Tree γ),
      findNode k t .nil = (.node a k c d, ctx2) →
      splay (.node a k c d) ctx2 = .node sl k sv sr →
      sl ≠ .leaf → sr ≠ .leaf →
      ∃ A mk mv, delete t k = (true, .node A mk mv sr) ∧
        (mk, mv) ∈ sl.inorder ∧ ∀ x ∈ Tree.keys sl, x ≤ mk) := by
  have hnotmem : k ∉ Tree.keys (delete t k).2 := by
    rw [keys_def, delete_inorder hs]
    exact listEraseKey_not_mem (List.Sorted.nodup hs)
  refine ⟨(delete_hit_spec hs hk).1, ?_, hnotmem, ?_, ?_⟩
  · rw [(find_spec (delete_keys_sorted hs)).1]
    exact lookupKey_eq_none hnotmem
  · show (delete t k).2.inorder.length + 1 = t.inorder.length
    rw [delete_inorder hs]
    exact listEraseKey_length hk
  · intro a d c sv ctx2 sl sr hf hsp hsl hsr
    exact delete_both_spec hs hf hsp hsl hsr

theorem claim_C3_witness :
    (delete exTree 10).1 = true ∧
    (find (delete exTree 10).2 10).1 = none ∧
    10 ∉ Tree.keys (delete exTree 10).2 ∧
    count (delete exTree 10).2 + 1 = count exTree :=
  ⟨(claim_C3 Int exTree 10 (by decide) (by decide)).1,
   (claim_C3 Int exTree 10 (by decide) (by decide)).2.1,
   (claim_C3 Int exTree 10 (by decide) (by decide)).2.2.1,
   (claim_C3 Int exTree 10 (by decide) (by decide)).2.2.2.1⟩

/-! ### The pointer heap

For the parent-pointer invariant the functional rendering is not enough:
we model the Python objects directly.  A `NodeRec` is one `Node` object
(key, value and the three references, as addresses); a `Heap` is the set
of allocated objects together with the tree's `root` reference.  Every
statement of the Python methods is transcribed as a read or a field
update on this heap, and the `while` loops take explicit fuel (the
wrappers pass `next`, an upper bound on the number of allocated nodes and
hence on any path length in a well-formed heap). -/

namespace HTree

@[simp] theorem rootA_leaf : (HTree.leaf : HTree γ).rootA = none := rfl

@[simp] theorem rootA_node (l : HTree γ) (a : Nat) (k : Int)
    (v : Option γ) (r : HTree γ) : (HTree.node l a k v r).rootA = some a :=
  rfl

@[simp] theorem addrs_leaf : (HTree.leaf : HTree γ).addrs = [] := rfl

@[simp] theorem addrs_node (l : HTree γ) (a : Nat) (k : Int)
    (v : Option γ) (r : HTree γ) :
    (HTree.node l a k v r).addrs = a :: l.addrs ++ r.addrs := rfl

end HTree

@[simp] theorem setMem_same (m : Nat → Option (NodeRec γ)) (a : Nat)
    (r : Option (NodeRec γ)) : setMem m a r a = r := by
  simp [setMem]

theorem setMem_other (m : Nat → Option (NodeRec γ)) {a b : Nat}
    (r : Option (NodeRec γ)) (h : b ≠ a) : setMem m a r b = m b := by
  simp [setMem, h]

theorem updField_same {m : Nat → Option (NodeRec γ)} {a : Nat}
    {r : NodeRec γ} (hm : m a = some r) (f : NodeRec γ → NodeRec γ) :
    updField m a f a = some (f r) := by
  simp [updField, hm]

theorem updField_other (m : Nat → Option (NodeRec γ)) (a : Nat)
    (f : NodeRec γ → NodeRec γ) {b : Nat} (h : b ≠ a) :
    updField m a f b = m b := by
  unfold updField
  cases m a with
  | none => rfl
  | some r => exact setMem_other m _ h

/-- Heaps agreeing on a set of addresses represent the same trees. -/
theorem RepT_mono {m m2 : Nat → Option (NodeRec γ)} {par : Option Nat} :
    ∀ {ht : HTree γ}, (∀ b ∈ ht.addrs, m2 b = m b) → RepT m par ht →
    RepT m2 par ht := by
  intro ht
  induction ht generalizing par with
  | leaf => intro _ _; exact RepT.leaf
  | node l a k v r ihl ihr =>
      intro hag hrep
      cases hrep with
      | node hm hl hr =>
          exact RepT.node (by rw [hag a (by simp)]; exact hm)
            (ihl (fun b hb => hag b (by simp [hb])) hl)
            (ihr (fun b hb => hag b (by simp [hb])) hr)

theorem RepCx_mono {m m2 : Nat → Option (NodeRec γ)} {root : Option Nat} :
    ∀ {hctx : HCtx γ} {co : Option Nat},
    (∀ b ∈ ctxAddrs hctx, m2 b = m b) → RepCx m root co hctx →
    RepCx m2 root co hctx := by
  intro hctx
  induction hctx with
  | nil => intro co _ h; cases h with | nil he => exact RepCx.nil he
  | left p pk pv pr rest ih =>
      intro co hag h
      cases h with
      | left hm hpr hrest =>
          exact RepCx.left (by rw [hag p (by simp [ctxAddrs])]; exact hm)
            (RepT_mono (fun b hb => hag b (by simp [ctxAddrs, hb])) hpr)
            (ih (fun b hb => hag b (by simp [ctxAddrs, hb])) hrest)
  | right p pk pv pl rest ih =>
      intro co hag h
      cases h with
      | right hm hpl hrest =>
          exact RepCx.right (by rw [hag p (by simp [ctxAddrs])]; exact hm)
            (RepT_mono (fun b hb => hag b (by simp [ctxAddrs, hb])) hpl)
            (ih (fun b hb => hag b (by simp [ctxAddrs, hb])) hrest)

@[simp] theorem ctxParent_nil : ctxParent (.nil : HCtx γ) = none := rfl

@[simp] theorem ctxParent_left (p : Nat) (pk : Int) (pv : Option γ)
    (pr : HTree γ) (rest : HCtx γ) :
    ctxParent (.left p pk pv pr rest) = some p := rfl

@[simp] theorem ctxParent_right (p : Nat) (pk : Int) (pv : Option γ)
    (pl : HTree γ) (rest : HCtx γ) :
    ctxParent (.right p pk pv pl rest) = some p := rfl

@[simp] theorem ctxAddrs_nil : ctxAddrs (.nil : HCtx γ) = [] := rfl

@[simp] theorem ctxAddrs_left (p : Nat) (pk : Int) (pv : Option γ)
    (pr : HTree γ) (rest : HCtx γ) :
    ctxAddrs (.left p pk pv pr rest) = p :: pr.addrs ++ ctxAddrs rest :=
  rfl

@[simp] theorem ctxAddrs_right (p : Nat) (pk : Int) (pv : Option γ)
    (pl : HTree γ) (rest : HCtx γ) :
    ctxAddrs (.right p pk pv pl rest) = p :: pl.addrs ++ ctxAddrs rest :=
  rfl

/-- Folding the context back: a focused state is a representation of the
rebuilt whole tree. -/
theorem zip_plug {s : Heap γ} : ∀ {hctx : HCtx γ} {ht : HTree γ},
    Zip s ht hctx → RootRep s (hplug ht hctx) := by
  intro hctx
  induction hctx with
  | nil => intro ht h; exact h
  | left p pk pv pr rest ih =>
      intro ht h
      obtain ⟨hrept, hrepc, hnodup, hbound⟩ := h
      cases hrepc with
      | left hm hpr hrest =>
          refine ih ⟨RepT.node hm hrept hpr, hrest, ?_, ?_⟩
          · have hperm : ((HTree.node ht p pk pv pr).addrs ++
                ctxAddrs rest).Perm
                (ht.addrs ++ ctxAddrs (.left p pk pv pr rest)) := by
              simp only [HTree.addrs_node, ctxAddrs_left, List.cons_append,
                List.append_assoc]
              exact List.perm_middle.symm
            exact (hperm.nodup_iff).2 hnodup
          · intro b hb
            apply hbound
            simp only [HTree.addrs_node, ctxAddrs_left, List.cons_append,
              List.mem_append, List.mem_cons] at hb ⊢
            tauto
  | right p pk pv pl rest ih =>
      intro ht h
      obtain ⟨hrept, hrepc, hnodup, hbound⟩ := h
      cases hrepc with
      | right hm hpl hrest =>
          refine ih ⟨RepT.node hm hpl hrept, hrest, ?_, ?_⟩
          · have hperm : ((HTree.node pl p pk pv ht).addrs ++
                ctxAddrs rest).Perm
                (ht.addrs ++ ctxAddrs (.right p pk pv pl rest)) := by
              simp only [HTree.addrs_node, ctxAddrs_right, List.cons_append,
                List.append_assoc]
              refine List.Perm.trans (List.Perm.cons p ?_)
                List.perm_middle.symm
              rw [← List.append_assoc, ← List.append_assoc]
              exact List.perm_append_comm.append_right _
            exact (hperm.nodup_iff).2 hnodup
          · intro b hb
            apply hbound
            simp only [HTree.addrs_node, ctxAddrs_right, List.cons_append,
              List.mem_append, List.mem_cons] at hb ⊢
            tauto

theorem readLeft_eq {m : Nat → Option (NodeRec γ)} {a : Nat}
    {r : NodeRec γ} (h : m a = some r) : readLeft m a = r.left := by
  simp [readLeft, h]

theorem readRight_eq {m : Nat → Option (NodeRec γ)} {a : Nat}
    {r : NodeRec γ} (h : m a = some r) : readRight m a = r.right := by
  simp [readRight, h]

theorem readParent_eq {m : Nat → Option (NodeRec γ)} {a : Nat}
    {r : NodeRec γ} (h : m a = some r) : readParent m a = r.parent := by
  simp [readParent, h]

/-- The net effect of `_rotate_right(p)` on a heap in which `p` and its
left child `y` are well-formed and distinct from each other, from `y`'s
right child and from `p`'s parent: `p` and `y` swap places, `y`'s right
subtree moves under `p`, and the parent (or the root pointer) now holds
`y`. -/
theorem rotateRight_eq {s : Heap γ} {p y : Nat} {pr yr : NodeRec γ}
    (hmp : s.mem p = some pr) (hpl : pr.left = some y)
    (hmy : s.mem y = some yr) (hyp : y ≠ p)
    (hzd : ∀ z, yr.right = some z → z ≠ p ∧ z ≠ y)
    (hqd : ∀ q, pr.parent = some q → q ≠ p ∧ q ≠ y ∧
      ∀ z, yr.right = some z → q ≠ z) :
    rotateRight s p = ⟨(if pr.parent = none then some y else s.root),
      s.next,
      fun b =>
        if b = p then some ⟨pr.key, pr.value, yr.right, pr.right, some y⟩
        else if b = y then
          some ⟨yr.key, yr.value, yr.left, some p, pr.parent⟩
        else if yr.right = some b then
          (s.mem b).map (fun r => { r with parent := some p })
        else if pr.parent = some b then
          (s.mem b).map (fun r =>
            if r.right = some p then { r with right := some y }
            else { r with left := some y })
        else s.mem b⟩ := by
  have hrl : readLeft s.mem p = some y := by rw [readLeft_eq hmp, hpl]
  have hpy : p ≠ y := fun h => hyp h.symm
  unfold rotateRight
  rw [hrl]
  dsimp only
  have hyr0 : readRight s.mem y = yr.right := readRight_eq hmy
  rw [hyr0]
  have hm1p : updField s.mem p (fun r => { r with left := yr.right }) p =
      some { pr with left := yr.right } := updField_same hmp _
  have hm1y : updField s.mem p (fun r => { r with left := yr.right }) y =
      some yr := by rw [updField_other _ _ _ hyp, hmy]
  rw [readRight_eq hm1y]
  cases hyrr : yr.right with
  | none =>
      rw [hyrr] at hm1p
      dsimp only
      rw [readParent_eq hm1p]
      cases hpp : pr.parent with
      | none =>
          simp only [Heap.mk.injEq]
          refine ⟨by simp, trivial, funext fun b => ?_⟩
          by_cases hbp : b = p
          · subst hbp
            simp [updField,
                      setMem,
                      readLeft,
                      readRight,
                      readParent,
                      hmp,
                      hmy,
                      hyp,
                      hpy]
          · by_cases hby : b = y
            · subst hby
              simp [updField,
                      setMem,
                      readLeft,
                      readRight,
                      readParent,
                      hmp,
                      hmy,
                      hyp,
                      hpy,
                      hbp,
                      hpp]
            · simp [updField,
                      setMem,
                      readLeft,
                      readRight,
                      readParent,
                      hmp,
                      hmy,
                      hyp,
                      hpy,
                      hbp,
                      hby,
                      hpp]
      | some q =>
          obtain ⟨hqp, hqy, -⟩ := hqd q hpp
          have hpq : ¬ p = q := fun h => hqp h.symm
          have hyq : ¬ y = q := fun h => hqy h.symm
          simp only [Heap.mk.injEq]
          refine ⟨by simp, trivial, funext fun b => ?_⟩
          cases hmq : s.mem q with
          | none =>
              by_cases hbp : b = p
              · subst hbp
                simp [updField,
                      setMem,
                      readLeft,
                      readRight,
                      readParent,
                      hmp,
                      hmy,
                      hmq,
                      hyp,
                      hpy,
                      hqp,
                      hqy,
                      hpq,
                      hyq,
                      hpp]
              · by_cases hby : b = y
                · subst hby
                  simp [updField,
                      setMem,
                      readLeft,
                      readRight,
                      readParent,
                      hmp,
                      hmy,
                      hmq,
                      hyp,
                      hpy,
                      hqp,
                      hqy,
                      hpq,
                      hyq,
                      hbp,
                      hpp]
                · by_cases hbq : b = q
                  · subst hbq
                    simp [updField,
                      setMem,
                      readLeft,
                      readRight,
                      readParent,
                      hmp,
                      hmy,
                      hmq,
                      hyp,
                      hpy,
                      hqp,
                      hqy,
                      hpq,
                      hyq,
                      hbp,
                      hby,
                      hpp]
                  · simp [updField,
                      setMem,
                      readLeft,
                      readRight,
                      readParent,
                      hmp,
                      hmy,
                      hmq,
                      hyp,
                      hpy,
                      hqp,
                      hqy,
                      hpq,
                      hyq,
                      hbp,
                      hby,
                      hbq,
                      hpp,
                      show ¬ q = b from fun h => hbq h.symm]
          | some qr =>
              by_cases hqr : qr.right = some p
              · by_cases hbp : b = p
                · subst hbp
                  simp [updField,
                      setMem,
                      readLeft,
                      readRight,
                      readParent,
                      hmp,
                      hmy,
                      hmq,
                      hqr,
                      hyp,
                      hpy,
                      hqp,
                      hqy,
                      hpq,
                      hyq,
                      hpp]
                · by_cases hby : b = y
                  · subst hby
                    simp [updField,
                      setMem,
                      readLeft,
                      readRight,
                      readParent,
                      hmp,
                      hmy,
                      hmq,
                      hqr,
                      hyp,
                      hpy,
                      hqp,
                      hqy,
                      hpq,
                      hyq,
                      hbp,
                      hpp]
                  · by_cases hbq : b = q
                    · subst hbq
                      simp [updField,
                      setMem,
                      readLeft,
                      readRight,
                      readParent,
                      hmp,
                      hmy,
                      hmq,
                      hqr,
                      hyp,
                      hpy,
                      hqp,
                      hqy,
                      hpq,
                      hyq,
                      hbp,
                      hby,
                      hpp]
                    · simp [updField,
                      setMem,
                      readLeft,
                      readRight,
                      readParent,
                      hmp,
                      hmy,
                      hmq,
                      hqr,
                      hyp,
                      hpy,
                      hqp,
                      hqy,
                      hbp,
                      hby,
                      hbq,
                      hpp,
                      hpq,
                      hyq,
                      show ¬ q = b from fun h => hbq h.symm]
              · by_cases hbp : b = p
                · subst hbp
                  simp [updField,
                      setMem,
                      readLeft,
                      readRight,
                      readParent,
                      hmp,
                      hmy,
                      hmq,
                      hqr,
                      hyp,
                      hpy,
                      hqp,
                      hqy,
                      hpq,
                      hyq,
                      hpp]
                · by_cases hby : b = y
                  · subst hby
                    simp [updField,
                      setMem,
                      readLeft,
                      readRight,
                      readParent,
                      hmp,
                      hmy,
                      hmq,
                      hqr,
                      hyp,
                      hpy,
                      hqp,
                      hqy,
                      hpq,
                      hyq,
                      hbp,
                      hpp]
                  · by_cases hbq : b = q
                    · subst hbq
                      simp [updField,
                      setMem,
                      readLeft,
                      readRight,
                      readParent,
                      hmp,
                      hmy,
                      hmq,
                      hqr,
                      hyp,
                      hpy,
                      hqp,
                      hqy,
                      hpq,
                      hyq,
                      hbp,
                      hby,
                      hpp]
                    · simp [updField,
                      setMem,
                      readLeft,
                      readRight,
                      readParent,
                      hmp,
                      hmy,
                      hmq,
                      hqr,
                      hyp,
                      hpy,
                      hqp,
                      hqy,
                      hbp,
                      hby,
                      hbq,
                      hpp,
                      hpq,
                      hyq,
                      show ¬ q = b from fun h => hbq h.symm]
  | some z =>
      obtain ⟨hzp, hzy⟩ := hzd z hyrr
      have hpz : ¬ p = z := fun h => hzp h.symm
      have hyz : ¬ y = z := fun h => hzy h.symm
      rw [hyrr] at hm1p
      dsimp only
      have hm2p : updField (updField s.mem p
          (fun r => { r with left := some z }))
          z (fun r => { r with parent := some p }) p =
          some { pr with left := some z } :=
        (updField_other _ _ _ (fun h => hzp h.symm)).trans hm1p
      rw [readParent_eq hm2p]
      cases hmz : s.mem z with
      | none =>
          cases hpp : pr.parent with
          | none =>
              simp only [Heap.mk.injEq]
              refine ⟨by simp, trivial, funext fun b => ?_⟩
              by_cases hbp : b = p
              · subst hbp
                simp [updField, setMem, readLeft, readRight, readParent, hmp, hmy, hmz, hyp, hpy, hzp, hzy, hpz, hyz, hpp]
              · by_cases hby : b = y
                · subst hby
                  simp [updField, setMem, readLeft, readRight, readParent, hmp, hmy, hmz, hyp, hpy, hzp, hzy, hpz, hyz, hpp, hbp]
                · by_cases hbz : b = z
                  · subst hbz
                    simp [updField, setMem, readLeft, readRight, readParent, hmp, hmy, hmz, hyp, hpy, hzp, hzy, hpz, hyz, hpp, hbp, hby]
                  · simp [updField, setMem, readLeft, readRight, readParent, hmp, hmy, hmz, hyp, hpy, hzp, hzy, hpz, hyz, hpp, hbp, hby, hbz, show ¬ z = b from fun h => hbz h.symm]
          | some q =>
              obtain ⟨hqp, hqy, hqz0⟩ := hqd q hpp
              have hqz : q ≠ z := hqz0 z hyrr
              have hpq : ¬ p = q := fun h => hqp h.symm
              have hyq : ¬ y = q := fun h => hqy h.symm
              have hzq : ¬ z = q := fun h => hqz h.symm
              simp only [Heap.mk.injEq]
              refine ⟨by simp, trivial, funext fun b => ?_⟩
              cases hmq : s.mem q with
              | none =>
                  by_cases hbp : b = p
                  · subst hbp
                    simp [updField, setMem, readLeft, readRight, readParent, hmp, hmy, hmz, hyp, hpy, hzp, hzy, hpz, hyz, hmq, hqp, hqy, hqz, hpq, hyq, hzq, hpp]
                  · by_cases hby : b = y
                    · subst hby
                      simp [updField, setMem, readLeft, readRight, readParent, hmp, hmy, hmz, hyp, hpy, hzp, hzy, hpz, hyz, hmq, hqp, hqy, hqz, hpq, hyq, hzq, hpp, hbp]
                    · by_cases hbz : b = z
                      · subst hbz
                        simp [updField, setMem, readLeft, readRight, readParent, hmp, hmy, hmz, hyp, hpy, hzp, hzy, hpz, hyz, hmq, hqp, hqy, hqz, hpq, hyq, hzq, hpp, hbp, hby]
                      · by_cases hbq : b = q
                        · subst hbq
                          simp [updField, setMem, readLeft, readRight, readParent, hmp, hmy, hmz, hyp, hpy, hzp, hzy, hpz, hyz, hmq, hqp, hqy, hqz, hpq, hyq, hzq, hpp, hbp, hby, hbz, show ¬ z = b from fun h => hbz h.symm]
                        · simp [updField, setMem, readLeft, readRight, readParent, hmp, hmy, hmz, hyp, hpy, hzp, hzy, hpz, hyz, hmq, hqp, hqy, hqz, hpq, hyq, hzq, hpp, hbp, hby, hbz, hbq, show ¬ q = b from fun h => hbq h.symm, show ¬ z = b from fun h => hbz h.symm]
              | some qr =>
                  by_cases hqr : qr.right = some p
                  · by_cases hbp : b = p
                    · subst hbp
                      simp [updField, setMem, readLeft, readRight, readParent, hmp, hmy, hmz, hyp, hpy, hzp, hzy, hpz, hyz, hmq, hqp, hqy, hqz, hpq, hyq, hzq, hqr, hpp]
                    · by_cases hby : b = y
                      · subst hby
                        simp [updField, setMem, readLeft, readRight, readParent, hmp, hmy, hmz, hyp, hpy, hzp, hzy, hpz, hyz, hmq, hqp, hqy, hqz, hpq, hyq, hzq, hqr, hpp, hbp]
                      · by_cases hbz : b = z
                        · subst hbz
                          simp [updField, setMem, readLeft, readRight, readParent, hmp, hmy, hmz, hyp, hpy, hzp, hzy, hpz, hyz, hmq, hqp, hqy, hqz, hpq, hyq, hzq, hqr, hpp, hbp, hby]
                        · by_cases hbq : b = q
                          · subst hbq
                            simp [updField, setMem, readLeft, readRight, readParent, hmp, hmy, hmz, hyp, hpy, hzp, hzy, hpz, hyz, hmq, hqp, hqy, hqz, hpq, hyq, hzq, hqr, hpp, hbp, hby, hbz, show ¬ z = b from fun h => hbz h.symm]
                          · simp [updField, setMem, readLeft, readRight, readParent, hmp, hmy, hmz, hyp, hpy, hzp, hzy, hpz, hyz, hmq, hqp, hqy, hqz, hpq, hyq, hzq, hqr, hpp, hbp, hby, hbz, hbq, show ¬ q = b from fun h => hbq h.symm, show ¬ z = b from fun h => hbz h.symm]
                  · by_cases hbp : b = p
                    · subst hbp
                      simp [updField, setMem, readLeft, readRight, readParent, hmp, hmy, hmz, hyp, hpy, hzp, hzy, hpz, hyz, hmq, hqp, hqy, hqz, hpq, hyq, hzq, hqr, hpp]
                    · by_cases hby : b = y
                      · subst hby
                        simp [updField, setMem, readLeft, readRight, readParent, hmp, hmy, hmz, hyp, hpy, hzp, hzy, hpz, hyz, hmq, hqp, hqy, hqz, hpq, hyq, hzq, hqr, hpp, hbp]
                      · by_cases hbz : b = z
                        · subst hbz
                          simp [updField, setMem, readLeft, readRight, readParent, hmp, hmy, hmz, hyp, hpy, hzp, hzy, hpz, hyz, hmq, hqp, hqy, hqz, hpq, hyq, hzq, hqr, hpp, hbp, hby]
                        · by_cases hbq : b = q
                          · subst hbq
                            simp [updField, setMem, readLeft, readRight, readParent, hmp, hmy, hmz, hyp, hpy, hzp, hzy, hpz, hyz, hmq, hqp, hqy, hqz, hpq, hyq, hzq, hqr, hpp, hbp, hby, hbz, show ¬ z = b from fun h => hbz h.symm]
                          · simp [updField, setMem, readLeft, readRight, readParent, hmp, hmy, hmz, hyp, hpy, hzp, hzy, hpz, hyz, hmq, hqp, hqy, hqz, hpq, hyq, hzq, hqr, hpp, hbp, hby, hbz, hbq, show ¬ q = b from fun h => hbq h.symm, show ¬ z = b from fun h => hbz h.symm]
      | some zr =>
          cases hpp : pr.parent with
          | none =>
              simp only [Heap.mk.injEq]
              refine ⟨by simp, trivial, funext fun b => ?_⟩
              by_cases hbp : b = p
              · subst hbp
                simp [updField, setMem, readLeft, readRight, readParent, hmp, hmy, hmz, hyp, hpy, hzp, hzy, hpz, hyz, hpp]
              · by_cases hby : b = y
                · subst hby
                  simp [updField, setMem, readLeft, readRight, readParent, hmp, hmy, hmz, hyp, hpy, hzp, hzy, hpz, hyz, hpp, hbp]
                · by_cases hbz : b = z
                  · subst hbz
                    simp [updField, setMem, readLeft, readRight, readParent, hmp, hmy, hmz, hyp, hpy, hzp, hzy, hpz, hyz, hpp, hbp, hby]
                  · simp [updField, setMem, readLeft, readRight, readParent, hmp, hmy, hmz, hyp, hpy, hzp, hzy, hpz, hyz, hpp, hbp, hby, hbz, show ¬ z = b from fun h => hbz h.symm]
          | some q =>
              obtain ⟨hqp, hqy, hqz0⟩ := hqd q hpp
              have hqz : q ≠ z := hqz0 z hyrr
              have hpq : ¬ p = q := fun h => hqp h.symm
              have hyq : ¬ y = q := fun h => hqy h.symm
              have hzq : ¬ z = q := fun h => hqz h.symm
              simp only [Heap.mk.injEq]
              refine ⟨by simp, trivial, funext fun b => ?_⟩
              cases hmq : s.mem q with
              | none =>
                  by_cases hbp : b = p
                  · subst hbp
                    simp [updField, setMem, readLeft, readRight, readParent, hmp, hmy, hmz, hyp, hpy, hzp, hzy, hpz, hyz, hmq, hqp, hqy, hqz, hpq, hyq, hzq, hpp]
                  · by_cases hby : b = y
                    · subst hby
                      simp [updField, setMem, readLeft, readRight, readParent, hmp, hmy, hmz, hyp, hpy, hzp, hzy, hpz, hyz, hmq, hqp, hqy, hqz, hpq, hyq, hzq, hpp, hbp]
                    · by_cases hbz : b = z
                      · subst hbz
                        simp [updField, setMem, readLeft, readRight, readParent, hmp, hmy, hmz, hyp, hpy, hzp, hzy, hpz, hyz, hmq, hqp, hqy, hqz, hpq, hyq, hzq, hpp, hbp, hby]
                      · by_cases hbq : b = q
                        · subst hbq
                          simp [updField, setMem, readLeft, readRight, readParent, hmp, hmy, hmz, hyp, hpy, hzp, hzy, hpz, hyz, hmq, hqp, hqy, hqz, hpq, hyq, hzq, hpp, hbp, hby, hbz, show ¬ z = b from fun h => hbz h.symm]
                        · simp [updField, setMem, readLeft, readRight, readParent, hmp, hmy, hmz, hyp, hpy, hzp, hzy, hpz, hyz, hmq, hqp, hqy, hqz, hpq, hyq, hzq, hpp, hbp, hby, hbz, hbq, show ¬ q = b from fun h => hbq h.symm, show ¬ z = b from fun h => hbz h.symm]
              | some qr =>
                  by_cases hqr : qr.right = some p
                  · by_cases hbp : b = p
                    · subst hbp
                      simp [updField, setMem, readLeft, readRight, readParent, hmp, hmy, hmz, hyp, hpy, hzp, hzy, hpz, hyz, hmq, hqp, hqy, hqz, hpq, hyq, hzq, hqr, hpp]
                    · by_cases hby : b = y
                      · subst hby
                        simp [updField, setMem, readLeft, readRight, readParent, hmp, hmy, hmz, hyp, hpy, hzp, hzy, hpz, hyz, hmq, hqp, hqy, hqz, hpq, hyq, hzq, hqr, hpp, hbp]
                      · by_cases hbz : b = z
                        · subst hbz
                          simp [updField, setMem, readLeft, readRight, readParent, hmp, hmy, hmz, hyp, hpy, hzp, hzy, hpz, hyz, hmq, hqp, hqy, hqz, hpq, hyq, hzq, hqr, hpp, hbp, hby]
                        · by_cases hbq : b = q
                          · subst hbq
                            simp [updField, setMem, readLeft, readRight, readParent, hmp, hmy, hmz, hyp, hpy, hzp, hzy, hpz, hyz, hmq, hqp, hqy, hqz, hpq, hyq, hzq, hqr, hpp, hbp, hby, hbz, show ¬ z = b from fun h => hbz h.symm]
                          · simp [updField, setMem, readLeft, readRight, readParent, hmp, hmy, hmz, hyp, hpy, hzp, hzy, hpz, hyz, hmq, hqp, hqy, hqz, hpq, hyq, hzq, hqr, hpp, hbp, hby, hbz, hbq, show ¬ q = b from fun h => hbq h.symm, show ¬ z = b from fun h => hbz h.symm]
                  · by_cases hbp : b = p
                    · subst hbp
                      simp [updField, setMem, readLeft, readRight, readParent, hmp, hmy, hmz, hyp, hpy, hzp, hzy, hpz, hyz, hmq, hqp, hqy, hqz, hpq, hyq, hzq, hqr, hpp]
                    · by_cases hby : b = y
                      · subst hby
                        simp [updField, setMem, readLeft, readRight, readParent, hmp, hmy, hmz, hyp, hpy, hzp, hzy, hpz, hyz, hmq, hqp, hqy, hqz, hpq, hyq, hzq, hqr, hpp, hbp]
                      · by_cases hbz : b = z
                        · subst hbz
                          simp [updField, setMem, readLeft, readRight, readParent, hmp, hmy, hmz, hyp, hpy, hzp, hzy, hpz, hyz, hmq, hqp, hqy, hqz, hpq, hyq, hzq, hqr, hpp, hbp, hby]
                        · by_cases hbq : b = q
                          · subst hbq
                            simp [updField, setMem, readLeft, readRight, readParent, hmp, hmy, hmz, hyp, hpy, hzp, hzy, hpz, hyz, hmq, hqp, hqy, hqz, hpq, hyq, hzq, hqr, hpp, hbp, hby, hbz, show ¬ z = b from fun h => hbz h.symm]
                          · simp [updField, setMem, readLeft, readRight, readParent, hmp, hmy, hmz, hyp, hpy, hzp, hzy, hpz, hyz, hmq, hqp, hqy, hqz, hpq, hyq, hzq, hqr, hpp, hbp, hby, hbz, hbq, show ¬ q = b from fun h => hbq h.symm, show ¬ z = b from fun h => hbz h.symm]

/-- Mirror of the characterization for the left rotation. -/
theorem rotateLeft_eq {s : Heap γ} {p y : Nat} {pr yr : NodeRec γ}
    (hmp : s.mem p = some pr) (hpl : pr.right = some y)
    (hmy : s.mem y = some yr) (hyp : y ≠ p)
    (hzd : ∀ z, yr.left = some z → z ≠ p ∧ z ≠ y)
    (hqd : ∀ q, pr.parent = some q → q ≠ p ∧ q ≠ y ∧
      ∀ z, yr.left = some z → q ≠ z) :
    rotateLeft s p = ⟨(if pr.parent = none then some y else s.root),
      s.next,
      fun b =>
        if b = p then some ⟨pr.key, pr.value, pr.left, yr.left, some y⟩
        else if b = y then
          some ⟨yr.key, yr.value, some p, yr.right, pr.parent⟩
        else if yr.left = some b then
          (s.mem b).map (fun r => { r with parent := some p })
        else if pr.parent = some b then
          (s.mem b).map (fun r =>
            if r.left = some p then { r with left := some y }
            else { r with right := some y })
        else s.mem b⟩ := by
  have hrl : readRight s.mem p = some y := by rw [readRight_eq hmp, hpl]
  have hpy : p ≠ y := fun h => hyp h.symm
  unfold rotateLeft
  rw [hrl]
  dsimp only
  have hyr0 : readLeft s.mem y = yr.left := readLeft_eq hmy
  rw [hyr0]
  have hm1p : updField s.mem p (fun r => { r with right := yr.left }) p =
      some { pr with right := yr.left } := updField_same hmp _
  have hm1y : updField s.mem p (fun r => { r with right := yr.left }) y =
      some yr := by rw [updField_other _ _ _ hyp, hmy]
  rw [readLeft_eq hm1y]
  cases hyrr : yr.left with
  | none =>
      rw [hyrr] at hm1p
      dsimp only
      rw [readParent_eq hm1p]
      cases hpp : pr.parent with
      | none =>
          simp only [Heap.mk.injEq]
          refine ⟨by simp, trivial, funext fun b => ?_⟩
          by_cases hbp : b = p
          · subst hbp
            simp [updField,
                      setMem,
                      readRight,
                      readLeft,
                      readParent,
                      hmp,
                      hmy,
                      hyp,
                      hpy]
          · by_cases hby : b = y
            · subst hby
              simp [updField,
                      setMem,
                      readRight,
                      readLeft,
                      readParent,
                      hmp,
                      hmy,
                      hyp,
                      hpy,
                      hbp,
                      hpp]
            · simp [updField,
                      setMem,
                      readRight,
                      readLeft,
                      readParent,
                      hmp,
                      hmy,
                      hyp,
                      hpy,
                      hbp,
                      hby,
                      hpp]
      | some q =>
          obtain ⟨hqp, hqy, -⟩ := hqd q hpp
          have hpq : ¬ p = q := fun h => hqp h.symm
          have hyq : ¬ y = q := fun h => hqy h.symm
          simp only [Heap.mk.injEq]
          refine ⟨by simp, trivial, funext fun b => ?_⟩
          cases hmq : s.mem q with
          | none =>
              by_cases hbp : b = p
              · subst hbp
                simp [updField,
                      setMem,
                      readRight,
                      readLeft,
                      readParent,
                      hmp,
                      hmy,
                      hmq,
                      hyp,
                      hpy,
                      hqp,
                      hqy,
                      hpq,
                      hyq,
                      hpp]
              · by_cases hby : b = y
                · subst hby
                  simp [updField,
                      setMem,
                      readRight,
                      readLeft,
                      readParent,
                      hmp,
                      hmy,
                      hmq,
                      hyp,
                      hpy,
                      hqp,
                      hqy,
                      hpq,
                      hyq,
                      hbp,
                      hpp]
                · by_cases hbq : b = q
                  · subst hbq
                    simp [updField,
                      setMem,
                      readRight,
                      readLeft,
                      readParent,
                      hmp,
                      hmy,
                      hmq,
                      hyp,
                      hpy,
                      hqp,
                      hqy,
                      hpq,
                      hyq,
                      hbp,
                      hby,
                      hpp]
                  · simp [updField,
                      setMem,
                      readRight,
                      readLeft,
                      readParent,
                      hmp,
                      hmy,
                      hmq,
                      hyp,
                      hpy,
                      hqp,
                      hqy,
                      hpq,
                      hyq,
                      hbp,
                      hby,
                      hbq,
                      hpp,
                      show ¬ q = b from fun h => hbq h.symm]
          | some qr =>
              by_cases hqr : qr.left = some p
              · by_cases hbp : b = p
                · subst hbp
                  simp [updField,
                      setMem,
                      readRight,
                      readLeft,
                      readParent,
                      hmp,
                      hmy,
                      hmq,
                      hqr,
                      hyp,
                      hpy,
                      hqp,
                      hqy,
                      hpq,
                      hyq,
                      hpp]
                · by_cases hby : b = y
                  · subst hby
                    simp [updField,
                      setMem,
                      readRight,
                      readLeft,
                      readParent,
                      hmp,
                      hmy,
                      hmq,
                      hqr,
                      hyp,
                      hpy,
                      hqp,
                      hqy,
                      hpq,
                      hyq,
                      hbp,
                      hpp]
                  · by_cases hbq : b = q
                    · subst hbq
                      simp [updField,
                      setMem,
                      readRight,
                      readLeft,
                      readParent,
                      hmp,
                      hmy,
                      hmq,
                      hqr,
                      hyp,
                      hpy,
                      hqp,
                      hqy,
                      hpq,
                      hyq,
                      hbp,
                      hby,
                      hpp]
                    · simp [updField,
                      setMem,
                      readRight,
                      readLeft,
                      readParent,
                      hmp,
                      hmy,
                      hmq,
                      hqr,
                      hyp,
                      hpy,
                      hqp,
                      hqy,
                      hbp,
                      hby,
                      hbq,
                      hpp,
                      hpq,
                      hyq,
                      show ¬ q = b from fun h => hbq h.symm]
              · by_cases hbp : b = p
                · subst hbp
                  simp [updField,
                      setMem,
                      readRight,
                      readLeft,
                      readParent,
                      hmp,
                      hmy,
                      hmq,
                      hqr,
                      hyp,
                      hpy,
                      hqp,
                      hqy,
                      hpq,
                      hyq,
                      hpp]
                · by_cases hby : b = y
                  · subst hby
                    simp [updField,
                      setMem,
                      readRight,
                      readLeft,
                      readParent,
                      hmp,
                      hmy,
                      hmq,
                      hqr,
                      hyp,
                      hpy,
                      hqp,
                      hqy,
                      hpq,
                      hyq,
                      hbp,
                      hpp]
                  · by_cases hbq : b = q
                    · subst hbq
                      simp [updField,
                      setMem,
                      readRight,
                      readLeft,
                      readParent,
                      hmp,
                      hmy,
                      hmq,
                      hqr,
                      hyp,
                      hpy,
                      hqp,
                      hqy,
                      hpq,
                      hyq,
                      hbp,
                      hby,
                      hpp]
                    · simp [updField,
                      setMem,
                      readRight,
                      readLeft,
                      readParent,
                      hmp,
                      hmy,
                      hmq,
                      hqr,
                      hyp,
                      hpy,
                      hqp,
                      hqy,
                      hbp,
                      hby,
                      hbq,
                      hpp,
                      hpq,
                      hyq,
                      show ¬ q = b from fun h => hbq h.symm]
  | some z =>
      obtain ⟨hzp, hzy⟩ := hzd z hyrr
      have hpz : ¬ p = z := fun h => hzp h.symm
      have hyz : ¬ y = z := fun h => hzy h.symm
      rw [hyrr] at hm1p
      dsimp only
      have hm2p : updField (updField s.mem p
          (fun r => { r with right := some z }))
          z (fun r => { r with parent := some p }) p =
          some { pr with right := some z } :=
        (updField_other _ _ _ (fun h => hzp h.symm)).trans hm1p
      rw [readParent_eq hm2p]
      cases hmz : s.mem z with
      | none =>
          cases hpp : pr.parent with
          | none =>
              simp only [Heap.mk.injEq]
              refine ⟨by simp, trivial, funext fun b => ?_⟩
              by_cases hbp : b = p
              · subst hbp
                simp [updField, setMem, readRight, readLeft, readParent, hmp, hmy, hmz, hyp, hpy, hzp, hzy, hpz, hyz, hpp]
              · by_cases hby : b = y
                · subst hby
                  simp [updField, setMem, readRight, readLeft, readParent, hmp, hmy, hmz, hyp, hpy, hzp, hzy, hpz, hyz, hpp, hbp]
                · by_cases hbz : b = z
                  · subst hbz
                    simp [updField, setMem, readRight, readLeft, readParent, hmp, hmy, hmz, hyp, hpy, hzp, hzy, hpz, hyz, hpp, hbp, hby]
                  · simp [updField, setMem, readRight, readLeft, readParent, hmp, hmy, hmz, hyp, hpy, hzp, hzy, hpz, hyz, hpp, hbp, hby, hbz, show ¬ z = b from fun h => hbz h.symm]
          | some q =>
              obtain ⟨hqp, hqy, hqz0⟩ := hqd q hpp
              have hqz : q ≠ z := hqz0 z hyrr
              have hpq : ¬ p = q := fun h => hqp h.symm
              have hyq : ¬ y = q := fun h => hqy h.symm
              have hzq : ¬ z = q := fun h => hqz h.symm
              simp only [Heap.mk.injEq]
              refine ⟨by simp, trivial, funext fun b => ?_⟩
              cases hmq : s.mem q with
              | none =>
                  by_cases hbp : b = p
                  · subst hbp
                    simp [updField, setMem, readRight, readLeft, readParent, hmp, hmy, hmz, hyp, hpy, hzp, hzy, hpz, hyz, hmq, hqp, hqy, hqz, hpq, hyq, hzq, hpp]
                  · by_cases hby : b = y
                    · subst hby
                      simp [updField, setMem, readRight, readLeft, readParent, hmp, hmy, hmz, hyp, hpy, hzp, hzy, hpz, hyz, hmq, hqp, hqy, hqz, hpq, hyq, hzq, hpp, hbp]
                    · by_cases hbz : b = z
                      · subst hbz
                        simp [updField, setMem, readRight, readLeft, readParent, hmp, hmy, hmz, hyp, hpy, hzp, hzy, hpz, hyz, hmq, hqp, hqy, hqz, hpq, hyq, hzq, hpp, hbp, hby]
                      · by_cases hbq : b = q
                        · subst hbq
                          simp [updField, setMem, readRight, readLeft, readParent, hmp, hmy, hmz, hyp, hpy, hzp, hzy, hpz, hyz, hmq, hqp, hqy, hqz, hpq, hyq, hzq, hpp, hbp, hby, hbz, show ¬ z = b from fun h => hbz h.symm]
                        · simp [updField, setMem, readRight, readLeft, readParent, hmp, hmy, hmz, hyp, hpy, hzp, hzy, hpz, hyz, hmq, hqp, hqy, hqz, hpq, hyq, hzq, hpp, hbp, hby, hbz, hbq, show ¬ q = b from fun h => hbq h.symm, show ¬ z = b from fun h => hbz h.symm]
              | some qr =>
                  by_cases hqr : qr.left = some p
                  · by_cases hbp : b = p
                    · subst hbp
                      simp [updField, setMem, readRight, readLeft, readParent, hmp, hmy, hmz, hyp, hpy, hzp, hzy, hpz, hyz, hmq, hqp, hqy, hqz, hpq, hyq, hzq, hqr, hpp]
                    · by_cases hby : b = y
                      · subst hby
                        simp [updField, setMem, readRight, readLeft, readParent, hmp, hmy, hmz, hyp, hpy, hzp, hzy, hpz, hyz, hmq, hqp, hqy, hqz, hpq, hyq, hzq, hqr, hpp, hbp]
                      · by_cases hbz : b = z
                        · subst hbz
                          simp [updField, setMem, readRight, readLeft, readParent, hmp, hmy, hmz, hyp, hpy, hzp, hzy, hpz, hyz, hmq, hqp, hqy, hqz, hpq, hyq, hzq, hqr, hpp, hbp, hby]
                        · by_cases hbq : b = q
                          · subst hbq
                            simp [updField, setMem, readRight, readLeft, readParent, hmp, hmy, hmz, hyp, hpy, hzp, hzy, hpz, hyz, hmq, hqp, hqy, hqz, hpq, hyq, hzq, hqr, hpp, hbp, hby, hbz, show ¬ z = b from fun h => hbz h.symm]
                          · simp [updField, setMem, readRight, readLeft, readParent, hmp, hmy, hmz, hyp, hpy, hzp, hzy, hpz, hyz, hmq, hqp, hqy, hqz, hpq, hyq, hzq, hqr, hpp, hbp, hby, hbz, hbq, show ¬ q = b from fun h => hbq h.symm, show ¬ z = b from fun h => hbz h.symm]
                  · by_cases hbp : b = p
                    · subst hbp
                      simp [updField, setMem, readRight, readLeft, readParent, hmp, hmy, hmz, hyp, hpy, hzp, hzy, hpz, hyz, hmq, hqp, hqy, hqz, hpq, hyq, hzq, hqr, hpp]
                    · by_cases hby : b = y
                      · subst hby
                        simp [updField, setMem, readRight, readLeft, readParent, hmp, hmy, hmz, hyp, hpy, hzp, hzy, hpz, hyz, hmq, hqp, hqy, hqz, hpq, hyq, hzq, hqr, hpp, hbp]
                      · by_cases hbz : b = z
                        · subst hbz
                          simp [updField, setMem, readRight, readLeft, readParent, hmp, hmy, hmz, hyp, hpy, hzp, hzy, hpz, hyz, hmq, hqp, hqy, hqz, hpq, hyq, hzq, hqr, hpp, hbp, hby]
                        · by_cases hbq : b = q
                          · subst hbq
                            simp [updField, setMem, readRight, readLeft, readParent, hmp, hmy, hmz, hyp, hpy, hzp, hzy, hpz, hyz, hmq, hqp, hqy, hqz, hpq, hyq, hzq, hqr, hpp, hbp, hby, hbz, show ¬ z = b from fun h => hbz h.symm]
                          · simp [updField, setMem, readRight, readLeft, readParent, hmp, hmy, hmz, hyp, hpy, hzp, hzy, hpz, hyz, hmq, hqp, hqy, hqz, hpq, hyq, hzq, hqr, hpp, hbp, hby, hbz, hbq, show ¬ q = b from fun h => hbq h.symm, show ¬ z = b from fun h => hbz h.symm]
      | some zr =>
          cases hpp : pr.parent with
          | none =>
              simp only [Heap.mk.injEq]
              refine ⟨by simp, trivial, funext fun b => ?_⟩
              by_cases hbp : b = p
              · subst hbp
                simp [updField, setMem, readRight, readLeft, readParent, hmp, hmy, hmz, hyp, hpy, hzp, hzy, hpz, hyz, hpp]
              · by_cases hby : b = y
                · subst hby
                  simp [updField, setMem, readRight, readLeft, readParent, hmp, hmy, hmz, hyp, hpy, hzp, hzy, hpz, hyz, hpp, hbp]
                · by_cases hbz : b = z
                  · subst hbz
                    simp [updField, setMem, readRight, readLeft, readParent, hmp, hmy, hmz, hyp, hpy, hzp, hzy, hpz, hyz, hpp, hbp, hby]
                  · simp [updField, setMem, readRight, readLeft, readParent, hmp, hmy, hmz, hyp, hpy, hzp, hzy, hpz, hyz, hpp, hbp, hby, hbz, show ¬ z = b from fun h => hbz h.symm]
          | some q =>
              obtain ⟨hqp, hqy, hqz0⟩ := hqd q hpp
              have hqz : q ≠ z := hqz0 z hyrr
              have hpq : ¬ p = q := fun h => hqp h.symm
              have hyq : ¬ y = q := fun h => hqy h.symm
              have hzq : ¬ z = q := fun h => hqz h.symm
              simp only [Heap.mk.injEq]
              refine ⟨by simp, trivial, funext fun b => ?_⟩
              cases hmq : s.mem q with
              | none =>
                  by_cases hbp : b = p
                  · subst hbp
                    simp [updField, setMem, readRight, readLeft, readParent, hmp, hmy, hmz, hyp, hpy, hzp, hzy, hpz, hyz, hmq, hqp, hqy, hqz, hpq, hyq, hzq, hpp]
                  · by_cases hby : b = y
                    · subst hby
                      simp [updField, setMem, readRight, readLeft, readParent, hmp, hmy, hmz, hyp, hpy, hzp, hzy, hpz, hyz, hmq, hqp, hqy, hqz, hpq, hyq, hzq, hpp, hbp]
                    · by_cases hbz : b = z
                      · subst hbz
                        simp [updField, setMem, readRight, readLeft, readParent, hmp, hmy, hmz, hyp, hpy, hzp, hzy, hpz, hyz, hmq, hqp, hqy, hqz, hpq, hyq, hzq, hpp, hbp, hby]
                      · by_cases hbq : b = q
                        · subst hbq
                          simp [updField, setMem, readRight, readLeft, readParent, hmp, hmy, hmz, hyp, hpy, hzp, hzy, hpz, hyz, hmq, hqp, hqy, hqz, hpq, hyq, hzq, hpp, hbp, hby, hbz, show ¬ z = b from fun h => hbz h.symm]
                        · simp [updField, setMem, readRight, readLeft, readParent, hmp, hmy, hmz, hyp, hpy, hzp, hzy, hpz, hyz, hmq, hqp, hqy, hqz, hpq, hyq, hzq, hpp, hbp, hby, hbz, hbq, show ¬ q = b from fun h => hbq h.symm, show ¬ z = b from fun h => hbz h.symm]
              | some qr =>
                  by_cases hqr : qr.left = some p
                  · by_cases hbp : b = p
                    · subst hbp
                      simp [updField, setMem, readRight, readLeft, readParent, hmp, hmy, hmz, hyp, hpy, hzp, hzy, hpz, hyz, hmq, hqp, hqy, hqz, hpq, hyq, hzq, hqr, hpp]
                    · by_cases hby : b = y
                      · subst hby
                        simp [updField, setMem, readRight, readLeft, readParent, hmp, hmy, hmz, hyp, hpy, hzp, hzy, hpz, hyz, hmq, hqp, hqy, hqz, hpq, hyq, hzq, hqr, hpp, hbp]
                      · by_cases hbz : b = z
                        · subst hbz
                          simp [updField, setMem, readRight, readLeft, readParent, hmp, hmy, hmz, hyp, hpy, hzp, hzy, hpz, hyz, hmq, hqp, hqy, hqz, hpq, hyq, hzq, hqr, hpp, hbp, hby]
                        · by_cases hbq : b = q
                          · subst hbq
                            simp [updField, setMem, readRight, readLeft, readParent, hmp, hmy, hmz, hyp, hpy, hzp, hzy, hpz, hyz, hmq, hqp, hqy, hqz, hpq, hyq, hzq, hqr, hpp, hbp, hby, hbz, show ¬ z = b from fun h => hbz h.symm]
                          · simp [updField, setMem, readRight, readLeft, readParent, hmp, hmy, hmz, hyp, hpy, hzp, hzy, hpz, hyz, hmq, hqp, hqy, hqz, hpq, hyq, hzq, hqr, hpp, hbp, hby, hbz, hbq, show ¬ q = b from fun h => hbq h.symm, show ¬ z = b from fun h => hbz h.symm]
                  · by_cases hbp : b = p
                    · subst hbp
                      simp [updField, setMem, readRight, readLeft, readParent, hmp, hmy, hmz, hyp, hpy, hzp, hzy, hpz, hyz, hmq, hqp, hqy, hqz, hpq, hyq, hzq, hqr, hpp]
                    · by_cases hby : b = y
                      · subst hby
                        simp [updField, setMem, readRight, readLeft, readParent, hmp, hmy, hmz, hyp, hpy, hzp, hzy, hpz, hyz, hmq, hqp, hqy, hqz, hpq, hyq, hzq, hqr, hpp, hbp]
                      · by_cases hbz : b = z
                        · subst hbz
                          simp [updField, setMem, readRight, readLeft, readParent, hmp, hmy, hmz, hyp, hpy, hzp, hzy, hpz, hyz, hmq, hqp, hqy, hqz, hpq, hyq, hzq, hqr, hpp, hbp, hby]
                        · by_cases hbq : b = q
                          · subst hbq
                            simp [updField, setMem, readRight, readLeft, readParent, hmp, hmy, hmz, hyp, hpy, hzp, hzy, hpz, hyz, hmq, hqp, hqy, hqz, hpq, hyq, hzq, hqr, hpp, hbp, hby, hbz, show ¬ z = b from fun h => hbz h.symm]
                          · simp [updField, setMem, readRight, readLeft, readParent, hmp, hmy, hmz, hyp, hpy, hzp, hzy, hpz, hyz, hmq, hqp, hqy, hqz, hpq, hyq, hzq, hqr, hpp, hbp, hby, hbz, hbq, show ¬ q = b from fun h => hbq h.symm, show ¬ z = b from fun h => hbz h.symm]


/-! ### Zipper navigation on the heap representation -/

/-- The root address is one of the tree's addresses. -/
theorem HTree.rootA_mem : ∀ {t : HTree γ} {a : Nat},
    t.rootA = some a → a ∈ t.addrs := by
  intro t a h
  cases t with
  | leaf => simp [HTree.rootA] at h
  | node l b k v r =>
      simp [HTree.rootA] at h
      simp [h]

/-- The context's parent address is one of the context's addresses. -/
theorem ctxParent_mem : ∀ {ctx : HCtx γ} {q : Nat},
    ctxParent ctx = some q → q ∈ ctxAddrs ctx := by
  intro ctx q h
  cases ctx with
  | nil => simp [ctxParent] at h
  | left p pk pv pr rest => simp [ctxParent] at h; simp [h]
  | right p pk pv pl rest => simp [ctxParent] at h; simp [h]

theorem ctxDepth_le_length : ∀ (ctx : HCtx γ),
    ctxDepth ctx ≤ (ctxAddrs ctx).length := by
  intro ctx
  induction ctx with
  | nil => simp [ctxDepth]
  | left p pk pv pr rest ih =>
      simp only [ctxDepth, ctxAddrs_left, List.cons_append, List.length_cons,
        List.length_append]
      omega
  | right p pk pv pl rest ih =>
      simp only [ctxDepth, ctxAddrs_right, List.cons_append, List.length_cons,
        List.length_append]
      omega

/-- A list of distinct naturals all below `n` has at most `n` elements. -/
theorem length_le_of_nodup_lt {L : List Nat} {n : Nat} (hnd : L.Nodup)
    (hb : ∀ b ∈ L, b < n) : L.length ≤ n := by
  have hsub : L ⊆ List.range n := fun b hbL => List.mem_range.2 (hb b hbL)
  have := (hnd.subperm hsub).length_le
  simpa using this

/-- In a focused state the splay loop has enough fuel. -/
theorem ctxDepth_le_next {s : Heap γ} {ht : HTree γ} {ctx : HCtx γ}
    (h : Zip s ht ctx) : ctxDepth ctx ≤ s.next := by
  refine (ctxDepth_le_length ctx).trans ?_
  refine length_le_of_nodup_lt ((List.nodup_append.1 h.nodup).2.1) ?_
  intro b hb
  exact h.bound b (List.mem_append_right _ hb)

/-- The focus subtree is smaller than the allocation bound. -/
theorem addrsLen_le_next {s : Heap γ} {ht : HTree γ} {ctx : HCtx γ}
    (h : Zip s ht ctx) : ht.addrs.length ≤ s.next := by
  refine length_le_of_nodup_lt ((List.nodup_append.1 h.nodup).1) ?_
  intro b hb
  exact h.bound b (List.mem_append_left _ hb)

/-- Move the focus into the left child. -/
theorem zipDown_left {s : Heap γ} {l r : HTree γ} {a : Nat} {k : Int}
    {v : Option γ} {ctx : HCtx γ}
    (h : Zip s (.node l a k v r) ctx) : Zip s l (.left a k v r ctx) := by
  obtain ⟨hrept, hrepc, hnodup, hbound⟩ := h
  cases hrept with
  | node hm hl hr =>
      refine ⟨hl, RepCx.left hm hr hrepc, ?_, ?_⟩
      · have hperm : ((HTree.node l a k v r).addrs ++ ctxAddrs ctx).Perm
            (l.addrs ++ ctxAddrs (.left a k v r ctx)) := by
          simp only [HTree.addrs_node, ctxAddrs_left, List.cons_append,
            List.append_assoc]
          exact List.perm_middle.symm
        exact (hperm.nodup_iff).1 hnodup
      · intro b hb
        apply hbound
        simp only [HTree.addrs_node, ctxAddrs_left, List.cons_append,
          List.mem_append, List.mem_cons] at hb ⊢
        tauto

/-- Move the focus into the right child. -/
theorem zipDown_right {s : Heap γ} {l r : HTree γ} {a : Nat} {k : Int}
    {v : Option γ} {ctx : HCtx γ}
    (h : Zip s (.node l a k v r) ctx) : Zip s r (.right a k v l ctx) := by
  obtain ⟨hrept, hrepc, hnodup, hbound⟩ := h
  cases hrept with
  | node hm hl hr =>
      refine ⟨hr, RepCx.right hm hl hrepc, ?_, ?_⟩
      · have hperm : ((HTree.node l a k v r).addrs ++ ctxAddrs ctx).Perm
            (r.addrs ++ ctxAddrs (.right a k v l ctx)) := by
          simp only [HTree.addrs_node, ctxAddrs_right, List.cons_append,
            List.append_assoc]
          refine List.Perm.trans ?_ List.perm_middle.symm
          refine List.Perm.cons a ?_
          rw [← List.append_assoc, ← List.append_assoc]
          exact List.perm_append_comm.append_right _
        exact (hperm.nodup_iff).1 hnodup
      · intro b hb
        apply hbound
        simp only [HTree.addrs_node, ctxAddrs_right, List.cons_append,
          List.mem_append, List.mem_cons] at hb ⊢
        tauto

/-- Fold one `left` layer of the context back over the focus. -/
theorem zipUp_left {s : Heap γ} {t pr : HTree γ} {p : Nat} {pk : Int}
    {pv : Option γ} {rest : HCtx γ}
    (h : Zip s t (.left p pk pv pr rest)) :
    Zip s (.node t p pk pv pr) rest := by
  obtain ⟨hrept, hrepc, hnodup, hbound⟩ := h
  cases hrepc with
  | left hm hpr hrest =>
      refine ⟨RepT.node hm hrept hpr, hrest, ?_, ?_⟩
      · have hperm : (t.addrs ++ ctxAddrs (.left p pk pv pr rest)).Perm
            ((HTree.node t p pk pv pr).addrs ++ ctxAddrs rest) := by
          simp only [HTree.addrs_node, ctxAddrs_left, List.cons_append,
            List.append_assoc]
          exact List.perm_middle
        exact (hperm.nodup_iff).1 hnodup
      · intro b hb
        apply hbound
        simp only [HTree.addrs_node, ctxAddrs_left, List.cons_append,
          List.mem_append, List.mem_cons] at hb ⊢
        tauto

/-- Fold one `right` layer of the context back over the focus. -/
theorem zipUp_right {s : Heap γ} {t pl : HTree γ} {p : Nat} {pk : Int}
    {pv : Option γ} {rest : HCtx γ}
    (h : Zip s t (.right p pk pv pl rest)) :
    Zip s (.node pl p pk pv t) rest := by
  obtain ⟨hrept, hrepc, hnodup, hbound⟩ := h
  cases hrepc with
  | right hm hpl hrest =>
      refine ⟨RepT.node hm hpl hrept, hrest, ?_, ?_⟩
      · have hperm : (t.addrs ++ ctxAddrs (.right p pk pv pl rest)).Perm
            ((HTree.node pl p pk pv t).addrs ++ ctxAddrs rest) := by
          simp only [HTree.addrs_node, ctxAddrs_right, List.cons_append,
            List.append_assoc]
          refine List.Perm.trans List.perm_middle (List.Perm.cons p ?_)
          rw [← List.append_assoc, ← List.append_assoc]
          exact List.perm_append_comm.append_right _
        exact (hperm.nodup_iff).1 hnodup
      · intro b hb
        apply hbound
        simp only [HTree.addrs_node, ctxAddrs_right, List.cons_append,
          List.mem_append, List.mem_cons] at hb ⊢
        tauto

/-- Re-pointing the parent field of a subtree's root record. -/
theorem RepT_reparent {m m2 : Nat → Option (NodeRec γ)}
    {l r : HTree γ} {a : Nat} {k : Int} {v : Option γ}
    {par par2 : Option Nat}
    (h : RepT m par (.node l a k v r))
    (hroot : m2 a = (m a).map (fun rec => { rec with parent := par2 }))
    (hrest : ∀ b ∈ l.addrs ++ r.addrs, m2 b = m b) :
    RepT m2 par2 (.node l a k v r) := by
  cases h with
  | node hm hl hr =>
      refine RepT.node ?_ ?_ ?_
      · rw [hroot, hm]; rfl
      · exact RepT_mono (fun b hb => hrest b (List.mem_append_left _ hb)) hl
      · exact RepT_mono (fun b hb => hrest b (List.mem_append_right _ hb)) hr

/-- After a right rotation at `p` promoting `y`, the ancestors above the
rotated pair still represent the same context, with the focus pointer
retargeted from `p` to `y`.  The innermost ancestor record is updated the
way `_rotate_right` writes it. -/
theorem RepCx_retargetR {m m2 : Nat → Option (NodeRec γ)}
    {root : Option Nat} {p y : Nat} {ctx : HCtx γ}
    (hrep : RepCx m root (some p) ctx)
    (hnp : p ∉ ctxAddrs ctx)
    (hnd : (ctxAddrs ctx).Nodup)
    (hq : ∀ q r, ctxParent ctx = some q → m q = some r →
      m2 q = some (if r.right = some p then { r with right := some y }
        else { r with left := some y }))
    (hrest : ∀ b ∈ ctxAddrs ctx, ctxParent ctx ≠ some b → m2 b = m b) :
    RepCx m2 (if ctxParent ctx = none then some y else root) (some y) ctx := by
  cases hrep with
  | nil he => exact RepCx.nil rfl
  | @left co q qk qv qr rest hm hqr hrest2 =>
      simp only [ctxParent_left, reduceIte]
      have hqnotr : q ∉ qr.addrs ++ ctxAddrs rest := by
        have := hnd
        simp only [ctxAddrs_left, List.cons_append, List.nodup_cons] at this
        exact this.1
      have hrootne : qr.rootA ≠ some p := by
        intro hc
        exact hnp (by
          simp only [ctxAddrs_left, List.cons_append, List.mem_cons,
            List.mem_append]
          exact Or.inr (Or.inl (HTree.rootA_mem hc)))
      have hm2q := hq q _ rfl hm
      rw [if_neg (by simpa using hrootne)] at hm2q
      refine RepCx.left hm2q ?_ ?_
      · refine RepT_mono (fun b hb => ?_) hqr
        refine hrest b (by simp [hb]) ?_
        simp only [ctxParent_left, Option.some.injEq]
        intro hqb
        exact hqnotr (by rw [Option.some.inj hqb]; exact List.mem_append_left _ hb)
      · refine RepCx_mono (fun b hb => ?_) hrest2
        refine hrest b (by simp [hb]) ?_
        simp only [ctxParent_left, Option.some.injEq]
        intro hqb
        exact hqnotr (by rw [Option.some.inj hqb]; exact List.mem_append_right _ hb)
  | @right co q qk qv ql rest hm hql hrest2 =>
      simp only [ctxParent_right, reduceIte]
      have hqnotr : q ∉ ql.addrs ++ ctxAddrs rest := by
        have := hnd
        simp only [ctxAddrs_right, List.cons_append, List.nodup_cons] at this
        exact this.1
      have hm2q := hq q _ rfl hm
      rw [if_pos rfl] at hm2q
      refine RepCx.right hm2q ?_ ?_
      · refine RepT_mono (fun b hb => ?_) hql
        refine hrest b (by simp [hb]) ?_
        simp only [ctxParent_right, Option.some.injEq]
        intro hqb
        exact hqnotr (by rw [Option.some.inj hqb]; exact List.mem_append_left _ hb)
      · refine RepCx_mono (fun b hb => ?_) hrest2
        refine hrest b (by simp [hb]) ?_
        simp only [ctxParent_right, Option.some.injEq]
        intro hqb
        exact hqnotr (by rw [Option.some.inj hqb]; exact List.mem_append_right _ hb)

/-- Mirror of the previous lemma for `_rotate_left`'s parent update. -/
theorem RepCx_retargetL {m m2 : Nat → Option (NodeRec γ)}
    {root : Option Nat} {p y : Nat} {ctx : HCtx γ}
    (hrep : RepCx m root (some p) ctx)
    (hnp : p ∉ ctxAddrs ctx)
    (hnd : (ctxAddrs ctx).Nodup)
    (hq : ∀ q r, ctxParent ctx = some q → m q = some r →
      m2 q = some (if r.left = some p then { r with left := some y }
        else { r with right := some y }))
    (hrest : ∀ b ∈ ctxAddrs ctx, ctxParent ctx ≠ some b → m2 b = m b) :
    RepCx m2 (if ctxParent ctx = none then some y else root) (some y) ctx := by
  cases hrep with
  | nil he => exact RepCx.nil rfl
  | @left co q qk qv qr rest hm hqr hrest2 =>
      simp only [ctxParent_left, reduceIte]
      have hqnotr : q ∉ qr.addrs ++ ctxAddrs rest := by
        have := hnd
        simp only [ctxAddrs_left, List.cons_append, List.nodup_cons] at this
        exact this.1
      have hm2q := hq q _ rfl hm
      rw [if_pos rfl] at hm2q
      refine RepCx.left hm2q ?_ ?_
      · refine RepT_mono (fun b hb => ?_) hqr
        refine hrest b (by simp [hb]) ?_
        simp only [ctxParent_left, Option.some.injEq]
        intro hqb
        exact hqnotr (by rw [Option.some.inj hqb]; exact List.mem_append_left _ hb)
      · refine RepCx_mono (fun b hb => ?_) hrest2
        refine hrest b (by simp [hb]) ?_
        simp only [ctxParent_left, Option.some.injEq]
        intro hqb
        exact hqnotr (by rw [Option.some.inj hqb]; exact List.mem_append_right _ hb)
  | @right co q qk qv ql rest hm hql hrest2 =>
      simp only [ctxParent_right, reduceIte]
      have hqnotr : q ∉ ql.addrs ++ ctxAddrs rest := by
        have := hnd
        simp only [ctxAddrs_right, List.cons_append, List.nodup_cons] at this
        exact this.1
      have hrootne : ql.rootA ≠ some p := by
        intro hc
        exact hnp (by
          simp only [ctxAddrs_right, List.cons_append, List.mem_cons,
            List.mem_append]
          exact Or.inr (Or.inl (HTree.rootA_mem hc)))
      have hm2q := hq q _ rfl hm
      rw [if_neg (by simpa using hrootne)] at hm2q
      refine RepCx.right hm2q ?_ ?_
      · refine RepT_mono (fun b hb => ?_) hql
        refine hrest b (by simp [hb]) ?_
        simp only [ctxParent_right, Option.some.injEq]
        intro hqb
        exact hqnotr (by rw [Option.some.inj hqb]; exact List.mem_append_left _ hb)
      · refine RepCx_mono (fun b hb => ?_) hrest2
        refine hrest b (by simp [hb]) ?_
        simp only [ctxParent_right, Option.some.injEq]
        intro hqb
        exact hqnotr (by rw [Option.some.inj hqb]; exact List.mem_append_right _ hb)

/-- Rotations do not allocate. -/
theorem rotateRight_next (s : Heap γ) (p : Nat) :
    (rotateRight s p).next = s.next := by
  unfold rotateRight
  cases readLeft s.mem p with
  | none => rfl
  | some y =>
      dsimp only
      cases readParent
          (match readRight (updField s.mem p fun r => { r with left := readRight s.mem y }) y with
            | none => updField s.mem p fun r => { r with left := readRight s.mem y }
            | some z =>
                updField (updField s.mem p fun r => { r with left := readRight s.mem y }) z
                  fun r => { r with parent := some p }) p with
      | none => rfl
      | some q => rfl

/-- Rotations do not allocate. -/
theorem rotateLeft_next (s : Heap γ) (p : Nat) :
    (rotateLeft s p).next = s.next := by
  unfold rotateLeft
  cases readRight s.mem p with
  | none => rfl
  | some y =>
      dsimp only
      cases readParent
          (match readLeft (updField s.mem p fun r => { r with right := readLeft s.mem y }) y with
            | none => updField s.mem p fun r => { r with right := readLeft s.mem y }
            | some z =>
                updField (updField s.mem p fun r => { r with right := readLeft s.mem y }) z
                  fun r => { r with parent := some p }) p with
      | none => rfl
      | some q => rfl

/-- A right rotation at `p` in a focused state: `p`'s left child `y` takes
`p`'s place, `p` becomes `y`'s right child, and `y`'s old right subtree
moves under `p` — the context is untouched. -/
theorem rotateRight_zip {s : Heap γ} {AL AR PR : HTree γ} {y p : Nat}
    {yk pk : Int} {yv pv : Option γ} {ctx : HCtx γ}
    (h : Zip s (.node (.node AL y yk yv AR) p pk pv PR) ctx) :
    Zip (rotateRight s p) (.node AL y yk yv (.node AR p pk pv PR)) ctx := by
  obtain ⟨hrept, hrepc, hnodup, hbound⟩ := h
  simp only [HTree.rootA_node] at hrepc
  simp only [HTree.addrs_node, List.cons_append, List.append_assoc] at hnodup
  obtain ⟨hpnot, hnd1⟩ := List.nodup_cons.1 hnodup
  obtain ⟨hynot, hnd2⟩ := List.nodup_cons.1 hnd1
  rw [List.nodup_append] at hnd2
  obtain ⟨hndAL, hnd3, hdisAL⟩ := hnd2
  rw [List.nodup_append] at hnd3
  obtain ⟨hndAR, hnd4, hdisAR⟩ := hnd3
  rw [List.nodup_append] at hnd4
  obtain ⟨hndPR, hndCtx, hdisPR⟩ := hnd4
  cases hrept with
  | node hmp hlt hPR =>
  cases hlt with
  | node hmy hAL hAR =>
  simp only [HTree.rootA_node] at hmp
  have hyp : y ≠ p := fun h => hpnot (by simp [← h])
  have hzd : ∀ z, AR.rootA = some z → z ≠ p ∧ z ≠ y := by
    intro z hz
    have hzmem : z ∈ AR.addrs := HTree.rootA_mem hz
    exact ⟨fun h => hpnot (by simp [← h, hzmem]),
      fun h => hynot (by simp [← h, hzmem])⟩
  have hqd : ∀ q, ctxParent ctx = some q → q ≠ p ∧ q ≠ y ∧
      ∀ z, AR.rootA = some z → q ≠ z := by
    intro q hq
    have hqmem := ctxParent_mem hq
    refine ⟨fun h => hpnot (by simp [← h, hqmem]),
      fun h => hynot (by simp [← h, hqmem]), ?_⟩
    intro z hz h
    exact hdisAR (HTree.rootA_mem hz)
      (List.mem_append_right _ (h ▸ hqmem))
  rw [rotateRight_eq hmp rfl hmy hyp hzd hqd]
  refine ⟨?_, ?_, ?_, ?_⟩
  · refine RepT.node ?_ ?_ (RepT.node ?_ ?_ ?_)
    · simp [hyp]
    · refine RepT_mono (fun b hb => ?_) hAL
      have hbp : ¬ b = p := fun h => hpnot (by simp [← h, hb])
      have hby : ¬ b = y := fun h => hynot (by simp [← h, hb])
      have hbz : ¬ AR.rootA = some b := fun h =>
        hdisAL hb (List.mem_append_left _ (HTree.rootA_mem h))
      have hbq : ¬ ctxParent ctx = some b := fun h =>
        hdisAL hb (List.mem_append_right _
          (List.mem_append_right _ (ctxParent_mem h)))
      simp [hbp, hby, hbz, hbq]
    · simp
    · cases hARs : AR with
      | leaf => exact RepT.leaf
      | node al aa ak av ar =>
          subst hARs
          cases hAR with
          | node hma hal har =>
          have hap : ¬ aa = p := fun h => hpnot (by simp [← h])
          have hay : ¬ aa = y := fun h => hynot (by simp [← h])
          refine RepT_reparent (RepT.node hma hal har) ?_ ?_
          · simp [hap, hay]
          · intro b hb
            have hb2 := List.mem_append.1 hb
            have hbar : b ∈ (HTree.node al aa ak av ar).addrs := by
              simp only [HTree.addrs_node, List.cons_append, List.mem_cons,
                List.mem_append]
              tauto
            have hbp : ¬ b = p := fun h => hpnot (by simp [← h]; tauto)
            have hby : ¬ b = y := fun h => hynot (by simp [← h]; tauto)
            have hba : ¬ (HTree.node al aa ak av ar).rootA = some b := by
              intro h
              have : aa = b := by simpa using h
              subst this
              exact (List.nodup_cons.1 (by simpa using hndAR)).1 hb
            have hbq : ¬ ctxParent ctx = some b := fun h =>
              hdisAR hbar (List.mem_append_right _ (ctxParent_mem h))
            simp only [HTree.rootA_node] at hba
            simp [hbp, hby, hba, hbq]
    · refine RepT_mono (fun b hb => ?_) hPR
      have hbp : ¬ b = p := fun h => hpnot (by simp [← h, hb])
      have hby : ¬ b = y := fun h => hynot (by simp [← h, hb])
      have hbz : ¬ AR.rootA = some b := fun h =>
        hdisAR (HTree.rootA_mem h) (List.mem_append_left _ hb)
      have hbq : ¬ ctxParent ctx = some b := fun h =>
        hdisPR hb (ctxParent_mem h)
      simp [hbp, hby, hbz, hbq]
  · refine RepCx_retargetR hrepc ?_ hndCtx ?_ ?_
    · intro hmem
      exact hpnot (by simp [hmem])
    · intro q r hcp hm
      have hqmem := ctxParent_mem hcp
      have hqp : ¬ q = p := fun h => hpnot (by simp [← h, hqmem])
      have hqy : ¬ q = y := fun h => hynot (by simp [← h, hqmem])
      have hqz : ¬ AR.rootA = some q := fun h =>
        hdisAR (HTree.rootA_mem h) (List.mem_append_right _ hqmem)
      simp [hqp, hqy, hqz, hcp, hm]
    · intro b hb hbq0
      have hbp : ¬ b = p := fun h => hpnot (by simp [← h, hb])
      have hby : ¬ b = y := fun h => hynot (by simp [← h, hb])
      have hbz : ¬ AR.rootA = some b := fun h =>
        hdisAR (HTree.rootA_mem h) (List.mem_append_right _ hb)
      simp [hbp, hby, hbz, hbq0]
  · have hperm : (p :: y :: (AL.addrs ++ (AR.addrs ++ (PR.addrs ++
        ctxAddrs ctx)))).Perm
        ((HTree.node AL y yk yv (HTree.node AR p pk pv PR)).addrs ++
          ctxAddrs ctx) := by
      simp only [HTree.addrs_node, List.cons_append, List.append_assoc]
      refine List.Perm.trans (List.Perm.swap y p _) ?_
      exact List.Perm.cons y List.perm_middle.symm
    exact (hperm.nodup_iff).1 hnodup
  · intro b hb
    refine hbound b ?_
    have hperm : (p :: y :: (AL.addrs ++ (AR.addrs ++ (PR.addrs ++
        ctxAddrs ctx)))).Perm
        ((HTree.node AL y yk yv (HTree.node AR p pk pv PR)).addrs ++
          ctxAddrs ctx) := by
      simp only [HTree.addrs_node, List.cons_append, List.append_assoc]
      refine List.Perm.trans (List.Perm.swap y p _) ?_
      exact List.Perm.cons y List.perm_middle.symm
    simp only [HTree.addrs_node, List.cons_append, List.append_assoc]
    exact (hperm.mem_iff).2 hb

/-- A left rotation at `p` in a focused state: `p`'s right child `y`
takes `p`'s place, `p` becomes `y`'s left child, and `y`'s old left
subtree moves under `p` — the context is untouched. -/
theorem rotateLeft_zip {s : Heap γ} {PL BL BR : HTree γ} {y p : Nat}
    {yk pk : Int} {yv pv : Option γ} {ctx : HCtx γ}
    (h : Zip s (.node PL p pk pv (.node BL y yk yv BR)) ctx) :
    Zip (rotateLeft s p) (.node (.node PL p pk pv BL) y yk yv BR) ctx := by
  obtain ⟨hrept, hrepc, hnodup, hbound⟩ := h
  simp only [HTree.rootA_node] at hrepc
  simp only [HTree.addrs_node, List.cons_append, List.append_assoc] at hnodup
  obtain ⟨hpnot, hnd1⟩ := List.nodup_cons.1 hnodup
  rw [List.nodup_append] at hnd1
  obtain ⟨hndPL, hnd2, hdisPL⟩ := hnd1
  obtain ⟨hynot, hnd3⟩ := List.nodup_cons.1 hnd2
  rw [List.nodup_append] at hnd3
  obtain ⟨hndBL, hnd4, hdisBL⟩ := hnd3
  rw [List.nodup_append] at hnd4
  obtain ⟨hndBR, hndCtx, hdisBR⟩ := hnd4
  cases hrept with
  | node hmp hPL hrt =>
  cases hrt with
  | node hmy hBL hBR =>
  simp only [HTree.rootA_node] at hmp
  have hyp : y ≠ p := fun h => hpnot (by simp [← h])
  have hzd : ∀ z, BL.rootA = some z → z ≠ p ∧ z ≠ y := by
    intro z hz
    have hzmem : z ∈ BL.addrs := HTree.rootA_mem hz
    exact ⟨fun h => hpnot (by simp [← h, hzmem]),
      fun h => hynot (by simp [← h, hzmem])⟩
  have hqd : ∀ q, ctxParent ctx = some q → q ≠ p ∧ q ≠ y ∧
      ∀ z, BL.rootA = some z → q ≠ z := by
    intro q hq
    have hqmem := ctxParent_mem hq
    refine ⟨fun h => hpnot (by simp [← h, hqmem]),
      fun h => hynot (by simp [← h, hqmem]), ?_⟩
    intro z hz h
    exact hdisBL (HTree.rootA_mem hz)
      (List.mem_append_right _ (h ▸ hqmem))
  rw [rotateLeft_eq hmp rfl hmy hyp hzd hqd]
  refine ⟨?_, ?_, ?_, ?_⟩
  · refine RepT.node ?_ (RepT.node ?_ ?_ ?_) ?_
    · simp [hyp]
    · simp
    · refine RepT_mono (fun b hb => ?_) hPL
      have hbp : ¬ b = p := fun h => hpnot (by simp [← h, hb])
      have hby : ¬ b = y := fun h => hdisPL (h ▸ hb) (List.mem_cons_self _ _)
      have hbz : ¬ BL.rootA = some b := fun h =>
        hdisPL hb (by simp [HTree.rootA_mem h])
      have hbq : ¬ ctxParent ctx = some b := fun h =>
        hdisPL hb (by simp [ctxParent_mem h])
      simp [hbp, hby, hbz, hbq]
    · cases hBLs : BL with
      | leaf => exact RepT.leaf
      | node bl ba bk bv br =>
          subst hBLs
          cases hBL with
          | node hma hbl hbr =>
          have hap : ¬ ba = p := fun h => hpnot (by simp [← h])
          have hay : ¬ ba = y := fun h => hynot (by simp [← h])
          refine RepT_reparent (RepT.node hma hbl hbr) ?_ ?_
          · simp [hap, hay]
          · intro b hb
            have hb2 := List.mem_append.1 hb
            have hbar : b ∈ (HTree.node bl ba bk bv br).addrs := by
              simp only [HTree.addrs_node, List.cons_append, List.mem_cons,
                List.mem_append]
              tauto
            have hbp : ¬ b = p := fun h => hpnot (by simp [← h]; tauto)
            have hby : ¬ b = y := fun h => hynot (by simp [← h]; tauto)
            have hba : ¬ (HTree.node bl ba bk bv br).rootA = some b := by
              intro h
              have : ba = b := by simpa using h
              subst this
              exact (List.nodup_cons.1 (by simpa using hndBL)).1 hb
            have hbq : ¬ ctxParent ctx = some b := fun h =>
              hdisBL hbar (List.mem_append_right _ (ctxParent_mem h))
            simp only [HTree.rootA_node] at hba
            simp [hbp, hby, hba, hbq]
    · refine RepT_mono (fun b hb => ?_) hBR
      have hbp : ¬ b = p := fun h => hpnot (by simp [← h, hb])
      have hby : ¬ b = y := fun h => hynot (by simp [← h, hb])
      have hbz : ¬ BL.rootA = some b := fun h =>
        hdisBL (HTree.rootA_mem h) (List.mem_append_left _ hb)
      have hbq : ¬ ctxParent ctx = some b := fun h =>
        hdisBR hb (ctxParent_mem h)
      simp [hbp, hby, hbz, hbq]
  · refine RepCx_retargetL hrepc ?_ hndCtx ?_ ?_
    · intro hmem
      exact hpnot (by simp [hmem])
    · intro q r hcp hm
      have hqmem := ctxParent_mem hcp
      have hqp : ¬ q = p := fun h => hpnot (by simp [← h, hqmem])
      have hqy : ¬ q = y := fun h => hynot (by simp [← h, hqmem])
      have hqz : ¬ BL.rootA = some q := fun h =>
        hdisBL (HTree.rootA_mem h) (List.mem_append_right _ hqmem)
      simp [hqp, hqy, hqz, hcp, hm]
    · intro b hb hbq0
      have hbp : ¬ b = p := fun h => hpnot (by simp [← h, hb])
      have hby : ¬ b = y := fun h => hynot (by simp [← h, hb])
      have hbz : ¬ BL.rootA = some b := fun h =>
        hdisBL (HTree.rootA_mem h) (List.mem_append_right _ hb)
      simp [hbp, hby, hbz, hbq0]
  · have hperm : (p :: (PL.addrs ++ y :: (BL.addrs ++ (BR.addrs ++
        ctxAddrs ctx)))).Perm
        ((HTree.node (HTree.node PL p pk pv BL) y yk yv BR).addrs ++
          ctxAddrs ctx) := by
      simp only [HTree.addrs_node, List.cons_append, List.append_assoc]
      refine List.Perm.trans (List.Perm.cons p List.perm_middle) ?_
      exact List.Perm.swap y p _
    exact (hperm.nodup_iff).1 hnodup
  · intro b hb
    refine hbound b ?_
    have hperm : (p :: (PL.addrs ++ y :: (BL.addrs ++ (BR.addrs ++
        ctxAddrs ctx)))).Perm
        ((HTree.node (HTree.node PL p pk pv BL) y yk yv BR).addrs ++
          ctxAddrs ctx) := by
      simp only [HTree.addrs_node, List.cons_append, List.append_assoc]
      refine List.Perm.trans (List.Perm.cons p List.perm_middle) ?_
      exact List.Perm.swap y p _
    simp only [HTree.addrs_node, List.cons_append, List.append_assoc]
    exact (hperm.mem_iff).2 hb

@[simp] theorem hsplay_nil (t : HTree γ) : hsplay t .nil = t := by
  cases t <;> rfl

theorem hsplay_zigL (A B PR : HTree γ) (x p : Nat) (k pk : Int)
    (v pv : Option γ) :
    hsplay (.node A x k v B) (.left p pk pv PR .nil) =
      .node A x k v (.node B p pk pv PR) := rfl

theorem hsplay_zigR (A B PL : HTree γ) (x p : Nat) (k pk : Int)
    (v pv : Option γ) :
    hsplay (.node A x k v B) (.right p pk pv PL .nil) =
      .node (.node PL p pk pv A) x k v B := rfl

theorem hsplay_zzLL (A B PR Gr : HTree γ) (x p g : Nat) (k pk gk : Int)
    (v pv gv : Option γ) (rest : HCtx γ) :
    hsplay (.node A x k v B) (.left p pk pv PR (.left g gk gv Gr rest)) =
      hsplay (.node A x k v (.node B p pk pv (.node PR g gk gv Gr))) rest :=
  rfl

theorem hsplay_zzRR (A B PL Gl : HTree γ) (x p g : Nat) (k pk gk : Int)
    (v pv gv : Option γ) (rest : HCtx γ) :
    hsplay (.node A x k v B) (.right p pk pv PL (.right g gk gv Gl rest)) =
      hsplay (.node (.node (.node Gl g gk gv PL) p pk pv A) x k v B) rest :=
  rfl

theorem hsplay_zzLR (A B PR Gl : HTree γ) (x p g : Nat) (k pk gk : Int)
    (v pv gv : Option γ) (rest : HCtx γ) :
    hsplay (.node A x k v B) (.left p pk pv PR (.right g gk gv Gl rest)) =
      hsplay (.node (.node Gl g gk gv A) x k v (.node B p pk pv PR)) rest :=
  rfl

theorem hsplay_zzRL (A B PL Gr : HTree γ) (x p g : Nat) (k pk gk : Int)
    (v pv gv : Option γ) (rest : HCtx γ) :
    hsplay (.node A x k v B) (.right p pk pv PL (.left g gk gv Gr rest)) =
      hsplay (.node (.node PL p pk pv A) x k v (.node B g gk gv Gr)) rest :=
  rfl

/-- Splaying keeps the focused node (with its key and value) at the root
of the rebuilt tree. -/
theorem hsplay_shape : ∀ (n : Nat) (ctx : HCtx γ), ctxDepth ctx ≤ n →
    ∀ (A B : HTree γ) (x : Nat) (k : Int) (v : Option γ),
    ∃ A2 B2, hsplay (.node A x k v B) ctx = .node A2 x k v B2 := by
  intro n
  induction n with
  | zero =>
      intro ctx hd A B x k v
      cases ctx with
      | nil => exact ⟨A, B, rfl⟩
      | left p pk pv PR rest => simp [ctxDepth] at hd
      | right p pk pv PL rest => simp [ctxDepth] at hd
  | succ n ih =>
      intro ctx hd A B x k v
      cases ctx with
      | nil => exact ⟨A, B, rfl⟩
      | left p pk pv PR rest =>
          cases rest with
          | nil => exact ⟨A, .node B p pk pv PR, rfl⟩
          | left g gk gv Gr rest2 =>
              have hd2 : ctxDepth rest2 ≤ n := by
                simp only [ctxDepth] at hd; omega
              exact ih rest2 hd2 _ _ x k v
          | right g gk gv Gl rest2 =>
              have hd2 : ctxDepth rest2 ≤ n := by
                simp only [ctxDepth] at hd; omega
              exact ih rest2 hd2 _ _ x k v
      | right p pk pv PL rest =>
          cases rest with
          | nil => exact ⟨.node PL p pk pv A, B, rfl⟩
          | left g gk gv Gr rest2 =>
              have hd2 : ctxDepth rest2 ≤ n := by
                simp only [ctxDepth] at hd; omega
              exact ih rest2 hd2 _ _ x k v
          | right g gk gv Gl rest2 =>
              have hd2 : ctxDepth rest2 ≤ n := by
                simp only [ctxDepth] at hd; omega
              exact ih rest2 hd2 _ _ x k v

/-- The splay loop does not allocate. -/
theorem splayGo_next : ∀ (n : Nat) (s : Heap γ) (x : Nat),
    (splayGo s x n).next = s.next := by
  intro n
  induction n with
  | zero => intro s x; rfl
  | succ n ih =>
      intro s x
      rw [splayGo]
      cases readParent s.mem x with
      | none => rfl
      | some p =>
          dsimp only
          cases readParent s.mem p with
          | none =>
              by_cases hl : readLeft s.mem p = some x
              · simp [hl, ih, rotateRight_next]
              · simp [hl, ih, rotateLeft_next]
          | some g =>
              by_cases c1 : readLeft s.mem p = some x ∧ readLeft s.mem g = some p
              · simp [c1, ih, rotateRight_next]
              · by_cases c2 : readRight s.mem p = some x ∧
                    readRight s.mem g = some p
                · simp [c1, c2, ih, rotateLeft_next]
                · by_cases c3 : readLeft s.mem p = some x ∧
                      readRight s.mem g = some p
                  · dsimp only
                    rw [if_neg c1, if_neg c2, if_pos c3, ih,
                      rotateLeft_next, rotateRight_next]
                  · dsimp only
                    rw [if_neg c1, if_neg c2, if_neg c3, ih,
                      rotateRight_next, rotateLeft_next]

/-- The splay loop refines `hsplay`: with enough fuel, splaying a focused
node rebuilds exactly the `hsplay` tree, as a well-formed whole-heap
representation. -/
theorem splayGo_zip : ∀ (n : Nat) {s : Heap γ} {l r : HTree γ}
    {x : Nat} {k : Int} {v : Option γ} {ctx : HCtx γ},
    Zip s (.node l x k v r) ctx → ctxDepth ctx ≤ n →
    Zip (splayGo s x n) (hsplay (.node l x k v r) ctx) .nil := by
  intro n
  induction n with
  | zero =>
      intro s l r x k v ctx hz hd
      cases ctx with
      | nil => exact hz
      | left p pk pv PR rest => simp [ctxDepth] at hd
      | right p pk pv PL rest => simp [ctxDepth] at hd
  | succ n ih =>
      intro s l r x k v ctx hz hd
      have hmx : s.mem x = some ⟨k, v, l.rootA, r.rootA, ctxParent ctx⟩ := by
        cases hz.rept with | node hm _ _ => exact hm
      rw [splayGo, readParent_eq hmx]
      cases ctx with
      | nil => exact hz
      | left p pk pv PR rest =>
          have hrepc := hz.repc
          simp only [HTree.rootA_node] at hrepc
          cases hrepc with
          | left hmp hPR hrest =>
          simp only [ctxParent_left]
          have hxctx := (List.nodup_append.1 hz.nodup).2.2
          have hxmem : x ∈ (HTree.node l x k v r).addrs := by simp
          cases rest with
          | nil =>
              have hpar : readParent s.mem p = (none : Option Nat) :=
                readParent_eq hmp
              rw [hpar]
              dsimp only
              have hcond : readLeft s.mem p = some x := readLeft_eq hmp
              rw [if_pos hcond, hsplay_zigL]
              simpa only [hsplay_nil] using
                ih (rotateRight_zip (zipUp_left hz)) (by simp [ctxDepth])
          | left g gk gv Gr rest2 =>
              cases hrest with
              | left hmg hGr hrest2 =>
              have hpar : readParent s.mem p = some g := readParent_eq hmp
              rw [hpar]
              dsimp only
              have hc1 : readLeft s.mem p = some x ∧
                  readLeft s.mem g = some p :=
                ⟨readLeft_eq hmp, readLeft_eq hmg⟩
              rw [if_pos hc1, hsplay_zzLL]
              have hd2 : ctxDepth rest2 ≤ n := by
                simp only [ctxDepth] at hd; omega
              exact ih
                (rotateRight_zip (rotateRight_zip
                  (zipUp_left (zipUp_left hz)))) hd2
          | right g gk gv Gl rest2 =>
              cases hrest with
              | right hmg hGl hrest2 =>
              have hpar : readParent s.mem p = some g := readParent_eq hmp
              rw [hpar]
              dsimp only
              have hndctx := (List.nodup_append.1 hz.nodup).2.1
              simp only [ctxAddrs_left, ctxAddrs_right, List.cons_append,
                List.append_assoc] at hndctx
              have hpnot := (List.nodup_cons.1 hndctx).1
              have hc1 : ¬ (readLeft s.mem p = some x ∧
                  readLeft s.mem g = some p) := by
                intro hcj
                have h := hcj.2
                rw [readLeft_eq hmg] at h
                refine hpnot ?_
                have hmm := HTree.rootA_mem h
                simp only [List.mem_cons, List.mem_append]
                tauto
              have hc2 : ¬ (readRight s.mem p = some x ∧
                  readRight s.mem g = some p) := by
                intro hcj
                have h := hcj.1
                rw [readRight_eq hmp] at h
                refine hxctx hxmem ?_
                have hmm := HTree.rootA_mem h
                simp only [ctxAddrs_left, ctxAddrs_right, List.cons_append,
                  List.mem_cons, List.mem_append]
                tauto
              have hc3 : readLeft s.mem p = some x ∧
                  readRight s.mem g = some p :=
                ⟨readLeft_eq hmp, readRight_eq hmg⟩
              rw [if_neg hc1, if_neg hc2, if_pos hc3, hsplay_zzLR]
              have hd2 : ctxDepth rest2 ≤ n := by
                simp only [ctxDepth] at hd; omega
              exact ih
                (rotateLeft_zip (zipUp_right
                  (rotateRight_zip (zipUp_left hz)))) hd2
      | right p pk pv PL rest =>
          have hrepc := hz.repc
          simp only [HTree.rootA_node] at hrepc
          cases hrepc with
          | right hmp hPL hrest =>
          simp only [ctxParent_right]
          have hxctx := (List.nodup_append.1 hz.nodup).2.2
          have hxmem : x ∈ (HTree.node l x k v r).addrs := by simp
          have hnl : ¬ readLeft s.mem p = some x := by
            rw [readLeft_eq hmp]
            intro h
            refine hxctx hxmem ?_
            have hmm := HTree.rootA_mem h
            simp only [ctxAddrs_left, ctxAddrs_right, List.cons_append,
              List.mem_cons, List.mem_append]
            tauto
          cases rest with
          | nil =>
              have hpar : readParent s.mem p = (none : Option Nat) :=
                readParent_eq hmp
              rw [hpar]
              dsimp only
              rw [if_neg hnl, hsplay_zigR]
              simpa only [hsplay_nil] using
                ih (rotateLeft_zip (zipUp_right hz)) (by simp [ctxDepth])
          | right g gk gv Gl rest2 =>
              cases hrest with
              | right hmg hGl hrest2 =>
              have hpar : readParent s.mem p = some g := readParent_eq hmp
              rw [hpar]
              dsimp only
              have hc1 : ¬ (readLeft s.mem p = some x ∧
                  readLeft s.mem g = some p) := fun hcj => hnl hcj.1
              have hc2 : readRight s.mem p = some x ∧
                  readRight s.mem g = some p :=
                ⟨readRight_eq hmp, readRight_eq hmg⟩
              rw [if_neg hc1, if_pos hc2, hsplay_zzRR]
              have hd2 : ctxDepth rest2 ≤ n := by
                simp only [ctxDepth] at hd; omega
              exact ih
                (rotateLeft_zip (rotateLeft_zip
                  (zipUp_right (zipUp_right hz)))) hd2
          | left g gk gv Gr rest2 =>
              cases hrest with
              | left hmg hGr hrest2 =>
              have hpar : readParent s.mem p = some g := readParent_eq hmp
              rw [hpar]
              dsimp only
              have hndctx := (List.nodup_append.1 hz.nodup).2.1
              simp only [ctxAddrs_left, ctxAddrs_right, List.cons_append,
                List.append_assoc] at hndctx
              have hpnot := (List.nodup_cons.1 hndctx).1
              have hc1 : ¬ (readLeft s.mem p = some x ∧
                  readLeft s.mem g = some p) := fun hcj => hnl hcj.1
              have hc2 : ¬ (readRight s.mem p = some x ∧
                  readRight s.mem g = some p) := by
                intro hcj
                have h := hcj.2
                rw [readRight_eq hmg] at h
                refine hpnot ?_
                have hmm := HTree.rootA_mem h
                simp only [List.mem_cons, List.mem_append]
                tauto
              have hc3 : ¬ (readLeft s.mem p = some x ∧
                  readRight s.mem g = some p) := fun hcj => hnl hcj.1
              rw [if_neg hc1, if_neg hc2, if_neg hc3, hsplay_zzRL]
              have hd2 : ctxDepth rest2 ≤ n := by
                simp only [ctxDepth] at hd; omega
              exact ih
                (rotateRight_zip (zipUp_left
                  (rotateLeft_zip (zipUp_right hz)))) hd2

@[simp] theorem ctxAppend_nil (c : HCtx γ) : ctxAppend .nil c = c := rfl

theorem ctxAppend_assoc : ∀ (a b c : HCtx γ),
    ctxAppend (ctxAppend a b) c = ctxAppend a (ctxAppend b c) := by
  intro a
  induction a with
  | nil => intro b c; rfl
  | left p pk pv pr rest ih => intro b c; simp [ctxAppend, ih]
  | right p pk pv pl rest ih => intro b c; simp [ctxAppend, ih]

theorem RightsOnly.append : ∀ {a b : HCtx γ},
    RightsOnly a → RightsOnly b → RightsOnly (ctxAppend a b) := by
  intro a
  induction a with
  | nil => intro b _ hb; exact hb
  | left p pk pv pr rest ih => intro b ha _; cases ha
  | right p pk pv pl rest ih =>
      intro b ha hb
      cases ha with
      | right hrest => exact RightsOnly.right (ih hrest hb)

/-- Splaying the rightmost node of the left subtree over an all-right
chain capped by a single `left` layer (the deleted root) produces exactly
the shape `delete` relies on: the maximum at the root, the old root as
its right child with an empty left subtree. -/
theorem hsplay_spine : ∀ (n : Nat) (c1 : HCtx γ), ctxDepth c1 ≤ n →
    RightsOnly c1 →
    ∀ (A R1 : HTree γ) (lm x : Nat) (mk k : Int) (mv v : Option γ),
    ∃ B, hsplay (.node A lm mk mv .leaf)
        (ctxAppend c1 (.left x k v R1 .nil)) =
      .node B lm mk mv (.node .leaf x k v R1) := by
  intro n
  induction n with
  | zero =>
      intro c1 hd hro A R1 lm x mk0 k mv v
      cases c1 with
      | nil => exact ⟨A, hsplay_zigL _ _ _ _ _ _ _ _ _⟩
      | left p pk pv pr rest => simp [ctxDepth] at hd
      | right p pk pv pl rest => simp [ctxDepth] at hd
  | succ n ih =>
      intro c1 hd hro A R1 lm x mk0 k mv v
      cases c1 with
      | nil => exact ⟨A, hsplay_zigL _ _ _ _ _ _ _ _ _⟩
      | left p pk pv pr rest => cases hro
      | right p pk pv pl rest =>
          cases hro with
          | right hro2 =>
          cases rest with
          | nil =>
              exact ⟨.node pl p pk pv A, hsplay_zzRL _ _ _ _ _ _ _ _ _ _ _ _ _ _⟩
          | left q qk qv qr rest2 => cases hro2
          | right q qk qv ql rest2 =>
              cases hro2 with
              | right hro3 =>
              have hd2 : ctxDepth rest2 ≤ n := by
                simp only [ctxDepth] at hd; omega
              obtain ⟨B, hB⟩ := ih rest2 hd2 hro3
                (.node (.node ql q qk qv pl) p pk pv A) R1 lm x mk0 k mv v
              refine ⟨B, ?_⟩
              rw [show ctxAppend (HCtx.right p pk pv pl
                  (HCtx.right q qk qv ql rest2)) (.left x k v R1 .nil) =
                  HCtx.right p pk pv pl (HCtx.right q qk qv ql
                    (ctxAppend rest2 (.left x k v R1 .nil))) from rfl]
              rw [hsplay_zzRR]
              exact hB

/-- The `while left_max.right:` walk: starting from a focused node it
reaches the rightmost node of that subtree, whose focus has an empty
right child, the traversed chain being all-right layers. -/
theorem maxGo_zip : ∀ (fuel : Nat) {s : Heap γ} {l r : HTree γ}
    {x : Nat} {k : Int} {v : Option γ} {ctx : HCtx γ},
    Zip s (.node l x k v r) ctx → r.addrs.length < fuel →
    ∃ (c1 : HCtx γ) (A : HTree γ) (m : Nat) (mk2 : Int) (mv : Option γ),
      RightsOnly c1 ∧
      maxGoAddr s x fuel = m ∧
      Zip s (.node A m mk2 mv .leaf) (ctxAppend c1 ctx) := by
  intro fuel
  induction fuel with
  | zero => intro s l r x k v ctx hz hlen; omega
  | succ fuel ih =>
      intro s l r x k v ctx hz hlen
      have hmx : s.mem x = some ⟨k, v, l.rootA, r.rootA, ctxParent ctx⟩ := by
        cases hz.rept with | node hm _ _ => exact hm
      rw [maxGoAddr, readRight_eq hmx]
      cases r with
      | leaf =>
          exact ⟨.nil, l, x, k, v, RightsOnly.nil, rfl, hz⟩
      | node rl ra rk rv rr =>
          simp only [HTree.rootA_node]
          have hz2 := zipDown_right hz
          have hlen2 : rr.addrs.length < fuel := by
            simp only [HTree.addrs_node, List.length_cons,
              List.length_append] at hlen
            omega
          obtain ⟨c1, A, m, mk2, mv, hro, hmax, hz3⟩ := ih hz2 hlen2
          refine ⟨ctxAppend c1 (.right x k v l .nil), A, m, mk2, mv,
            hro.append (RightsOnly.right RightsOnly.nil), hmax, ?_⟩
          rw [ctxAppend_assoc]
          exact hz3

/-- The all-left descent of `minimum`. -/
theorem minGo_zip : ∀ (fuel : Nat) {s : Heap γ} {l r : HTree γ}
    {x : Nat} {k : Int} {v : Option γ} {ctx : HCtx γ},
    Zip s (.node l x k v r) ctx → l.addrs.length < fuel →
    ∃ (A : HTree γ) (m : Nat) (mk2 : Int) (mv : Option γ) (ctx2 : HCtx γ),
      minGoAddr s x fuel = m ∧
      Zip s (.node .leaf m mk2 mv A) ctx2 := by
  intro fuel
  induction fuel with
  | zero => intro s l r x k v ctx hz hlen; omega
  | succ fuel ih =>
      intro s l r x k v ctx hz hlen
      have hmx : s.mem x = some ⟨k, v, l.rootA, r.rootA, ctxParent ctx⟩ := by
        cases hz.rept with | node hm _ _ => exact hm
      rw [minGoAddr, readLeft_eq hmx]
      cases l with
      | leaf => exact ⟨r, x, k, v, ctx, rfl, hz⟩
      | node ll la lk lv lr =>
          simp only [HTree.rootA_node]
          have hz2 := zipDown_left hz
          have hlen2 : ll.addrs.length < fuel := by
            simp only [HTree.addrs_node, List.length_cons,
              List.length_append] at hlen
            omega
          obtain ⟨A, m, mk2, mv, ctx2, hmin, hz3⟩ := ih hz2 hlen2
          exact ⟨A, m, mk2, mv, ctx2, hmin, hz3⟩

/-- The `_find_node` descent stops at a well-formed focused node. -/
theorem findNodeGo_zip : ∀ (fuel : Nat) {s : Heap γ} {l r : HTree γ}
    {x : Nat} {k : Int} {v : Option γ} {ctx : HCtx γ} (k2 : Int),
    Zip s (.node l x k v r) ctx →
    (HTree.node l x k v r).addrs.length ≤ fuel →
    ∃ (l2 r2 : HTree γ) (x2 : Nat) (kk : Int) (vv : Option γ)
      (ctx2 : HCtx γ),
      findNodeGo s x k2 fuel = some x2 ∧
      Zip s (.node l2 x2 kk vv r2) ctx2 := by
  intro fuel
  induction fuel with
  | zero =>
      intro s l r x k v ctx k2 hz hlen
      simp only [HTree.addrs_node, List.length_cons, List.cons_append,
        List.length_append, Nat.le_zero] at hlen
      omega
  | succ fuel ih =>
      intro s l r x k v ctx k2 hz hlen
      have hmx : s.mem x = some ⟨k, v, l.rootA, r.rootA, ctxParent ctx⟩ := by
        cases hz.rept with | node hm _ _ => exact hm
      rw [findNodeGo, hmx]
      dsimp only
      by_cases he : k2 = k
      · rw [if_pos he]
        exact ⟨l, r, x, k, v, ctx, rfl, hz⟩
      · rw [if_neg he]
        by_cases hlt : k2 < k
        · rw [if_pos hlt]
          cases l with
          | leaf => exact ⟨.leaf, r, x, k, v, ctx, rfl, hz⟩
          | node ll la lk lv lr =>
              simp only [HTree.rootA_node]
              have hlen2 : (HTree.node ll la lk lv lr).addrs.length ≤ fuel := by
                simp only [HTree.addrs_node, List.length_cons,
                  List.cons_append, List.length_append] at hlen ⊢
                omega
              exact ih k2 (zipDown_left hz) hlen2
        · rw [if_neg hlt]
          cases r with
          | leaf => exact ⟨l, .leaf, x, k, v, ctx, rfl, hz⟩
          | node rl ra rk rv rr =>
              simp only [HTree.rootA_node]
              have hlen2 : (HTree.node rl ra rk rv rr).addrs.length ≤ fuel := by
                simp only [HTree.addrs_node, List.length_cons,
                  List.cons_append, List.length_append] at hlen ⊢
                omega
              exact ih k2 (zipDown_right hz) hlen2

/-- The `find` descent leaves a representable heap: whatever node it
stops at (hit or miss) is splayed to the root. -/
theorem findGo_rep : ∀ (fuel : Nat) {s : Heap γ} {l r : HTree γ}
    {x : Nat} {k : Int} {v : Option γ} {ctx : HCtx γ} (k2 : Int),
    Zip s (.node l x k v r) ctx →
    (HTree.node l x k v r).addrs.length ≤ fuel →
    ∃ ht2, RootRep (findGo s x k2 fuel).2 ht2 := by
  intro fuel
  induction fuel with
  | zero =>
      intro s l r x k v ctx k2 hz hlen
      simp only [HTree.addrs_node, List.length_cons, List.cons_append,
        List.length_append, Nat.le_zero] at hlen
      omega
  | succ fuel ih =>
      intro s l r x k v ctx k2 hz hlen
      have hmx : s.mem x = some ⟨k, v, l.rootA, r.rootA, ctxParent ctx⟩ := by
        cases hz.rept with | node hm _ _ => exact hm
      rw [findGo, hmx]
      dsimp only
      by_cases he : k2 = k
      · rw [if_pos he]
        exact ⟨_, splayGo_zip s.next hz (ctxDepth_le_next hz)⟩
      · rw [if_neg he]
        by_cases hlt : k2 < k
        · rw [if_pos hlt]
          cases l with
          | leaf => exact ⟨_, splayGo_zip s.next hz (ctxDepth_le_next hz)⟩
          | node ll la lk lv lr =>
              simp only [HTree.rootA_node]
              have hlen2 : (HTree.node ll la lk lv lr).addrs.length ≤ fuel := by
                simp only [HTree.addrs_node, List.length_cons,
                  List.cons_append, List.length_append] at hlen ⊢
                omega
              exact ih k2 (zipDown_left hz) hlen2
        · rw [if_neg hlt]
          cases r with
          | leaf => exact ⟨_, splayGo_zip s.next hz (ctxDepth_le_next hz)⟩
          | node rl ra rk rv rr =>
              simp only [HTree.rootA_node]
              have hlen2 : (HTree.node rl ra rk rv rr).addrs.length ≤ fuel := by
                simp only [HTree.addrs_node, List.length_cons,
                  List.cons_append, List.length_append] at hlen ⊢
                omega
              exact ih k2 (zipDown_right hz) hlen2

/-- Overwriting the stored value of the focused node (`current.value =
value` in `insert`). -/
theorem zip_setValue {s : Heap γ} {l r : HTree γ} {x : Nat} {k : Int}
    {v : Option γ} (v2 : Option γ) {ctx : HCtx γ}
    (hz : Zip s (.node l x k v r) ctx) :
    Zip (⟨s.root, s.next, updField s.mem x
      (fun rr => { rr with value := v2 })⟩ : Heap γ)
      (.node l x k v2 r) ctx := by
  obtain ⟨hrept, hrepc, hnodup, hbound⟩ := hz
  simp only [HTree.rootA_node] at hrepc
  cases hrept with
  | node hmx hl hr =>
  have hnodup2 := hnodup
  simp only [HTree.addrs_node, List.cons_append, List.append_assoc]
    at hnodup2
  have hxnot := (List.nodup_cons.1 hnodup2).1
  refine ⟨RepT.node ?_ ?_ ?_, ?_, hnodup, hbound⟩
  · dsimp only
    rw [updField_same hmx]
  · refine RepT_mono (fun b hb => ?_) hl
    dsimp only
    exact updField_other _ _ _ (fun h => hxnot (by simp [← h, hb]))
  · refine RepT_mono (fun b hb => ?_) hr
    dsimp only
    exact updField_other _ _ _ (fun h => hxnot (by simp [← h, hb]))
  · refine RepCx_mono (fun b hb => ?_) hrepc
    dsimp only
    exact updField_other _ _ _ (fun h => hxnot (by simp [← h, hb]))

/-- Attaching a fresh leaf as the left child of the focused node
(`current.left = Node(key, value); current.left.parent = current`). -/
theorem zip_attachL {s : Heap γ} {r : HTree γ} {x : Nat} {k : Int}
    {v : Option γ} {ctx : HCtx γ} (k2 : Int) (v2 : Option γ)
    (hz : Zip s (.node .leaf x k v r) ctx) :
    Zip (⟨s.root, s.next + 1,
      updField (setMem s.mem s.next (some ⟨k2, v2, none, none, some x⟩)) x
        (fun rr => { rr with left := some s.next })⟩ : Heap γ)
      (.node .leaf s.next k2 v2 .leaf) (.left x k v r ctx) := by
  obtain ⟨hrept, hrepc, hnodup, hbound⟩ := hz
  simp only [HTree.rootA_node] at hrepc
  cases hrept with
  | node hmx hl hr =>
  have hxa : x ≠ s.next := by
    have := hbound x (by simp)
    omega
  have hold : ∀ b, b ∈ (HTree.node HTree.leaf x k v r).addrs ++
      ctxAddrs ctx → b ≠ s.next := by
    intro b hb
    have := hbound b hb
    omega
  have hm1x : setMem s.mem s.next
      (some ⟨k2, v2, none, none, some x⟩) x = s.mem x :=
    setMem_other _ _ hxa
  have hnodup2 := hnodup
  simp only [HTree.addrs_node, HTree.addrs_leaf, List.nil_append,
    List.cons_append, List.append_assoc] at hnodup2
  have hxnot := (List.nodup_cons.1 hnodup2).1
  refine ⟨?_, ?_, ?_, ?_⟩
  · refine RepT.node ?_ RepT.leaf RepT.leaf
    dsimp only
    rw [updField_other _ _ _ (Ne.symm hxa), setMem_same]
    rfl
  · refine RepCx.left ?_ ?_ ?_
    · dsimp only
      rw [updField_same (by rw [hm1x]; exact hmx)]
      rfl
    · refine RepT_mono (fun b hb => ?_) hr
      have hba : b ≠ s.next := hold b (by simp [hb])
      have hbx : b ≠ x := fun h => hxnot (by simp [← h, hb])
      dsimp only
      rw [updField_other _ _ _ hbx, setMem_other _ _ hba]
    · refine RepCx_mono (fun b hb => ?_) hrepc
      have hba : b ≠ s.next := hold b (by simp [hb])
      have hbx : b ≠ x := fun h => hxnot (by simp [← h, hb])
      dsimp only
      rw [updField_other _ _ _ hbx, setMem_other _ _ hba]
  · simp only [HTree.addrs_node, HTree.addrs_leaf, List.nil_append,
      ctxAddrs_left, List.cons_append, List.append_assoc]
    refine List.nodup_cons.2 ⟨?_, ?_⟩
    · intro hmem
      refine hold s.next ?_ rfl
      simp only [HTree.addrs_node, HTree.addrs_leaf, List.nil_append,
        List.cons_append, List.mem_cons, List.mem_append] at hmem ⊢
      tauto
    · exact hnodup2
  · intro b hb
    dsimp only
    simp only [HTree.addrs_node, HTree.addrs_leaf, List.nil_append,
      ctxAddrs_left, List.cons_append, List.append_assoc, List.mem_cons,
      List.mem_append] at hb
    rcases hb with h | h
    · omega
    · have : b < s.next := by
        refine hbound b ?_
        simp only [HTree.addrs_node, HTree.addrs_leaf, List.nil_append,
          List.cons_append, List.append_assoc, List.mem_cons,
          List.mem_append]
        tauto
      omega

/-- Attaching a fresh leaf as the right child of the focused node. -/
theorem zip_attachR {s : Heap γ} {l : HTree γ} {x : Nat} {k : Int}
    {v : Option γ} {ctx : HCtx γ} (k2 : Int) (v2 : Option γ)
    (hz : Zip s (.node l x k v .leaf) ctx) :
    Zip (⟨s.root, s.next + 1,
      updField (setMem s.mem s.next (some ⟨k2, v2, none, none, some x⟩)) x
        (fun rr => { rr with right := some s.next })⟩ : Heap γ)
      (.node .leaf s.next k2 v2 .leaf) (.right x k v l ctx) := by
  obtain ⟨hrept, hrepc, hnodup, hbound⟩ := hz
  simp only [HTree.rootA_node] at hrepc
  cases hrept with
  | node hmx hl hr =>
  have hxa : x ≠ s.next := by
    have := hbound x (by simp)
    omega
  have hold : ∀ b, b ∈ (HTree.node l x k v HTree.leaf).addrs ++
      ctxAddrs ctx → b ≠ s.next := by
    intro b hb
    have := hbound b hb
    omega
  have hm1x : setMem s.mem s.next
      (some ⟨k2, v2, none, none, some x⟩) x = s.mem x :=
    setMem_other _ _ hxa
  have hnodup2 := hnodup
  simp only [HTree.addrs_node, HTree.addrs_leaf, List.append_nil,
    List.cons_append, List.append_assoc] at hnodup2
  have hxnot := (List.nodup_cons.1 hnodup2).1
  refine ⟨?_, ?_, ?_, ?_⟩
  · refine RepT.node ?_ RepT.leaf RepT.leaf
    dsimp only
    rw [updField_other _ _ _ (Ne.symm hxa), setMem_same]
    rfl
  · refine RepCx.right ?_ ?_ ?_
    · dsimp only
      rw [updField_same (by rw [hm1x]; exact hmx)]
      rfl
    · refine RepT_mono (fun b hb => ?_) hl
      have hba : b ≠ s.next := hold b (by simp [hb])
      have hbx : b ≠ x := fun h => hxnot (by simp [← h, hb])
      dsimp only
      rw [updField_other _ _ _ hbx, setMem_other _ _ hba]
    · refine RepCx_mono (fun b hb => ?_) hrepc
      have hba : b ≠ s.next := hold b (by simp [hb])
      have hbx : b ≠ x := fun h => hxnot (by simp [← h, hb])
      dsimp only
      rw [updField_other _ _ _ hbx, setMem_other _ _ hba]
  · simp only [HTree.addrs_node, HTree.addrs_leaf, List.append_nil,
      ctxAddrs_right, List.cons_append, List.append_assoc]
    refine List.nodup_cons.2 ⟨?_, ?_⟩
    · intro hmem
      refine hold s.next ?_ rfl
      simp only [HTree.addrs_node, HTree.addrs_leaf, List.append_nil,
        List.cons_append, List.mem_cons, List.mem_append] at hmem ⊢
      tauto
    · exact hnodup2
  · intro b hb
    dsimp only
    simp only [HTree.addrs_node, HTree.addrs_leaf, List.append_nil,
      ctxAddrs_right, List.cons_append, List.append_assoc, List.mem_cons,
      List.mem_append] at hb
    rcases hb with h | h
    · omega
    · have : b < s.next := by
        refine hbound b ?_
        simp only [HTree.addrs_node, HTree.addrs_leaf, List.append_nil,
          List.cons_append, List.append_assoc, List.mem_cons,
          List.mem_append]
        tauto
      omega

/-- The `insert` descent leaves a representable heap. -/
theorem insertGo_rep : ∀ (fuel : Nat) {s : Heap γ} {l r : HTree γ}
    {x : Nat} {k : Int} {v : Option γ} {ctx : HCtx γ} (k2 : Int)
    (v2 : Option γ),
    Zip s (.node l x k v r) ctx →
    (HTree.node l x k v r).addrs.length ≤ fuel →
    ∃ ht2, RootRep (insertGo s x k2 v2 fuel) ht2 := by
  intro fuel
  induction fuel with
  | zero =>
      intro s l r x k v ctx k2 v2 hz hlen
      simp only [HTree.addrs_node, List.length_cons, List.cons_append,
        List.length_append, Nat.le_zero] at hlen
      omega
  | succ fuel ih =>
      intro s l r x k v ctx k2 v2 hz hlen
      have hmx : s.mem x = some ⟨k, v, l.rootA, r.rootA, ctxParent ctx⟩ := by
        cases hz.rept with | node hm _ _ => exact hm
      rw [insertGo, hmx]
      dsimp only
      by_cases he : k2 = k
      · rw [if_pos he]
        have hz2 := zip_setValue v2 hz
        have hd2 := ctxDepth_le_next hz2
        exact ⟨_, splayGo_zip s.next hz2 hd2⟩
      · rw [if_neg he]
        by_cases hlt : k2 < k
        · rw [if_pos hlt]
          cases l with
          | leaf =>
              have hz2 := zip_attachL k2 v2 hz
              have hd2 := ctxDepth_le_next hz2
              exact ⟨_, splayGo_zip (s.next + 1) hz2 hd2⟩
          | node ll la lk lv lr =>
              simp only [HTree.rootA_node]
              have hlen2 : (HTree.node ll la lk lv lr).addrs.length ≤
                  fuel := by
                simp only [HTree.addrs_node, List.length_cons,
                  List.cons_append, List.length_append] at hlen ⊢
                omega
              exact ih k2 v2 (zipDown_left hz) hlen2
        · rw [if_neg hlt]
          cases r with
          | leaf =>
              have hz2 := zip_attachR k2 v2 hz
              have hd2 := ctxDepth_le_next hz2
              exact ⟨_, splayGo_zip (s.next + 1) hz2 hd2⟩
          | node rl ra rk rv rr =>
              simp only [HTree.rootA_node]
              have hlen2 : (HTree.node rl ra rk rv rr).addrs.length ≤
                  fuel := by
                simp only [HTree.addrs_node, List.length_cons,
                  List.cons_append, List.length_append] at hlen ⊢
                omega
              exact ih k2 v2 (zipDown_right hz) hlen2

/-- `SplayTree.insert` preserves representability. -/
theorem heapInsert_rep {s : Heap γ} {ht : HTree γ} (h : RootRep s ht)
    (k : Int) (v : Option γ) : ∃ ht2, RootRep (heapInsert s k v) ht2 := by
  obtain ⟨hrept, hrepc, hnodup, hbound⟩ := h
  cases hrepc with
  | nil hroot =>
  cases ht with
  | leaf =>
      rw [heapInsert, show s.root = (none : Option Nat) from hroot]
      refine ⟨.node .leaf s.next k v .leaf, ?_⟩
      refine ⟨RepT.node ?_ RepT.leaf RepT.leaf, RepCx.nil rfl, ?_, ?_⟩
      · dsimp only
        rw [setMem_same]
        rfl
      · simp
      · intro b hb
        simp only [HTree.addrs_node, HTree.addrs_leaf, List.nil_append,
          ctxAddrs_nil, List.append_nil, List.mem_cons,
          List.not_mem_nil] at hb
        dsimp only
        rcases hb with h | h
        · omega
        · cases h
  | node l a k0 v0 r =>
      rw [heapInsert, show s.root = some a from hroot]
      have hz : Zip s (.node l a k0 v0 r) .nil :=
        ⟨hrept, RepCx.nil hroot, hnodup, hbound⟩
      exact insertGo_rep s.next k v hz (addrsLen_le_next hz)

/-- `SplayTree.find` preserves representability. -/
theorem heapFind_rep {s : Heap γ} {ht : HTree γ} (h : RootRep s ht)
    (k : Int) : ∃ ht2, RootRep (heapFind s k).2 ht2 := by
  obtain ⟨hrept, hrepc, hnodup, hbound⟩ := h
  cases hrepc with
  | nil hroot =>
  cases ht with
  | leaf =>
      rw [heapFind, show s.root = (none : Option Nat) from hroot]
      exact ⟨.leaf, ⟨RepT.leaf, RepCx.nil hroot, hnodup, hbound⟩⟩
  | node l a k0 v0 r =>
      rw [heapFind, show s.root = some a from hroot]
      have hz : Zip s (.node l a k0 v0 r) .nil :=
        ⟨hrept, RepCx.nil hroot, hnodup, hbound⟩
      exact findGo_rep s.next k hz (addrsLen_le_next hz)

/-- `SplayTree.minimum` preserves representability. -/
theorem heapMinimum_rep {s : Heap γ} {ht : HTree γ} (h : RootRep s ht) :
    ∃ ht2, RootRep (heapMinimum s).2 ht2 := by
  obtain ⟨hrept, hrepc, hnodup, hbound⟩ := h
  cases hrepc with
  | nil hroot =>
  cases ht with
  | leaf =>
      rw [heapMinimum, show s.root = (none : Option Nat) from hroot]
      exact ⟨.leaf, ⟨RepT.leaf, RepCx.nil hroot, hnodup, hbound⟩⟩
  | node l a k0 v0 r =>
      rw [heapMinimum, show s.root = some a from hroot]
      dsimp only
      have hz : Zip s (.node l a k0 v0 r) .nil :=
        ⟨hrept, RepCx.nil hroot, hnodup, hbound⟩
      have hlen : l.addrs.length < s.next := by
        have := addrsLen_le_next hz
        simp only [HTree.addrs_node, List.length_cons, List.cons_append,
          List.length_append] at this
        omega
      obtain ⟨A, m, mk2, mv, ctx2, hmin, hz2⟩ := minGo_zip s.next hz hlen
      rw [hmin]
      have hsp := splayGo_zip s.next hz2 (ctxDepth_le_next hz2)
      cases hmem : (splayGo s m s.next).mem m with
      | none => exact ⟨_, hsp⟩
      | some rc => exact ⟨_, hsp⟩

/-- `SplayTree.maximum` preserves representability. -/
theorem heapMaximum_rep {s : Heap γ} {ht : HTree γ} (h : RootRep s ht) :
    ∃ ht2, RootRep (heapMaximum s).2 ht2 := by
  obtain ⟨hrept, hrepc, hnodup, hbound⟩ := h
  cases hrepc with
  | nil hroot =>
  cases ht with
  | leaf =>
      rw [heapMaximum, show s.root = (none : Option Nat) from hroot]
      exact ⟨.leaf, ⟨RepT.leaf, RepCx.nil hroot, hnodup, hbound⟩⟩
  | node l a k0 v0 r =>
      rw [heapMaximum, show s.root = some a from hroot]
      dsimp only
      have hz : Zip s (.node l a k0 v0 r) .nil :=
        ⟨hrept, RepCx.nil hroot, hnodup, hbound⟩
      have hlen : r.addrs.length < s.next := by
        have := addrsLen_le_next hz
        simp only [HTree.addrs_node, List.length_cons, List.cons_append,
          List.length_append] at this
        omega
      obtain ⟨c1, A, m, mk2, mv, hro, hmax, hz2⟩ := maxGo_zip s.next hz hlen
      rw [hmax]
      have hsp := splayGo_zip s.next hz2 (ctxDepth_le_next hz2)
      cases hmem : (splayGo s m s.next).mem m with
      | none => exact ⟨_, hsp⟩
      | some rc => exact ⟨_, hsp⟩

/-- Detaching a subtree as the new whole tree, clearing its root's
parent pointer (`self.root = child; self.root.parent = None`). -/
theorem detach_rep {s : Heap γ} {par : Option Nat} {l r : HTree γ}
    {a : Nat} {k : Int} {v : Option γ}
    (hrep : RepT s.mem par (.node l a k v r))
    (hnd : (HTree.node l a k v r).addrs.Nodup)
    (hb : ∀ b ∈ (HTree.node l a k v r).addrs, b < s.next) :
    RootRep (⟨some a, s.next,
      updField s.mem a (fun rr => { rr with parent := none })⟩ : Heap γ)
      (.node l a k v r) := by
  cases hrep with
  | node hm hl hr =>
  have hanot : a ∉ l.addrs ++ r.addrs :=
    (List.nodup_cons.1 (by simpa using hnd)).1
  refine ⟨RepT.node ?_ ?_ ?_, RepCx.nil rfl, ?_, ?_⟩
  · dsimp only
    rw [updField_same hm]
    rfl
  · refine RepT_mono (fun b hb2 => ?_) hl
    dsimp only
    exact updField_other _ _ _
      (fun h => hanot (h ▸ List.mem_append_left _ hb2))
  · refine RepT_mono (fun b hb2 => ?_) hr
    dsimp only
    exact updField_other _ _ _
      (fun h => hanot (h ▸ List.mem_append_right _ hb2))
  · simpa using hnd
  · intro b hb2
    dsimp only
    refine hb b ?_
    simpa using hb2

/-- `SplayTree.delete` preserves representability. -/
theorem heapDelete_rep {s : Heap γ} {ht : HTree γ} (h : RootRep s ht)
    (k : Int) : ∃ ht2, RootRep (heapDelete s k).2 ht2 := by
  obtain ⟨hrept, hrepc, hnodup, hbound⟩ := h
  cases hrepc with
  | nil hroot =>
  cases ht with
  | leaf =>
      have hfn : heapFindNode s k = none := by
        rw [heapFindNode, show s.root = (none : Option Nat) from hroot]
      rw [heapDelete, hfn]
      exact ⟨.leaf, RepT.leaf, RepCx.nil hroot, hnodup, hbound⟩
  | node l a k0 v0 r =>
      have hz : Zip s (.node l a k0 v0 r) .nil :=
        ⟨hrept, RepCx.nil hroot, hnodup, hbound⟩
      obtain ⟨l2, r2, x2, kk, vv, ctx2, hfind, hz2⟩ :=
        findNodeGo_zip s.next k hz (addrsLen_le_next hz)
      have hfn : heapFindNode s k = some x2 := by
        rw [heapFindNode, show s.root = some a from hroot]
        exact hfind
      rw [heapDelete, hfn]
      dsimp only
      have hmx2 : s.mem x2 =
          some ⟨kk, vv, l2.rootA, r2.rootA, ctxParent ctx2⟩ := by
        cases hz2.rept with | node hm _ _ => exact hm
      rw [hmx2]
      dsimp only
      by_cases hkk : kk = k
      · rw [if_neg (fun hc => hc hkk)]
        have hsp := splayGo_zip s.next hz2 (ctxDepth_le_next hz2)
        obtain ⟨L1, R1, hshape⟩ :=
          hsplay_shape (ctxDepth ctx2) ctx2 le_rfl l2 r2 x2 kk vv
        rw [hshape] at hsp
        have hm1x : (splayGo s x2 s.next).mem x2 =
            some ⟨kk, vv, L1.rootA, R1.rootA, none⟩ := by
          cases hsp.rept with | node hm _ _ => exact hm
        rw [readLeft_eq hm1x]
        cases L1 with
        | leaf =>
            simp only [HTree.rootA_leaf]
            rw [readRight_eq hm1x]
            cases R1 with
            | leaf =>
                refine ⟨.leaf, RepT.leaf, RepCx.nil rfl, by simp, ?_⟩
                intro b hb
                simp at hb
            | node rl2 ra2 rk2 rv2 rr2 =>
                simp only [HTree.rootA_node]
                have hrept1 := hsp.rept
                cases hrept1 with
                | node hm1 hL1 hR1 =>
                refine ⟨_, detach_rep hR1 ?_ ?_⟩
                · have := hsp.nodup
                  simp only [HTree.addrs_node, HTree.addrs_leaf,
                    ctxAddrs_nil, List.append_nil, List.nil_append,
                    List.cons_append] at this
                  exact (List.nodup_cons.1 this).2
                · intro b hb
                  refine hsp.bound b ?_
                  simp only [HTree.addrs_node, HTree.addrs_leaf,
                    ctxAddrs_nil, List.append_nil, List.nil_append,
                    List.cons_append, List.mem_cons] at hb ⊢
                  tauto
        | node ll2 la2 lk2 lv2 lr2 =>
            simp only [HTree.rootA_node]
            rw [readRight_eq hm1x]
            cases R1 with
            | leaf =>
                simp only [HTree.rootA_leaf]
                have hrept1 := hsp.rept
                cases hrept1 with
                | node hm1 hL1 hR1 =>
                refine ⟨_, detach_rep hL1 ?_ ?_⟩
                · have := hsp.nodup
                  simp only [HTree.addrs_node, HTree.addrs_leaf,
                    ctxAddrs_nil, List.append_nil, List.append_assoc,
                    List.cons_append] at this
                  have h2 := (List.nodup_cons.1 this).2
                  simpa using h2
                · intro b hb
                  refine hsp.bound b ?_
                  simp only [HTree.addrs_node, HTree.addrs_leaf,
                    ctxAddrs_nil, List.append_nil, List.nil_append,
                    List.append_assoc, List.cons_append, List.mem_cons,
                    List.mem_append] at hb ⊢
                  tauto
            | node rl2 ra2 rk2 rv2 rr2 =>
                simp only [HTree.rootA_node]
                have hzL := zipDown_left hsp
                have hlenL : lr2.addrs.length <
                    (splayGo s x2 s.next).next := by
                  have := addrsLen_le_next hzL
                  simp only [HTree.addrs_node, List.length_cons,
                    List.cons_append, List.length_append] at this
                  omega
                obtain ⟨c1, A3, lm, mk3, mv3, hro, hmaxeq, hz3⟩ :=
                  maxGo_zip _ hzL hlenL
                rw [hmaxeq]
                have hsp2 := splayGo_zip ((splayGo s x2 s.next).next) hz3
                  (ctxDepth_le_next hz3)
                obtain ⟨B3, hBeq⟩ := hsplay_spine (ctxDepth c1) c1 le_rfl hro
                  A3 (.node rl2 ra2 rk2 rv2 rr2) lm x2 mk3 kk mv3 vv
                rw [hBeq] at hsp2
                have hrept2 := hsp2.rept
                cases hrept2 with
                | node hmlm hB3 hrt =>
                cases hrt with
                | node hmx2b hleaf hR1b =>
                rw [readRight_eq hmx2b]
                simp only [HTree.rootA_node]
                have hnd2 := hsp2.nodup
                simp only [HTree.addrs_node, HTree.addrs_leaf,
                  ctxAddrs_nil, List.append_nil, List.nil_append,
                  List.cons_append, List.append_assoc] at hnd2
                obtain ⟨hlmnot, hnd3⟩ := List.nodup_cons.1 hnd2
                rw [List.nodup_append] at hnd3
                obtain ⟨hndB3, hnd4, hdisB3⟩ := hnd3
                obtain ⟨hx2not, hnd5⟩ := List.nodup_cons.1 hnd4
                obtain ⟨hra2not, hnd6⟩ := List.nodup_cons.1 hnd5
                have hlmra2 : lm ≠ ra2 := fun h =>
                  hlmnot (by simp [h])
                cases hR1b with
                | node hmra2 hrl2 hrr2 =>
                have hra2lm : ra2 ≠ lm := fun h => hlmra2 h.symm
                refine ⟨.node B3 lm mk3 mv3
                  (.node rl2 ra2 rk2 rv2 rr2), ?_, RepCx.nil rfl, ?_, ?_⟩
                · refine RepT.node ?_ ?_ (RepT_reparent
                    (RepT.node hmra2 hrl2 hrr2) ?_ ?_)
                  · dsimp only
                    rw [updField_other _ _ _ hlmra2, updField_same hmlm]
                    rfl
                  · refine RepT_mono (fun b hb => ?_) hB3
                    have hbra2 : b ≠ ra2 := fun h =>
                      hdisB3 hb (by simp [← h])
                    have hblm : b ≠ lm := fun h =>
                      hlmnot (by simp [← h, hb])
                    dsimp only
                    rw [updField_other _ _ _ hbra2,
                      updField_other _ _ _ hblm]
                  · dsimp only
                    rw [updField_same (show updField
                        ((splayGo (splayGo s x2 s.next) lm
                          (splayGo s x2 s.next).next).mem) lm
                        (fun rr => { rr with right := some ra2 }) ra2 =
                        some ⟨rk2, rv2, rl2.rootA, rr2.rootA, some x2⟩ from by
                      rw [updField_other _ _ _ hra2lm]
                      exact hmra2)]
                    rw [hmra2]
                    rfl
                  · intro b hb
                    have hb2 := List.mem_append.1 hb
                    have hbra2 : b ≠ ra2 := fun h => hra2not (by
                      rw [← h]; exact hb)
                    have hblm : b ≠ lm := fun h =>
                      hlmnot (by simp [← h]; tauto)
                    dsimp only
                    rw [updField_other _ _ _ hbra2,
                      updField_other _ _ _ hblm]
                · simp only [HTree.addrs_node, ctxAddrs_nil,
                    List.append_nil, List.cons_append, List.append_assoc]
                  have hsub : (lm :: (B3.addrs ++ (ra2 ::
                      (rl2.addrs ++ rr2.addrs)))).Sublist
                      (lm :: (B3.addrs ++ (x2 :: (ra2 ::
                        (rl2.addrs ++ rr2.addrs))))) :=
                    List.Sublist.cons₂ _ (List.Sublist.append_left
                      (List.sublist_cons_self _ _) _)
                  exact List.Pairwise.sublist hsub hnd2
                · intro b hb
                  dsimp only
                  refine hsp2.bound b ?_
                  simp only [HTree.addrs_node, HTree.addrs_leaf,
                    ctxAddrs_nil, List.append_nil, List.nil_append,
                    List.cons_append, List.append_assoc, List.mem_cons,
                    List.mem_append] at hb ⊢
                  tauto
      · rw [if_pos hkk]
        exact ⟨.node l a k0 v0 r, hrept, RepCx.nil hroot, hnodup, hbound⟩

/-- The root record of a represented subtree stores the given parent. -/
theorem RepT_root_parent {m : Nat → Option (NodeRec γ)} {par : Option Nat}
    {t : HTree γ} (h : RepT m par t) {b : Nat} (hb : t.rootA = some b) :
    readParent m b = par := by
  cases t with
  | leaf => simp [HTree.rootA] at hb
  | node l a k v r =>
      cases h with
      | node hm _ _ =>
          have hab : a = b := by simpa using hb
          subst hab
          rw [readParent_eq hm]

/-- In a represented tree, every node's children point back at it. -/
theorem RepT_parents {m : Nat → Option (NodeRec γ)} :
    ∀ {t : HTree γ} {par : Option Nat}, RepT m par t →
    ∀ a ∈ t.addrs, ∀ rec, m a = some rec →
      (∀ b, rec.left = some b → readParent m b = some a) ∧
      (∀ b, rec.right = some b → readParent m b = some a) := by
  intro t
  induction t with
  | leaf =>
      intro par _ a ha
      simp at ha
  | node l c k v r ihl ihr =>
      intro par hrep a ha rec hrec
      cases hrep with
      | node hm hl hr =>
      simp only [HTree.addrs_node, List.cons_append, List.mem_cons,
        List.mem_append] at ha
      rcases ha with rfl | ha | ha
      · rw [hm] at hrec
        injection hrec with hrec
        subst hrec
        constructor
        · intro b hb
          exact RepT_root_parent hl hb
        · intro b hb
          exact RepT_root_parent hr hb
      · exact ihl hl a ha rec hrec
      · exact ihr hr a ha rec hrec

/-- The empty tree's heap represents the empty address tree. -/
theorem emptyHeap_rep : RootRep (emptyHeap : Heap γ) .leaf :=
  ⟨RepT.leaf, RepCx.nil rfl, by simp, by simp⟩

/-- Every public operation preserves representability. -/
theorem applyHeapOp_rep {s : Heap γ} {ht : HTree γ} (h : RootRep s ht)
    (o : Op γ) : ∃ ht2, RootRep (applyHeapOp s o) ht2 := by
  cases o with
  | ins k v => exact heapInsert_rep h k v
  | del k => exact heapDelete_rep h k
  | fnd k => exact heapFind_rep h k
  | min => exact heapMinimum_rep h
  | max => exact heapMaximum_rep h

/-- Any operation sequence preserves representability. -/
theorem applyHeapOps_rep : ∀ (ops : List (Op γ)) {s : Heap γ}
    {ht : HTree γ}, RootRep s ht →
    ∃ ht2, RootRep (applyHeapOps s ops) ht2 := by
  intro ops
  induction ops with
  | nil => intro s ht h; exact ⟨ht, h⟩
  | cons o rest ih =>
      intro s ht h
      obtain ⟨ht2, h2⟩ := applyHeapOp_rep h o
      exact ih h2

/-- **C8.** For every reachable heap — after any sequence of public
operations starting from the empty tree — the pointer structure is a
well-formed tree: some address tree `ht` represents the whole heap; for
every node in it, a left or right child's `parent` field points back at
that node; and the root's parent is null.  Hence every operation
preserves the parent-pointer invariant. -/
theorem claim_C8 (γ : Type) (ops : List (Op γ)) :
    ∃ ht : HTree γ,
      RootRep (applyHeapOps (emptyHeap : Heap γ) ops) ht ∧
      (∀ a ∈ ht.addrs, ∀ rec,
        (applyHeapOps (emptyHeap : Heap γ) ops).mem a = some rec →
        (∀ b, rec.left = some b →
          readParent (applyHeapOps (emptyHeap : Heap γ) ops).mem b =
            some a) ∧
        (∀ b, rec.right = some b →
          readParent (applyHeapOps (emptyHeap : Heap γ) ops).mem b =
            some a)) ∧
      (∀ rt, (applyHeapOps (emptyHeap : Heap γ) ops).root = some rt →
        readParent (applyHeapOps (emptyHeap : Heap γ) ops).mem rt =
          none) := by
  obtain ⟨ht, hrep⟩ := applyHeapOps_rep ops emptyHeap_rep
  refine ⟨ht, hrep, ?_, ?_⟩
  · intro a ha rec hrec
    exact RepT_parents hrep.rept a ha rec hrec
  · intro rt hrt
    cases hrepc : hrep.repc with
    | nil he =>
        have hra : ht.rootA = some rt := by rw [← he, hrt]
        exact RepT_root_parent hrep.rept hra

end SplayTree
